import Mathlib

/-! The stamp rasteriser of libdrawille (`src/stamp.c`).

A shallow embedding of `stamp.c` and a verification of its specification.

* C `int` is `Int`; all statements are about runs without integer overflow.
* C `float` coordinates are idealised as rationals (`ℚ`): the conversions the
  code performs on them (`roundf(16.0f * f)`, the cast `(int) f`) are exact
  operations on the rational value of a float, and the conversion of an integer
  to `float` is taken as exact.
* The canvas, the polygon vector and the matrix live in other files of the
  library; what `stamp.c` uses of them is modelled from the specification and
  marked as such.
* Stateful code is written in state-passing style; the pixel writers are
  arguments, as the writer of `fill_triangle` is in C.
-/

namespace Drawille

/-! ## Collaborators of `stamp.c` -/

/-- Modelled from the spec: `Point` is `{x, y}`, real-valued; the type is declared outside
`stamp.c`. The float coordinates are idealised as rationals. -/
structure Point where
  x : ℚ
  y : ℚ
deriving DecidableEq

/-- Modelled from the spec: the binary foreground/background colour selector (the enum is
declared outside `stamp.c`, which only compares a colour with `WHITE`). -/
inductive Color where
  | BLACK
  | WHITE
deriving DecidableEq

/-- Modelled from the spec: the affine matrix, a 3×3 transform over homogeneous 2D
coordinates (declared outside `stamp.c`); `mij` is the entry in row `i`, column `j`. -/
structure mat3 where
  m00 : ℚ
  m01 : ℚ
  m02 : ℚ
  m10 : ℚ
  m11 : ℚ
  m12 : ℚ
  m20 : ℚ
  m21 : ℚ
  m22 : ℚ
deriving DecidableEq

/-- The identity transform. -/
def mat3.identity : mat3 := ⟨1, 0, 0, 0, 1, 0, 0, 0, 1⟩

/-- Modelled from the spec: `new_mat3` allocates a fresh identity matrix ("default state is
identity"); `ok` says whether the allocation succeeds. -/
def new_mat3 (ok : Bool) : Option mat3 :=
  if ok then some mat3.identity else none

/-- Modelled from the spec: `reset_mat3` puts a matrix back to the identity. -/
def reset_mat3 (_m : mat3) : mat3 := mat3.identity

/-- Modelled from the spec: `transform_point` is the "transform a single point" operation,
the affine image of a point under a matrix. -/
def transform_point (v : Point) (m : mat3) : Point :=
  ⟨m.m00 * v.x + m.m01 * v.y + m.m02, m.m10 * v.x + m.m11 * v.y + m.m12⟩

/-- Modelled from the spec: `Polygon` is an ordered sequence of points, a count of valid
vertices (`next`, the index of the next free slot) and a closed flag. The vertex storage is a
raw C buffer that `stamp.c` indexes without a bounds check, so it is a total map from index
to point: the slots at indices `≥ next` hold whatever the storage holds. -/
structure Polygon where
  vertices : Nat → Point
  next : Nat
  closed : Bool

/-- Modelled from the spec: `new_polygon` creates an empty, open polygon; `storage` is the
outcome of the allocation: `none` when it fails, else the initial content of the buffer. -/
def new_polygon (storage : Option (Nat → Point)) : Option Polygon :=
  storage.map fun buf => ⟨buf, 0, false⟩

/-- Modelled from the spec: `add_vertex` appends a vertex to the sequence. -/
def add_vertex (p : Polygon) (v : Point) : Polygon :=
  { p with vertices := Function.update p.vertices p.next v, next := p.next + 1 }

/-- Modelled from the spec: `close_polygon` marks the topology fixed (sets the closed
flag). -/
def close_polygon (p : Polygon) : Polygon :=
  { p with closed := true }

/-- Modelled from the spec: `transform_polygon` applies the transform to every valid
vertex, in place. -/
def transform_polygon (p : Polygon) (m : mat3) : Polygon :=
  { p with vertices := fun i => if i < p.next then transform_point (p.vertices i) m
                                else p.vertices i }

/-- Modelled from the spec: the canvas is an external collaborator with a width, a height
and a pixel store; `stamp.c` reads the two dimensions and writes pixels only through the
pixel writers. The representation `σ` of the store is left open. -/
structure Canvas (σ : Type) where
  width : Int
  height : Int
  store : σ

/-- The pixel writers `stamp.c` calls, which are defined with the canvas:
`set_pixel(canvas, color, x, y)` and the two unchecked writers used by the fill. -/
structure CanvasApi (σ : Type) where
  set_pixel : Canvas σ → Color → Int → Int → Canvas σ
  set_white_pixel_unsafe : Canvas σ → Int → Int → Canvas σ
  set_black_pixel_unsafe : Canvas σ → Int → Int → Canvas σ

/-- The tag of a stamp: `s->type` is compared with `POLYGON` and `BITMAP`. -/
inductive StampType where
  | POLYGON
  | BITMAP
deriving DecidableEq

/-- Modelled from the spec: `Stamp` (declared in `stamp.h`) is a tagged wrapper around a
polygon or a bitmap that owns one matrix. `polygon` and `bitmap` are nullable pointers
(`free_stamp` and `apply_matrix` test them), `tr_matrix` points to the stamp's matrix. -/
structure Stamp where
  type : StampType
  polygon : Option Polygon
  bitmap : Option (Canvas (Int → Int → Color))
  tr_matrix : mat3

/-! ## C arithmetic -/

/-- C `roundf` on the rational value of a float: round to nearest, halfway cases away
from zero. -/
def roundf (f : ℚ) : Int :=
  if 0 ≤ f then ⌊f + 1 / 2⌋ else -⌊-f + 1 / 2⌋

/-- The C cast `(int) f` of a float: truncation toward zero. -/
def float_to_int (f : ℚ) : Int :=
  if 0 ≤ f then ⌊f⌋ else ⌈f⌉

/-- The shift `v << k` of an `int` (no overflow): multiplication by `2^k`. -/
def shl (v : Int) (k : Nat) : Int := v * 2 ^ k

/-- The shift `v >> k` of an `int`: the arithmetic shift, division by `2^k` rounding
down. -/
def shr (v : Int) (k : Nat) : Int := v >>> k

/-- The expression `v & ~(q - 1)` on two's complement integers. -/
def and_not_mask (v q : Int) : Int := Int.land v (Int.lnot (q - 1))

/-- The loop `for (int v = lo; v < hi; v += step) state = body v state`, for a positive
constant `step` and a bound `hi` that the body does not change: the body runs at
`lo, lo + step, ...` as long as the counter is below `hi`. -/
def for_lt {α : Type} (lo hi step : Int) (body : Int → α → α) (s : α) : α :=
  (List.range ((hi - lo + (step - 1)) / step).toNat).foldl
    (fun st (k : Nat) => body (lo + step * (k : Int)) st) s

/-! ## `stamp.c`: constructors -/

/-- Function `new_polygon_stamp`: `raw` is the outcome of `malloc(sizeof(Stamp))` (`none` when it
fails, else the uninitialised content of the block) and `mat_ok` says whether `new_mat3`
succeeds. Only the fields `polygon` and `tr_matrix` are assigned. -/
def new_polygon_stamp (raw : Option Stamp) (mat_ok : Bool) (p : Polygon) : Option Stamp :=
  match raw with
  | none => none
  | some s =>
    match new_mat3 mat_ok with
    | none => none
    | some m => some { s with polygon := some p, tr_matrix := m }

/-- Function `new_rectangle_stamp`: `storage`, `raw` and `mat_ok` are the outcomes of the three
allocations. -/
def new_rectangle_stamp (storage : Option (Nat → Point)) (raw : Option Stamp)
    (mat_ok : Bool) (width height : Nat) : Option Stamp :=
  match new_polygon storage with
  | none => none
  | some p =>
    let p := add_vertex p ⟨0, 0⟩
    let p := add_vertex p ⟨(width : ℚ), 0⟩
    let p := add_vertex p ⟨(width : ℚ), (height : ℚ)⟩
    let p := add_vertex p ⟨0, (height : ℚ)⟩
    let p := close_polygon p
    new_polygon_stamp raw mat_ok p

/-- Function `apply_matrix`: transforms the polygon, if there is one, and resets the matrix. -/
def apply_matrix (s : Stamp) : Stamp :=
  let s := match s.polygon with
    | some p => { s with polygon := some (transform_polygon p s.tr_matrix) }
    | none => s
  { s with tr_matrix := reset_mat3 s.tr_matrix }

/-! ## `stamp.c`: the line rasteriser -/

/-- The `for(;;)` loop of `bresenham`; `set` is the pixel write of one iteration. The loop
has no syntactic bound, so it runs on fuel: `none` means the fuel ran out before the
`break`. -/
def bresenham_loop {κ : Type} (set : κ → Int → Int → κ) (dx dy incx incy x2 y2 : Int) :
    Nat → κ → Int → Int → Int → Option κ
  | 0, _, _, _, _ => none
  | fuel + 1, c, x1, y1, err =>
    let c := set c x1 y1
    if x1 = x2 ∧ y1 = y2 then some c
    else
      let e2 := err
      let err := if e2 > -dx then err - dy else err
      let x1 := if e2 > -dx then x1 + incx else x1
      let err := if e2 < dy then err + dx else err
      let y1 := if e2 < dy then y1 + incy else y1
      bresenham_loop set dx dy incx incy x2 y2 fuel c x1 y1 err

/-- The body of `bresenham` for an arbitrary pixel write `set`. -/
def bresenham_with {κ : Type} (set : κ → Int → Int → κ) (fuel : Nat) (c : κ)
    (x1 y1 x2 y2 : Int) : Option κ :=
  let dx : Int := |x2 - x1|
  let dy : Int := |y2 - y1|
  let incx : Int := if x1 < x2 then 1 else -1
  let incy : Int := if y1 < y2 then 1 else -1
  let err : Int := Int.tdiv (if dx > dy then dx else -dy) 2
  bresenham_loop set dx dy incx incy x2 y2 fuel c x1 y1 err

/-- Function `bresenham`: the pixel write is `set_pixel(c, color, x, y)`. -/
def bresenham {σ : Type} (api : CanvasApi σ) (fuel : Nat) (c : Canvas σ) (color : Color)
    (x1 y1 x2 y2 : Int) : Option (Canvas σ) :=
  bresenham_with (fun c x y => api.set_pixel c color x y) fuel c x1 y1 x2 y2

/-- The loop of `draw_stamp_outline` from index `i`, for `n` more iterations; `line` draws
one segment. -/
def outline_loop {κ : Type} (line : κ → Int → Int → Int → Int → Option κ)
    (p : Polygon) (m : mat3) : Nat → Nat → κ → Option κ
  | _, 0, c => some c
  | i, n + 1, c =>
    let src := transform_point (p.vertices (i - 1)) m
    let dst := transform_point (p.vertices i) m
    match line c (float_to_int src.x) (float_to_int src.y)
        (float_to_int dst.x) (float_to_int dst.y) with
    | none => none
    | some c => outline_loop line p m (i + 1) n c

/-- The body of `draw_stamp_outline` for an arbitrary line drawer. The result is the status,
the canvas and the stamp as the call leaves it (the stamp is passed as `const Stamp*`);
`none` is a run that does not return (a null polygon is dereferenced, or a line runs out of
fuel). The loop `for (i = 1; i < next; i++)` runs `next - 1` times. -/
def draw_stamp_outline_with {κ : Type} (line : κ → Int → Int → Int → Int → Option κ)
    (c : κ) (s : Stamp) : Option (Int × κ × Stamp) :=
  if s.type = StampType.BITMAP then some (-1, c, s)
  else
    match s.polygon with
    | none => none
    | some p =>
      match outline_loop line p s.tr_matrix 1 (p.next - 1) c with
      | none => none
      | some c => some (1, c, s)

/-- Function `draw_stamp_outline`: each segment is drawn by `bresenham`. -/
def draw_stamp_outline {σ : Type} (api : CanvasApi σ) (fuel : Nat) (c : Canvas σ)
    (color : Color) (s : Stamp) : Option (Int × Canvas σ × Stamp) :=
  draw_stamp_outline_with (fun c x1 y1 x2 y2 => bresenham api fuel c color x1 y1 x2 y2) c s

/-! ## `stamp.c`: the triangle rasteriser -/

/-- Function `to_fixed`: conversion to 28.4 fixed point. -/
def to_fixed (f : ℚ) : Int := roundf (16 * f)

/-- The static `min` of `stamp.c` (three arguments, clamped below by 0). -/
def stamp_min (a b c : Int) : Int :=
  let smaller := if a < b then a else b
  let smaller := if c < smaller then c else smaller
  if 0 > smaller then 0 else smaller

/-- The static `max` of `stamp.c` (three arguments, clamped above by `m`). -/
def stamp_max (a b c m : Int) : Int :=
  let bigger := if a > b then a else b
  let bigger := if c > bigger then c else bigger
  if m < bigger then m else bigger

/-- Function `half_space`: the 4-bit mask of the block corners on the positive side of an edge. -/
def half_space (C DX DY x0 y0 x1 y1 : Int) : Nat :=
  let a00 := decide (C + DX * y0 - DY * x0 > 0)
  let a10 := decide (C + DX * y0 - DY * x1 > 0)
  let a01 := decide (C + DX * y1 - DY * x0 > 0)
  let a11 := decide (C + DX * y1 - DY * x1 > 0)
  a00.toNat ||| (a10.toNat <<< 1) ||| (a01.toNat <<< 2) ||| (a11.toNat <<< 3)

/-- The half-edge constants of the three edges of a triangle, the fill-convention
correction included, with the deltas they belong to. -/
structure EdgeSetup where
  C1 : Int
  C2 : Int
  C3 : Int
  DX12 : Int
  DX23 : Int
  DX31 : Int
  DY12 : Int
  DY23 : Int
  DY31 : Int
deriving DecidableEq

/-- The deltas and the corrected half-edge constants that `fill_triangle` computes from the
fixed-point vertices. -/
def edge_setup (X1 Y1 X2 Y2 X3 Y3 : Int) : EdgeSetup :=
  let DX12 := X1 - X2
  let DX23 := X2 - X3
  let DX31 := X3 - X1
  let DY12 := Y1 - Y2
  let DY23 := Y2 - Y3
  let DY31 := Y3 - Y1
  let C1 := DY12 * X1 - DX12 * Y1
  let C2 := DY23 * X2 - DX23 * Y2
  let C3 := DY31 * X3 - DX31 * Y3
  let C1 := if DY12 < 0 ∨ (DY12 = 0 ∧ DX12 > 0) then C1 + 1 else C1
  let C2 := if DY23 < 0 ∨ (DY23 = 0 ∧ DX23 > 0) then C2 + 1 else C2
  let C3 := if DY31 < 0 ∨ (DY31 = 0 ∧ DX31 > 0) then C3 + 1 else C3
  ⟨C1, C2, C3, DX12, DX23, DX31, DY12, DY23, DY31⟩

/-- The per-pixel loops of a partially covered block: the edge functions are stepped
incrementally (`CX -= FDY` along a row, `CY += FDX` from row to row). -/
def partial_block {κ : Type} (set_pixel : κ → Int → Int → κ) (e : EdgeSetup)
    (x y : Int) (canvas : κ) : κ :=
  let q : Int := 8
  let FDX12 := shl e.DX12 4
  let FDX23 := shl e.DX23 4
  let FDX31 := shl e.DX31 4
  let FDY12 := shl e.DY12 4
  let FDY23 := shl e.DY23 4
  let FDY31 := shl e.DY31 4
  let x0 := shl x 4
  let y0 := shl y 4
  let CY1 := e.C1 + e.DX12 * y0 - e.DY12 * x0
  let CY2 := e.C2 + e.DX23 * y0 - e.DY23 * x0
  let CY3 := e.C3 + e.DX31 * y0 - e.DY31 * x0
  (for_lt y (y + q) 1
    (fun iy (st : κ × Int × Int × Int) =>
      let row := for_lt x (x + q) 1
        (fun ix (sx : κ × Int × Int × Int) =>
          let cv := if sx.2.1 > 0 ∧ sx.2.2.1 > 0 ∧ sx.2.2.2 > 0
            then set_pixel sx.1 ix iy else sx.1
          (cv, sx.2.1 - FDY12, sx.2.2.1 - FDY23, sx.2.2.2 - FDY31))
        (st.1, st.2.1, st.2.2.1, st.2.2.2)
      (row.1, st.2.1 + FDX12, st.2.2.1 + FDX23, st.2.2.2 + FDX31))
    (canvas, CY1, CY2, CY3)).1

/-- The loops of a totally covered block: every pixel of the block is written. -/
def full_block {κ : Type} (set_pixel : κ → Int → Int → κ) (x y : Int) (canvas : κ) : κ :=
  let q : Int := 8
  for_lt y (y + q) 1 (fun iy cv => for_lt x (x + q) 1 (fun ix cv => set_pixel cv ix iy) cv)
    canvas

/-- The body of the block loops of `fill_triangle` for the 8×8 block at `(x, y)`. -/
def fill_block {κ : Type} (set_pixel : κ → Int → Int → κ) (e : EdgeSetup)
    (x y : Int) (canvas : κ) : κ :=
  let q : Int := 8
  let x0 := shl x 4
  let x1 := shl (x + q - 1) 4
  let y0 := shl y 4
  let y1 := shl (y + q - 1) 4
  let a := half_space e.C1 e.DX12 e.DY12 x0 y0 x1 y1
  let b := half_space e.C2 e.DX23 e.DY23 x0 y0 x1 y1
  let c := half_space e.C3 e.DX31 e.DY31 x0 y0 x1 y1
  if a = 0x0 ∨ b = 0x0 ∨ c = 0x0 then canvas
  else if a = 0xF ∧ b = 0xF ∧ c = 0xF then full_block set_pixel x y canvas
  else partial_block set_pixel e x y canvas

/-- The block-snapped lower bound of the bounding rectangle on one axis. -/
def lower_bound (A1 A2 A3 : Int) : Int :=
  and_not_mask (shr (stamp_min A1 A2 A3 + 0xF) 4) 8

/-- The clipped upper bound of the bounding rectangle on one axis; `size` is the canvas
width or height, converted by `to_fixed`. -/
def upper_bound (A1 A2 A3 size : Int) : Int :=
  shr (stamp_max A1 A2 A3 (to_fixed (size : ℚ)) + 0xF) 4

/-- The part of `fill_triangle` after the conversion of the vertices to fixed point, for a
canvas of the given width and height and an arbitrary pixel write. -/
def fill_triangle_fixed {κ : Type} (set_pixel : κ → Int → Int → κ) (width height : Int)
    (X1 Y1 X2 Y2 X3 Y3 : Int) (canvas : κ) : κ :=
  let minx := lower_bound X1 X2 X3
  let maxx := upper_bound X1 X2 X3 width
  let miny := lower_bound Y1 Y2 Y3
  let maxy := upper_bound Y1 Y2 Y3 height
  let q : Int := 8
  let e := edge_setup X1 Y1 X2 Y2 X3 Y3
  for_lt miny maxy q
    (fun y cv => for_lt minx maxx q (fun x cv => fill_block set_pixel e x y cv) cv) canvas

/-- Function `fill_triangle`. -/
def fill_triangle {σ : Type} (canvas : Canvas σ) (v1 v2 v3 : Point)
    (set_pixel : Canvas σ → Int → Int → Canvas σ) : Canvas σ :=
  fill_triangle_fixed set_pixel canvas.width canvas.height
    (to_fixed v1.x) (to_fixed v1.y) (to_fixed v2.x) (to_fixed v2.y)
    (to_fixed v3.x) (to_fixed v3.y) canvas

/-- The loop of `fill_shape` from index `i`, for `n` more iterations; `tri` fills one
triangle. -/
def fan_loop {κ : Type} (tri : κ → Point → Point → Point → κ) (p : Polygon) (m : mat3)
    (p1 : Point) : Nat → Nat → Point → κ → κ
  | _, 0, _, c => c
  | i, n + 1, p2, c =>
    let p3 := transform_point (p.vertices i) m
    fan_loop tri p m p1 (i + 1) n p3 (tri c p3 p2 p1)

/-- The body of `fill_shape` for arbitrary triangle fillers (`white` is the call in the
`color == WHITE` branch, `black` the other). The result is the status, the canvas and the
stamp as the call leaves it; `none` is a run that dereferences a null polygon. The loop
`for (i = 2; i <= next; i++)` runs `next + 1 - 2` times. -/
def fill_shape_with {κ : Type} (white black : κ → Point → Point → Point → κ)
    (c : κ) (color : Color) (s : Stamp) : Option (Int × κ × Stamp) :=
  match s.polygon with
  | none => none
  | some p =>
    let p1 := transform_point (p.vertices 0) s.tr_matrix
    let p2 := transform_point (p.vertices 1) s.tr_matrix
    let tri := fun c p3 p2 p1 => if color = Color.WHITE then white c p3 p2 p1
                                 else black c p3 p2 p1
    some (1, fan_loop tri p s.tr_matrix p1 2 (p.next + 1 - 2) p2 c, s)

/-- Function `fill_shape`: the triangles are filled by `fill_triangle` with the unchecked writer of
the colour. -/
def fill_shape {σ : Type} (api : CanvasApi σ) (c : Canvas σ) (color : Color) (s : Stamp) :
    Option (Int × Canvas σ × Stamp) :=
  fill_shape_with (fun c p3 p2 p1 => fill_triangle c p3 p2 p1 api.set_white_pixel_unsafe)
    (fun c p3 p2 p1 => fill_triangle c p3 p2 p1 api.set_black_pixel_unsafe) c color s

/-! ## The canvas of the specification and a recording canvas -/

/-- Modelled from the spec: `set_pixel` is the bounds-checked pixel write. -/
def set_pixel_checked (c : Canvas (Int → Int → Color)) (color : Color) (x y : Int) :
    Canvas (Int → Int → Color) :=
  if 0 ≤ x ∧ x < c.width ∧ 0 ≤ y ∧ y < c.height then
    { c with store := fun i j => if i = x ∧ j = y then color else c.store i j }
  else c

/-- Modelled from the spec: an unchecked pixel writer sets the pixel at the coordinates it
is given, whatever they are. -/
def set_pixel_unchecked (color : Color) (c : Canvas (Int → Int → Color)) (x y : Int) :
    Canvas (Int → Int → Color) :=
  { c with store := fun i j => if i = x ∧ j = y then color else c.store i j }

/-- Modelled from the spec: the pixel writers of the canvas. -/
def pixel_api : CanvasApi (Int → Int → Color) where
  set_pixel := set_pixel_checked
  set_white_pixel_unsafe := set_pixel_unchecked Color.WHITE
  set_black_pixel_unsafe := set_pixel_unchecked Color.BLACK

/-- A blank canvas: every pixel has the background colour. -/
def blank_canvas (width height : Int) : Canvas (Int → Int → Color) :=
  ⟨width, height, fun _ _ => Color.BLACK⟩

/-- A pixel write that records the coordinates it is called with, in call order. -/
def record (l : List (Int × Int)) (x y : Int) : List (Int × Int) := l ++ [(x, y)]

/-- The pixels `fill_triangle` writes on a canvas of the given size for the given
fixed-point vertices, in the order of the writes. -/
def triangle_writes (width height X1 Y1 X2 Y2 X3 Y3 : Int) : List (Int × Int) :=
  fill_triangle_fixed record width height X1 Y1 X2 Y2 X3 Y3 []

/-! ## Auxiliary definitions for the statements -/

/-- The values of the counter of `for (v = lo; v < hi; v += step)`. -/
def steps (lo hi step : Int) : List Int :=
  (List.range ((hi - lo + (step - 1)) / step).toNat).map fun (k : Nat) => lo + step * (k : Int)

/-- The edge function of an edge with constant `C` and deltas `DX`, `DY` at the pixel
`(ix, iy)`, whose fixed-point coordinates are `(16 * ix, 16 * iy)`. -/
def edge_fn (C DX DY ix iy : Int) : Int := C + DX * (16 * iy) - DY * (16 * ix)

/-- The per-pixel test: the three corrected edge functions are strictly positive. -/
def inside (e : EdgeSetup) (ix iy : Int) : Prop :=
  edge_fn e.C1 e.DX12 e.DY12 ix iy > 0 ∧ edge_fn e.C2 e.DX23 e.DY23 ix iy > 0 ∧
    edge_fn e.C3 e.DX31 e.DY31 ix iy > 0

instance (e : EdgeSetup) (ix iy : Int) : Decidable (inside e ix iy) := by
  unfold inside; infer_instance

/-- Row `ky` of the block at `(x, y)`: its pixels that pass the test `P`, left to right. -/
def row_pixels (P : Int → Int → Prop) [∀ i j, Decidable (P i j)] (x y : Int) (ky : Nat) :
    List (Int × Int) :=
  ((List.range 8).filter fun (kx : Nat) => P (x + kx) (y + ky)).map
    fun (kx : Nat) => (x + (kx : Int), y + (ky : Int))

/-- The pixels of the 8×8 block at `(x, y)` that pass the test `P`, row by row. -/
def block_pixels (P : Int → Int → Prop) [∀ i j, Decidable (P i j)] (x y : Int) :
    List (Int × Int) :=
  (List.range 8).flatMap fun (ky : Nat) => row_pixels P x y ky

/-- Writing a list of pixels, in order. -/
def write_all {κ : Type} (set_pixel : κ → Int → Int → κ) (c : κ) (l : List (Int × Int)) : κ :=
  l.foldl (fun c p => set_pixel c p.1 p.2) c

/-- The pixels `fill_triangle` writes, block by block: the pixels of the iterated blocks
that pass the per-pixel test. -/
def tri_pixels (width height X1 Y1 X2 Y2 X3 Y3 : Int) : List (Int × Int) :=
  (steps (lower_bound Y1 Y2 Y3) (upper_bound Y1 Y2 Y3 height) 8).flatMap fun y =>
    (steps (lower_bound X1 X2 X3) (upper_bound X1 X2 X3 width) 8).flatMap fun x =>
      block_pixels (inside (edge_setup X1 Y1 X2 Y2 X3 Y3)) x y

/-- The coordinates covered on one axis by the blocks the loop iterates: from the snapped
lower bound up to the end of the last block started below the upper bound. -/
def covered (lo hi v : Int) : Prop := lo ≤ v ∧ v < lo + 8 * ((hi - lo + 7) / 8)

instance (lo hi v : Int) : Decidable (covered lo hi v) := by
  unfold covered; infer_instance

/-- The polygon `new_rectangle_stamp` builds in the storage `buf`. -/
def rectangle_polygon (buf : Nat → Point) (width height : Nat) : Polygon :=
  close_polygon (add_vertex (add_vertex (add_vertex (add_vertex ⟨buf, 0, false⟩ ⟨0, 0⟩)
    ⟨(width : ℚ), 0⟩) ⟨(width : ℚ), (height : ℚ)⟩) ⟨0, (height : ℚ)⟩)

/-! ## Definitions used to state the claims -/

/-- The fully per-pixel-tested variant of the triangle filler, from the words of the
specification: the same blocks are iterated, and in every block every pixel is tested
against the three edge functions (all three strictly positive) and written if it passes.
There is no trivial reject and no trivial accept. -/
def fill_triangle_per_pixel {κ : Type} (set_pixel : κ → Int → Int → κ) (width height : Int)
    (X1 Y1 X2 Y2 X3 Y3 : Int) (canvas : κ) : κ :=
  let minx := lower_bound X1 X2 X3
  let maxx := upper_bound X1 X2 X3 width
  let miny := lower_bound Y1 Y2 Y3
  let maxy := upper_bound Y1 Y2 Y3 height
  let q : Int := 8
  let e := edge_setup X1 Y1 X2 Y2 X3 Y3
  for_lt miny maxy q
    (fun y cv => for_lt minx maxx q
      (fun x cv => for_lt y (y + q) 1
        (fun iy cv => for_lt x (x + q) 1
          (fun ix cv => if inside e ix iy then set_pixel cv ix iy else cv) cv) cv) cv) canvas

/-- The fill-convention-corrected edge test of `fill_triangle` for the directed edge from
the fixed-point vertex `A` to the fixed-point vertex `B`, at the pixel `(ix, iy)`: the
constant and the deltas are those `edge_setup` computes for an edge from `A` to `B`. -/
def edge_test (XA YA XB YB ix iy : Int) : Prop :=
  edge_fn (edge_setup XA YA XB YB XB YB).C1 (edge_setup XA YA XB YB XB YB).DX12
    (edge_setup XA YA XB YB XB YB).DY12 ix iy > 0

instance (XA YA XB YB ix iy : Int) : Decidable (edge_test XA YA XB YB ix iy) := by
  unfold edge_test; infer_instance

/-- The triangle with fixed-point vertices `1`, `2`, `3` has the directed edge from `A` to
`B`: `fill_triangle` walks the edges `1 → 2`, `2 → 3` and `3 → 1`. -/
def has_edge (X1 Y1 X2 Y2 X3 Y3 XA YA XB YB : Int) : Prop :=
  (XA = X1 ∧ YA = Y1 ∧ XB = X2 ∧ YB = Y2) ∨ (XA = X2 ∧ YA = Y2 ∧ XB = X3 ∧ YB = Y3) ∨
    (XA = X3 ∧ YA = Y3 ∧ XB = X1 ∧ YB = Y1)

instance (X1 Y1 X2 Y2 X3 Y3 XA YA XB YB : Int) :
    Decidable (has_edge X1 Y1 X2 Y2 X3 Y3 XA YA XB YB) := by
  unfold has_edge; infer_instance

/-- A block of storage whose slots all hold the point `(7, 7)`. -/
def sample_storage : Nat → Point := fun _ => ⟨7, 7⟩

/-- A block of memory for a stamp, as `malloc` may return it. -/
def sample_raw : Stamp := ⟨StampType.POLYGON, none, none, ⟨2, 0, 0, 0, 2, 0, 0, 0, 1⟩⟩

/-- The stamp `new_rectangle_stamp(10, 6)` returns in the sample memory. -/
def sample_rectangle : Stamp :=
  { sample_raw with polygon := some (rectangle_polygon sample_storage 10 6),
                    tr_matrix := mat3.identity }

/-- A line drawer that records the endpoints it is called with, in call order. -/
def record_line (l : List (Int × Int × Int × Int)) (x1 y1 x2 y2 : Int) :
    Option (List (Int × Int × Int × Int)) :=
  some (l ++ [(x1, y1, x2, y2)])

/-- A triangle filler that records the corners it is called with, in call order. -/
def record_triangle (l : List (Point × Point × Point)) (v1 v2 v3 : Point) :
    List (Point × Point × Point) :=
  l ++ [(v1, v2, v3)]

/-- The segment `draw_stamp_outline` draws in iteration `i`: from the transformed vertex
`i - 1` to the transformed vertex `i`, both cast to `int`. -/
def outline_edge (p : Polygon) (m : mat3) (i : Nat) : Int × Int × Int × Int :=
  (float_to_int (transform_point (p.vertices (i - 1)) m).x,
    float_to_int (transform_point (p.vertices (i - 1)) m).y,
    float_to_int (transform_point (p.vertices i) m).x,
    float_to_int (transform_point (p.vertices i) m).y)

/-- The longer of the two extents of a segment, as a number of steps. -/
def edge_extent (e : Int × Int × Int × Int) : Nat :=
  (max |e.2.2.1 - e.1| |e.2.2.2 - e.2.1|).toNat

/-- Fuel that suffices for every segment of the outline of a polygon. -/
def outline_fuel (p : Polygon) (m : mat3) : Nat :=
  ((List.range p.next).map fun i => edge_extent (outline_edge p m i)).sum + 1

/-- The sample rectangle stamp with a scaling by 2 accumulated in its matrix. -/
def sample_scaled : Stamp :=
  { sample_rectangle with tr_matrix := ⟨2, 0, 0, 0, 2, 0, 0, 0, 1⟩ }

/-- A bitmap-backed stamp. -/
def sample_bitmap : Stamp :=
  ⟨StampType.BITMAP, none, some (blank_canvas 4 4), mat3.identity⟩

/-- The edge function of the directed edge from `A` to `B` before the fill-convention
correction, at the pixel `(ix, iy)`: positive on the inner side of the edge, zero on the
line through `A` and `B`. -/
def raw_edge (XA YA XB YB ix iy : Int) : Int :=
  (YA - YB) * XA - (XA - XB) * YA + (XA - XB) * (16 * iy) - (YA - YB) * (16 * ix)

/-- The condition under which `fill_triangle` adds 1 to the constant of the edge from `A` to
`B`. -/
def corrected (XA YA XB YB : Int) : Prop :=
  YA - YB < 0 ∨ (YA - YB = 0 ∧ XA - XB > 0)

instance (XA YA XB YB : Int) : Decidable (corrected XA YA XB YB) := by
  unfold corrected; infer_instance

/-- The fixed-point coordinates `fill_triangle` computes for vertex `i` of a polygon (under
the identity matrix). -/
def fixed_vertex (p : Polygon) (i : Nat) : Int × Int :=
  (to_fixed (p.vertices i).x, to_fixed (p.vertices i).y)

/-- The pixel `(ix, iy)` lies strictly inside the polygon of `N = next` fixed-point
vertices given in the winding of `new_rectangle_stamp`: it is strictly on the inner side
of each of the `N` edges, the closing edge included (for a convex polygon in that winding
this is its interior). The edge between the vertices `i - 1` and `i` is taken in the
direction in which `fill_shape` passes it to `fill_triangle`, from `i` to `i - 1`. -/
def inside_polygon (p : Polygon) (ix iy : Int) : Prop :=
  (∀ i, 1 ≤ i → i < p.next →
    0 < raw_edge (fixed_vertex p i).1 (fixed_vertex p i).2
      (fixed_vertex p (i - 1)).1 (fixed_vertex p (i - 1)).2 ix iy) ∧
  0 < raw_edge (fixed_vertex p 0).1 (fixed_vertex p 0).2
    (fixed_vertex p (p.next - 1)).1 (fixed_vertex p (p.next - 1)).2 ix iy

/-- The same for the opposite winding: the pixel is strictly on the other side of each of
the `N` edges (for a convex polygon in the opposite winding this is its interior). -/
def inside_polygon_rev (p : Polygon) (ix iy : Int) : Prop :=
  (∀ i, 1 ≤ i → i < p.next →
    raw_edge (fixed_vertex p i).1 (fixed_vertex p i).2
      (fixed_vertex p (i - 1)).1 (fixed_vertex p (i - 1)).2 ix iy < 0) ∧
  raw_edge (fixed_vertex p 0).1 (fixed_vertex p 0).2
    (fixed_vertex p (p.next - 1)).1 (fixed_vertex p (p.next - 1)).2 ix iy < 0

/-- A block of storage whose slots all hold the point `(0, 0)`. -/
def zero_storage : Nat → Point := fun _ => ⟨((0 : Nat) : ℚ), ((0 : Nat) : ℚ)⟩

/-- The 10×6 rectangle with its corners appended in the opposite order:
`(0,0)`, `(0,6)`, `(10,6)`, `(10,0)`. -/
def reversed_polygon : Polygon :=
  close_polygon (add_vertex (add_vertex (add_vertex (add_vertex ⟨zero_storage, 0, false⟩
    ⟨((0 : Nat) : ℚ), ((0 : Nat) : ℚ)⟩) ⟨((0 : Nat) : ℚ), ((6 : Nat) : ℚ)⟩)
    ⟨((10 : Nat) : ℚ), ((6 : Nat) : ℚ)⟩) ⟨((10 : Nat) : ℚ), ((0 : Nat) : ℚ)⟩)

/-- A stamp of the reversed rectangle with the identity matrix. -/
def reversed_rectangle : Stamp :=
  ⟨StampType.POLYGON, some reversed_polygon, none, mat3.identity⟩

/-- A block of storage whose slots all hold the point `(0, 8)`. -/
def left_storage : Nat → Point := fun _ => ⟨((0 : Nat) : ℚ), ((8 : Nat) : ℚ)⟩

/-- The 10×6 rectangle with corners `(5,5)`, `(15,5)`, `(15,11)`, `(5,11)`, in the winding
of `new_rectangle_stamp`, built in `left_storage`. -/
def shifted_polygon : Polygon :=
  close_polygon (add_vertex (add_vertex (add_vertex (add_vertex ⟨left_storage, 0, false⟩
    ⟨((5 : Nat) : ℚ), ((5 : Nat) : ℚ)⟩) ⟨((15 : Nat) : ℚ), ((5 : Nat) : ℚ)⟩)
    ⟨((15 : Nat) : ℚ), ((11 : Nat) : ℚ)⟩) ⟨((5 : Nat) : ℚ), ((11 : Nat) : ℚ)⟩)

/-- A stamp of the shifted rectangle with the identity matrix. -/
def shifted_rectangle : Stamp :=
  ⟨StampType.POLYGON, some shifted_polygon, none, mat3.identity⟩

/-! ## Definitions used to state the claims on lines and triangles -/

/-- The step between two consecutive pixels of the line from `(x1, y1)` to `(x2, y2)`: each
coordinate stays or moves by its increment, and a coordinate whose extent is the longer one
(or both, when the extents are equal) moves. -/
def line_step (x1 y1 x2 y2 : Int) (p q : Int × Int) : Prop :=
  (q.1 = p.1 + (if x1 < x2 then 1 else -1) ∨ q.1 = p.1) ∧
  (q.2 = p.2 + (if y1 < y2 then 1 else -1) ∨ q.2 = p.2) ∧
  (|y2 - y1| ≤ |x2 - x1| → q.1 = p.1 + (if x1 < x2 then 1 else -1)) ∧
  (|x2 - x1| ≤ |y2 - y1| → q.2 = p.2 + (if y1 < y2 then 1 else -1))

/-- A pixel of the line from `(x1, y1)` to `(x2, y2)`: the start moved by `a` steps in `x`
and `b` steps in `y`, within the extents, with `b * dx - a * dy` at most half the longer
extent. -/
def line_point (x1 y1 x2 y2 : Int) (q : Int × Int) : Prop :=
  ∃ a b : Int, q = (x1 + (if x1 < x2 then 1 else -1) * a, y1 + (if y1 < y2 then 1 else -1) * b) ∧
    0 ≤ a ∧ a ≤ |x2 - x1| ∧ 0 ≤ b ∧ b ≤ |y2 - y1| ∧
    2 * |(b * |x2 - x1| - a * |y2 - y1|)| ≤ max |x2 - x1| |y2 - y1|

/-- The step between two consecutive pixels of a line is 8-connected and of single-pixel
width: the pixels are distinct, differ by at most 1 in each coordinate, and the coordinate
of the longer extent advances by exactly 1. -/
def connected_step (x1 y1 x2 y2 : Int) (p q : Int × Int) : Prop :=
  p ≠ q ∧ |q.1 - p.1| ≤ 1 ∧ |q.2 - p.2| ≤ 1 ∧
  (|y2 - y1| ≤ |x2 - x1| → |q.1 - p.1| = 1) ∧ (|x2 - x1| ≤ |y2 - y1| → |q.2 - p.2| = 1)

/-- The step between two consecutive pixels of a line moves each coordinate from the start
towards the end, never back. -/
def monotone_step (x1 y1 x2 y2 : Int) (p q : Int × Int) : Prop :=
  (x1 ≤ x2 → p.1 ≤ q.1) ∧ (x2 ≤ x1 → q.1 ≤ p.1) ∧
  (y1 ≤ y2 → p.2 ≤ q.2) ∧ (y2 ≤ y1 → q.2 ≤ p.2)

/-- The pixel lies in the bounding box of the two endpoints. -/
def in_box (x1 y1 x2 y2 : Int) (q : Int × Int) : Prop :=
  min x1 x2 ≤ q.1 ∧ q.1 ≤ max x1 x2 ∧ min y1 y2 ≤ q.2 ∧ q.2 ≤ max y1 y2

/-- The sum `C1 + C2 + C3` of the half-edge constants of `fill_triangle` before the
fill-convention correction: twice the signed area of the triangle. -/
def twice_area (X1 Y1 X2 Y2 X3 Y3 : Int) : Int :=
  ((Y1 - Y2) * X1 - (X1 - X2) * Y1) + ((Y2 - Y3) * X2 - (X2 - X3) * Y2)
    + ((Y3 - Y1) * X3 - (X3 - X1) * Y3)

/-- A triangle filler that records the corners it is called with and whether it is the
call of the `color == WHITE` branch. -/
def record_fill (white : Bool) (l : List (Bool × Point × Point × Point)) (v1 v2 v3 : Point) :
    List (Bool × Point × Point × Point) :=
  l ++ [(white, v1, v2, v3)]

/-- The stamp `new_rectangle_stamp(10, 6)` returns when `malloc` hands out a block that
last held a bitmap-backed stamp. -/
def recycled_rectangle : Stamp :=
  { sample_bitmap with polygon := some (rectangle_polygon sample_storage 10 6),
                       tr_matrix := mat3.identity }

/-! # Verification -/

/-! ## The C arithmetic on exact values -/

theorem roundf_intCast (n : Int) : roundf (n : ℚ) = n := by
  unfold roundf
  split
  · rw [Int.floor_eq_iff]; constructor <;> norm_num
  · rw [neg_eq_iff_eq_neg, Int.floor_eq_iff]; constructor <;> push_cast <;> norm_num

theorem to_fixed_intCast (n : Int) : to_fixed (n : ℚ) = 16 * n := by
  unfold to_fixed
  have : (16 : ℚ) * (n : ℚ) = ((16 * n : Int) : ℚ) := by push_cast; ring
  rw [this, roundf_intCast]

theorem to_fixed_natCast (n : Nat) : to_fixed (n : ℚ) = 16 * (n : Int) := by
  have := to_fixed_intCast (n : Int)
  simpa using this

theorem to_fixed_zero : to_fixed 0 = 0 := by
  have := to_fixed_intCast 0
  simpa using this

theorem float_to_int_intCast (n : Int) : float_to_int (n : ℚ) = n := by
  unfold float_to_int
  split <;> simp

theorem transform_point_identity (v : Point) : transform_point v mat3.identity = v := by
  cases v
  simp [transform_point, mat3.identity]

/-! ## Loops -/

theorem for_lt_eq_foldl {α : Type} (lo hi step : Int) (body : Int → α → α) (s : α) :
    for_lt lo hi step body s = (steps lo hi step).foldl (fun st v => body v st) s := by
  simp [for_lt, steps, List.foldl_map]

theorem steps_of_ge (lo hi step : Int) (hs : 0 < step) (h : hi ≤ lo) : steps lo hi step = [] := by
  have : ((hi - lo + (step - 1)) / step).toNat = 0 := by
    have h1 : (hi - lo + (step - 1)) / step ≤ 0 := by
      have : (hi - lo + (step - 1)) / step < 1 := by
        apply Int.ediv_lt_of_lt_mul hs; omega
      omega
    omega
  simp [steps, this]

theorem steps_of_lt (lo hi step : Int) (hs : 0 < step) (h : lo < hi) :
    steps lo hi step = lo :: steps (lo + step) hi step := by
  have e : (hi - lo + (step - 1)) / step = (hi - (lo + step) + (step - 1)) / step + 1 := by
    have : hi - lo + (step - 1) = (hi - (lo + step) + (step - 1)) + step := by ring
    rw [this, Int.add_ediv_of_dvd_right (dvd_refl step), Int.ediv_self (by omega)]
  have hn : 0 ≤ (hi - (lo + step) + (step - 1)) / step := by
    apply Int.ediv_nonneg <;> omega
  have e2 : ((hi - lo + (step - 1)) / step).toNat
      = ((hi - (lo + step) + (step - 1)) / step).toNat + 1 := by
    rw [e]; omega
  simp only [steps, e2, List.range_succ_eq_map, List.map_cons, List.map_map]
  congr 1
  · simp
  · apply List.map_congr_left
    intro k _
    simp only [Function.comp, Nat.succ_eq_add_one]
    push_cast
    ring

/-- The combinator `for_lt` runs as the C loop does: test, body, increment. -/
theorem for_lt_unfold {α : Type} (lo hi step : Int) (hs : 0 < step) (body : Int → α → α)
    (s : α) :
    for_lt lo hi step body s =
      if lo < hi then for_lt (lo + step) hi step body (body lo s) else s := by
  rw [for_lt_eq_foldl, for_lt_eq_foldl]
  split
  · rename_i h
    rw [steps_of_lt lo hi step hs h]
    rfl
  · rename_i h
    rw [steps_of_ge lo hi step hs (by omega)]
    rfl

theorem mem_steps (lo hi step v : Int) :
    v ∈ steps lo hi step ↔
      ∃ k : Nat, (k : Int) < (hi - lo + (step - 1)) / step ∧ v = lo + step * (k : Int) := by
  simp only [steps, List.mem_map, List.mem_range]
  constructor
  · rintro ⟨k, hk, rfl⟩
    exact ⟨k, by omega, rfl⟩
  · rintro ⟨k, hk, rfl⟩
    exact ⟨k, by omega, rfl⟩

theorem steps_one_eight (lo : Int) :
    steps lo (lo + 8) 1 = (List.range 8).map fun (k : Nat) => lo + (k : Int) := by
  have : ((lo + 8 - lo + (1 - 1)) / 1 : Int).toNat = 8 := by
    simp
  simp [steps, this]

/-! ## The edge functions and the pixels of a block -/

theorem write_all_append {κ : Type} (sp : κ → Int → Int → κ) (c : κ) (l1 l2 : List (Int × Int)) :
    write_all sp c (l1 ++ l2) = write_all sp (write_all sp c l1) l2 := by
  simp [write_all, List.foldl_append]

theorem foldl_write_all {κ α : Type} (sp : κ → Int → Int → κ) (g : α → List (Int × Int))
    (l : List α) (c : κ) :
    l.foldl (fun c a => write_all sp c (g a)) c = write_all sp c (l.flatMap g) := by
  induction l generalizing c with
  | nil => rfl
  | cons a l ih =>
    simp only [List.foldl_cons, List.flatMap_cons, write_all_append]
    exact ih _

theorem foldl_filter_write {κ : Type} (sp : κ → Int → Int → κ) (P : Nat → Prop)
    [DecidablePred P] (f : Nat → Int × Int) (l : List Nat) (c : κ) :
    l.foldl (fun c k => if P k then sp c (f k).1 (f k).2 else c) c
      = write_all sp c ((l.filter fun k => P k).map f) := by
  induction l generalizing c with
  | nil => rfl
  | cons a l ih =>
    by_cases h : P a
    · simp only [List.foldl_cons, h, if_true, List.filter_cons, decide_True, List.map_cons]
      rw [ih]; rfl
    · simp only [List.foldl_cons, h, if_false, List.filter_cons, decide_False]
      rw [ih]; simp

/-- One row of a partially covered block: the stepped values are the closed form. -/
theorem partial_row {κ : Type} (sp : κ → Int → Int → κ) (F1 F2 F3 x iy : Int) (n : Nat)
    (cv : κ) (a1 a2 a3 : Int) :
    (List.range n).foldl
        (fun (sx : κ × Int × Int × Int) (k : Nat) =>
          ((if sx.2.1 > 0 ∧ sx.2.2.1 > 0 ∧ sx.2.2.2 > 0
            then sp sx.1 (x + (k : Int)) iy else sx.1),
            sx.2.1 - F1, sx.2.2.1 - F2, sx.2.2.2 - F3))
        (cv, a1, a2, a3)
      = ((List.range n).foldl
          (fun c (k : Nat) => if a1 - k * F1 > 0 ∧ a2 - k * F2 > 0 ∧ a3 - k * F3 > 0
            then sp c (x + (k : Int)) iy else c) cv,
          a1 - n * F1, a2 - n * F2, a3 - n * F3) := by
  induction n with
  | zero => simp
  | succ n ih =>
    rw [List.range_succ, List.foldl_append, List.foldl_append, ih]
    simp only [List.foldl_cons, List.foldl_nil, Prod.mk.injEq, true_and]
    push_cast
    refine ⟨by ring, by ring, by ring⟩

theorem partial_rows {κ : Type} (G1 G2 G3 : Int)
    (row : Int → Int → Int → Nat → κ → κ) (n : Nat) (cv : κ) (b1 b2 b3 : Int) :
    (List.range n).foldl
        (fun (st : κ × Int × Int × Int) (k : Nat) =>
          (row st.2.1 st.2.2.1 st.2.2.2 k st.1, st.2.1 + G1, st.2.2.1 + G2, st.2.2.2 + G3))
        (cv, b1, b2, b3)
      = ((List.range n).foldl
          (fun c (k : Nat) => row (b1 + k * G1) (b2 + k * G2) (b3 + k * G3) k c) cv,
          b1 + n * G1, b2 + n * G2, b3 + n * G3) := by
  induction n with
  | zero => simp
  | succ n ih =>
    rw [List.range_succ, List.foldl_append, List.foldl_append, ih]
    simp only [List.foldl_cons, List.foldl_nil, Prod.mk.injEq, true_and]
    push_cast
    refine ⟨by ring, by ring, by ring⟩

theorem for_lt_eight {α : Type} (lo : Int) (body : Int → α → α) (s : α) :
    for_lt lo (lo + 8) 1 body s = (List.range 8).foldl (fun st (k : Nat) => body (lo + k) st) s := by
  rw [for_lt_eq_foldl, steps_one_eight, List.foldl_map]

/-- A partially covered block writes the pixels of the block that pass the per-pixel
test. -/
theorem partial_block_eq {κ : Type} (sp : κ → Int → Int → κ) (e : EdgeSetup) (x y : Int)
    (cv : κ) :
    partial_block sp e x y cv = write_all sp cv (block_pixels (inside e) x y) := by
  unfold partial_block
  simp only [for_lt_eight]
  simp only [partial_row]
  rw [partial_rows (shl e.DX12 4) (shl e.DX23 4) (shl e.DX31 4)
    (fun b1 b2 b3 (k : Nat) (c : κ) => List.foldl
      (fun c (k_1 : Nat) =>
        if b1 - ↑k_1 * shl e.DY12 4 > 0 ∧ b2 - ↑k_1 * shl e.DY23 4 > 0 ∧
            b3 - ↑k_1 * shl e.DY31 4 > 0 then sp c (x + ↑k_1) (y + ↑k) else c)
      c (List.range 8))]
  simp only [block_pixels, ← foldl_write_all]
  congr 1
  funext c ky
  unfold row_pixels
  rw [← foldl_filter_write sp (fun (kx : Nat) => inside e (x + kx) (y + ky))
    (fun (kx : Nat) => (x + (kx : Int), y + (ky : Int)))]
  congr 1
  funext c kx
  have h1 : e.C1 + e.DX12 * shl y 4 - e.DY12 * shl x 4 + ↑ky * shl e.DX12 4 - ↑kx * shl e.DY12 4
      = edge_fn e.C1 e.DX12 e.DY12 (x + kx) (y + ky) := by
    simp only [shl, edge_fn]; ring
  have h2 : e.C2 + e.DX23 * shl y 4 - e.DY23 * shl x 4 + ↑ky * shl e.DX23 4 - ↑kx * shl e.DY23 4
      = edge_fn e.C2 e.DX23 e.DY23 (x + kx) (y + ky) := by
    simp only [shl, edge_fn]; ring
  have h3 : e.C3 + e.DX31 * shl y 4 - e.DY31 * shl x 4 + ↑ky * shl e.DX31 4 - ↑kx * shl e.DY31 4
      = edge_fn e.C3 e.DX31 e.DY31 (x + kx) (y + ky) := by
    simp only [shl, edge_fn]; ring
  rw [h1, h2, h3]
  simp only [inside]

/-- A totally covered block writes every pixel of the block. -/
theorem full_block_eq {κ : Type} (sp : κ → Int → Int → κ) (x y : Int) (cv : κ) :
    full_block sp x y cv = write_all sp cv (block_pixels (fun _ _ => True) x y) := by
  unfold full_block
  simp only [for_lt_eight]
  simp only [block_pixels, ← foldl_write_all]
  congr 1

theorem block_pixels_congr (P Q : Int → Int → Prop) [∀ i j, Decidable (P i j)]
    [∀ i j, Decidable (Q i j)] (x y : Int)
    (h : ∀ kx ky : Nat, kx < 8 → ky < 8 → (P (x + kx) (y + ky) ↔ Q (x + kx) (y + ky))) :
    block_pixels P x y = block_pixels Q x y := by
  unfold block_pixels
  apply List.flatMap_congr
  intro ky hky
  unfold row_pixels
  congr 1
  apply List.filter_congr
  intro kx hkx
  simp only [List.mem_range] at hky hkx
  simp [h kx ky hkx hky]

theorem block_pixels_false (P : Int → Int → Prop) [∀ i j, Decidable (P i j)] (x y : Int)
    (h : ∀ kx ky : Nat, kx < 8 → ky < 8 → ¬ P (x + kx) (y + ky)) :
    block_pixels P x y = [] := by
  rw [block_pixels_congr P (fun _ _ => False) x y (fun kx ky hx hy => by simp [h kx ky hx hy])]
  simp [block_pixels, row_pixels]

theorem half_space_eq_zero (C DX DY x0 y0 x1 y1 : Int) :
    half_space C DX DY x0 y0 x1 y1 = 0 ↔
      (C + DX * y0 - DY * x0 ≤ 0 ∧ C + DX * y0 - DY * x1 ≤ 0 ∧
        C + DX * y1 - DY * x0 ≤ 0 ∧ C + DX * y1 - DY * x1 ≤ 0) := by
  unfold half_space
  by_cases h1 : C + DX * y0 - DY * x0 > 0 <;> by_cases h2 : C + DX * y0 - DY * x1 > 0 <;>
  by_cases h3 : C + DX * y1 - DY * x0 > 0 <;> by_cases h4 : C + DX * y1 - DY * x1 > 0 <;>
  simp [h1, h2, h3, h4] <;> omega

theorem half_space_eq_full (C DX DY x0 y0 x1 y1 : Int) :
    half_space C DX DY x0 y0 x1 y1 = 0xF ↔
      (C + DX * y0 - DY * x0 > 0 ∧ C + DX * y0 - DY * x1 > 0 ∧
        C + DX * y1 - DY * x0 > 0 ∧ C + DX * y1 - DY * x1 > 0) := by
  unfold half_space
  by_cases h1 : C + DX * y0 - DY * x0 > 0 <;> by_cases h2 : C + DX * y0 - DY * x1 > 0 <;>
  by_cases h3 : C + DX * y1 - DY * x0 > 0 <;> by_cases h4 : C + DX * y1 - DY * x1 > 0 <;>
  simp [h1, h2, h3, h4]

/-- An affine function on a segment of 8 pixels is bounded by its values at the ends. -/
theorem affine_le_of_ends (a u : Int) (k : Nat) (hk : k < 8) (h0 : a ≤ 0) (h7 : a + 7 * u ≤ 0) :
    a + k * u ≤ 0 := by
  have hk' : (k : Int) < 8 := by exact_mod_cast hk
  have hk0 : (0 : Int) ≤ k := Int.natCast_nonneg k
  by_cases hu : 0 ≤ u
  · nlinarith
  · nlinarith

theorem affine_pos_of_ends (a u : Int) (k : Nat) (hk : k < 8) (h0 : 0 < a) (h7 : 0 < a + 7 * u) :
    0 < a + k * u := by
  have hk' : (k : Int) < 8 := by exact_mod_cast hk
  have hk0 : (0 : Int) ≤ k := Int.natCast_nonneg k
  by_cases hu : 0 ≤ u
  · nlinarith
  · nlinarith

/-- Trivial reject is sound: if the four corners of a block are not on the positive side of
an edge, no pixel of the block is. -/
theorem edge_fn_le_of_corners (C DX DY x y : Int) (kx ky : Nat) (hx : kx < 8) (hy : ky < 8)
    (h : half_space C DX DY (shl x 4) (shl y 4) (shl (x + 8 - 1) 4) (shl (y + 8 - 1) 4) = 0) :
    edge_fn C DX DY (x + kx) (y + ky) ≤ 0 := by
  rw [half_space_eq_zero] at h
  obtain ⟨h00, h10, h01, h11⟩ := h
  simp only [shl] at h00 h10 h01 h11
  have hA := affine_le_of_ends (C + DX * (y * 2 ^ 4) - DY * (x * 2 ^ 4)) (16 * DX) ky hy h00
    (by linarith)
  have hB := affine_le_of_ends (C + DX * (y * 2 ^ 4) - DY * ((x + 8 - 1) * 2 ^ 4)) (16 * DX) ky hy
    h10 (by linarith)
  have hC := affine_le_of_ends (C + DX * (y * 2 ^ 4) - DY * (x * 2 ^ 4) + ky * (16 * DX))
    (-16 * DY) kx hx hA (by linarith)
  simp only [edge_fn]
  linarith

/-- Trivial accept is sound: if the four corners of a block are on the positive side of an
edge, every pixel of the block is. -/
theorem edge_fn_pos_of_corners (C DX DY x y : Int) (kx ky : Nat) (hx : kx < 8) (hy : ky < 8)
    (h : half_space C DX DY (shl x 4) (shl y 4) (shl (x + 8 - 1) 4) (shl (y + 8 - 1) 4) = 0xF) :
    0 < edge_fn C DX DY (x + kx) (y + ky) := by
  rw [half_space_eq_full] at h
  obtain ⟨h00, h10, h01, h11⟩ := h
  simp only [shl] at h00 h10 h01 h11
  have hA := affine_pos_of_ends (C + DX * (y * 2 ^ 4) - DY * (x * 2 ^ 4)) (16 * DX) ky hy h00
    (by linarith)
  have hB := affine_pos_of_ends (C + DX * (y * 2 ^ 4) - DY * ((x + 8 - 1) * 2 ^ 4)) (16 * DX) ky hy
    h10 (by linarith)
  have hC := affine_pos_of_ends (C + DX * (y * 2 ^ 4) - DY * (x * 2 ^ 4) + ky * (16 * DX))
    (-16 * DY) kx hx hA (by linarith)
  simp only [edge_fn]
  linarith

/-- Whatever path a block takes (skipped, stamped whole, or tested pixel by pixel), it
writes the pixels of the block that pass the per-pixel test, in row order. -/
theorem fill_block_eq {κ : Type} (sp : κ → Int → Int → κ) (e : EdgeSetup) (x y : Int)
    (cv : κ) :
    fill_block sp e x y cv = write_all sp cv (block_pixels (inside e) x y) := by
  unfold fill_block
  simp only []
  split
  · rename_i h
    rw [block_pixels_false]
    · rfl
    · intro kx ky hx hy hin
      obtain ⟨i1, i2, i3⟩ := hin
      rcases h with h | h | h
      · have := edge_fn_le_of_corners _ _ _ x y kx ky hx hy h; omega
      · have := edge_fn_le_of_corners _ _ _ x y kx ky hx hy h; omega
      · have := edge_fn_le_of_corners _ _ _ x y kx ky hx hy h; omega
  · split
    · rename_i h
      obtain ⟨ha, hb, hc⟩ := h
      rw [full_block_eq]
      congr 1
      apply block_pixels_congr
      intro kx ky hx hy
      simp only [true_iff]
      exact ⟨edge_fn_pos_of_corners _ _ _ x y kx ky hx hy ha,
        edge_fn_pos_of_corners _ _ _ x y kx ky hx hy hb,
        edge_fn_pos_of_corners _ _ _ x y kx ky hx hy hc⟩
    · exact partial_block_eq sp e x y cv

/-! ## The pixels written by `fill_triangle` -/

theorem fill_triangle_fixed_eq {κ : Type} (sp : κ → Int → Int → κ) (width height : Int)
    (X1 Y1 X2 Y2 X3 Y3 : Int) (cv : κ) :
    fill_triangle_fixed sp width height X1 Y1 X2 Y2 X3 Y3 cv
      = write_all sp cv (tri_pixels width height X1 Y1 X2 Y2 X3 Y3) := by
  unfold fill_triangle_fixed tri_pixels
  simp only [for_lt_eq_foldl, fill_block_eq, foldl_write_all]

theorem write_all_record (l0 l : List (Int × Int)) : write_all record l0 l = l0 ++ l := by
  induction l generalizing l0 with
  | nil => simp [write_all]
  | cons a l ih =>
    have : write_all record l0 (a :: l) = write_all record (record l0 a.1 a.2) l := rfl
    rw [this, ih]
    simp [record]

theorem triangle_writes_eq (width height X1 Y1 X2 Y2 X3 Y3 : Int) :
    triangle_writes width height X1 Y1 X2 Y2 X3 Y3
      = tri_pixels width height X1 Y1 X2 Y2 X3 Y3 := by
  unfold triangle_writes
  rw [fill_triangle_fixed_eq, write_all_record]
  rfl

theorem mem_block_pixels (P : Int → Int → Prop) [∀ i j, Decidable (P i j)] (x y ix iy : Int) :
    (ix, iy) ∈ block_pixels P x y ↔
      (x ≤ ix ∧ ix < x + 8 ∧ y ≤ iy ∧ iy < y + 8) ∧ P ix iy := by
  simp only [block_pixels, row_pixels, List.mem_flatMap, List.mem_map, List.mem_filter,
    List.mem_range, decide_eq_true_eq, Prod.mk.injEq]
  constructor
  · rintro ⟨ky, hky, kx, ⟨hkx, hP⟩, rfl, rfl⟩
    exact ⟨⟨by omega, by omega, by omega, by omega⟩, hP⟩
  · rintro ⟨⟨h1, h2, h3, h4⟩, hP⟩
    refine ⟨(iy - y).toNat, by omega, (ix - x).toNat, ⟨by omega, ?_⟩, by omega, by omega⟩
    have e1 : x + ((ix - x).toNat : Int) = ix := by omega
    have e2 : y + ((iy - y).toNat : Int) = iy := by omega
    rw [e1, e2]; exact hP

theorem exists_block_iff (lo hi v : Int) :
    (∃ b ∈ steps lo hi 8, b ≤ v ∧ v < b + 8) ↔ covered lo hi v := by
  unfold covered
  constructor
  · rintro ⟨b, hb, h1, h2⟩
    rw [mem_steps] at hb
    obtain ⟨k, hk, rfl⟩ := hb
    have : hi - lo + (8 - 1) = hi - lo + 7 := by ring
    rw [this] at hk
    omega
  · rintro ⟨h1, h2⟩
    refine ⟨lo + 8 * (((v - lo) / 8).toNat : Int), ?_, by omega, by omega⟩
    rw [mem_steps]
    refine ⟨((v - lo) / 8).toNat, ?_, rfl⟩
    have : hi - lo + (8 - 1) = hi - lo + 7 := by ring
    rw [this]
    omega

/-- A pixel is written by `fill_triangle` exactly when it lies in an iterated block and
passes the per-pixel test. -/
theorem mem_tri_pixels (width height X1 Y1 X2 Y2 X3 Y3 ix iy : Int) :
    (ix, iy) ∈ tri_pixels width height X1 Y1 X2 Y2 X3 Y3 ↔
      covered (lower_bound X1 X2 X3) (upper_bound X1 X2 X3 width) ix ∧
      covered (lower_bound Y1 Y2 Y3) (upper_bound Y1 Y2 Y3 height) iy ∧
      inside (edge_setup X1 Y1 X2 Y2 X3 Y3) ix iy := by
  rw [← exists_block_iff, ← exists_block_iff]
  simp only [tri_pixels, List.mem_flatMap, mem_block_pixels]
  constructor
  · rintro ⟨y, hy, x, hx, ⟨h1, h2, h3, h4⟩, hP⟩
    exact ⟨⟨x, hx, h1, h2⟩, ⟨y, hy, h3, h4⟩, hP⟩
  · rintro ⟨⟨x, hx, h1, h2⟩, ⟨y, hy, h3, h4⟩, hP⟩
    exact ⟨y, hy, x, hx, ⟨h1, h2, h3, h4⟩, hP⟩

/-! ## Writes on the canvas of the specification -/

theorem write_all_unchecked_store (color : Color) (c : Canvas (Int → Int → Color))
    (l : List (Int × Int)) (i j : Int) :
    (write_all (set_pixel_unchecked color) c l).store i j
      = if (i, j) ∈ l then color else c.store i j := by
  induction l using List.reverseRecOn with
  | nil => simp [write_all]
  | append_singleton l a ih =>
    rw [write_all_append]
    have e : (write_all (set_pixel_unchecked color)
        (write_all (set_pixel_unchecked color) c l) [a]).store i j
        = if i = a.1 ∧ j = a.2 then color
          else (write_all (set_pixel_unchecked color) c l).store i j := rfl
    rw [e, ih]
    by_cases h : i = a.1 ∧ j = a.2
    · obtain ⟨rfl, rfl⟩ := h
      simp
    · have : (i, j) ≠ a := by
        intro e; apply h; rw [← e]; exact ⟨rfl, rfl⟩
      simp [h, this]

theorem write_all_unchecked_width (color : Color) (c : Canvas (Int → Int → Color))
    (l : List (Int × Int)) :
    (write_all (set_pixel_unchecked color) c l).width = c.width ∧
      (write_all (set_pixel_unchecked color) c l).height = c.height := by
  induction l generalizing c with
  | nil => simp [write_all]
  | cons a l ih =>
    have : write_all (set_pixel_unchecked color) c (a :: l)
        = write_all (set_pixel_unchecked color) (set_pixel_unchecked color c a.1 a.2) l := rfl
    rw [this]
    have := ih (set_pixel_unchecked color c a.1 a.2)
    simpa [set_pixel_unchecked] using this

/-! ## Bounds of the iterated blocks -/

theorem stamp_min_nonneg (a b c : Int) : 0 ≤ stamp_min a b c := by
  unfold stamp_min
  simp only []
  split_ifs <;> omega

theorem ldiff_seven (n : Nat) : Nat.ldiff n 7 = n - n % 8 := by
  apply Nat.eq_of_testBit_eq
  intro i
  rw [Nat.testBit_ldiff]
  have h7 : (7 : Nat) = 2 ^ 3 - 1 := by norm_num
  have hn : n - n % 8 = 2 ^ 3 * (n >>> 3) := by
    rw [Nat.shiftRight_eq_div_pow]; omega
  rw [h7, Nat.testBit_two_pow_sub_one, hn, Nat.testBit_mul_pow_two, Nat.testBit_shiftRight]
  by_cases h : i < 3
  · have h' : ¬ (i ≥ 3) := by omega
    simp [h, h']
  · have h' : i ≥ 3 := by omega
    have e : 3 + (i - 3) = i := by omega
    simp [h, h', e]

/-- Masking with `~7` clears the three low bits: for a non-negative `v`, `v & ~(8 - 1)` is
`v - v mod 8`. -/
theorem and_not_mask_eight (v : Int) (h : 0 ≤ v) : and_not_mask v 8 = v - v % 8 := by
  obtain ⟨n, rfl⟩ := Int.eq_ofNat_of_zero_le h
  have e : and_not_mask (n : Int) 8 = ((Nat.ldiff n 7 : Nat) : Int) := rfl
  rw [e, ldiff_seven]
  omega

theorem shr_four (v : Int) : shr v 4 = v / 16 := by
  unfold shr
  rw [Int.shiftRight_eq_div_pow]
  norm_num

theorem lower_bound_eq (a b c : Int) :
    lower_bound a b c
      = (stamp_min a b c + 15) / 16 - ((stamp_min a b c + 15) / 16) % 8 := by
  have h := stamp_min_nonneg a b c
  unfold lower_bound
  rw [shr_four, and_not_mask_eight _ (by omega)]

theorem lower_bound_nonneg (a b c : Int) : 0 ≤ lower_bound a b c := by
  have h := stamp_min_nonneg a b c
  rw [lower_bound_eq]
  omega

theorem covered_nonneg (a b c hi v : Int) (h : covered (lower_bound a b c) hi v) : 0 ≤ v := by
  have := lower_bound_nonneg a b c
  unfold covered at h
  omega

theorem lower_bound_of_zero (a b c : Int) (h : stamp_min a b c = 0) : lower_bound a b c = 0 := by
  rw [lower_bound_eq, h]
  decide

theorem upper_bound_eq (a b c size n : Int) (h : stamp_max a b c (16 * size) = 16 * n) :
    upper_bound a b c size = n := by
  unfold upper_bound
  rw [shr_four, to_fixed_intCast, h]
  omega

theorem covered_zero_of_lt (n v : Int) (h0 : 0 ≤ v) (h : v < n) : covered 0 n v := by
  unfold covered
  omega

/-! ## The pixel canvas after a fill -/

theorem fill_triangle_store (color : Color) (c : Canvas (Int → Int → Color)) (v1 v2 v3 : Point)
    (i j : Int) :
    (fill_triangle c v1 v2 v3 (set_pixel_unchecked color)).store i j
      = if (i, j) ∈ tri_pixels c.width c.height (to_fixed v1.x) (to_fixed v1.y)
            (to_fixed v2.x) (to_fixed v2.y) (to_fixed v3.x) (to_fixed v3.y)
        then color else c.store i j := by
  unfold fill_triangle
  rw [fill_triangle_fixed_eq, write_all_unchecked_store]

theorem fill_triangle_width (color : Color) (c : Canvas (Int → Int → Color)) (v1 v2 v3 : Point) :
    (fill_triangle c v1 v2 v3 (set_pixel_unchecked color)).width = c.width ∧
      (fill_triangle c v1 v2 v3 (set_pixel_unchecked color)).height = c.height := by
  unfold fill_triangle
  rw [fill_triangle_fixed_eq]
  exact write_all_unchecked_width _ _ _

/-! ## The two triangles of a rectangle -/

/-- The first triangle of the fan of a rectangle, `((w,h), (w,0), (0,0))`, writes only
pixels of the rectangle. -/
theorem rect_first_sub (W H : Int) (w h : Nat) (ix iy : Int)
    (hm : (ix, iy) ∈ tri_pixels W H (16 * w) (16 * h) (16 * w) 0 0 0) :
    0 ≤ ix ∧ ix < w ∧ 0 ≤ iy ∧ iy < h := by
  rw [mem_tri_pixels] at hm
  obtain ⟨hx, hy, hin⟩ := hm
  have hx0 := covered_nonneg _ _ _ _ _ hx
  have hy0 := covered_nonneg _ _ _ _ _ hy
  have hw : (0 : Int) ≤ w := Int.natCast_nonneg w
  have hh : (0 : Int) ≤ h := Int.natCast_nonneg h
  obtain ⟨e1, e2, e3⟩ := hin
  simp only [edge_setup, edge_fn] at e1 e2 e3
  have h1 : (h : Int) * (w - ix) > 0 := by
    split_ifs at e1 with c <;> first | linarith | (exfalso; omega)
  have h3 : (w : Int) * iy ≤ h * ix := by split_ifs at e3 <;> linarith
  have hhp : (0 : Int) < h := by
    rcases hh.lt_or_eq with p | p
    · exact p
    · rw [← p] at h1; simp at h1
  have hxw : ix < w := by
    by_contra hc
    have : (h : Int) * (w - ix) ≤ 0 := mul_nonpos_of_nonneg_of_nonpos hh (by omega)
    omega
  refine ⟨hx0, hxw, hy0, ?_⟩
  by_contra hc
  have a1 : (w : Int) * h ≤ w * iy := mul_le_mul_of_nonneg_left (by omega) hw
  have a2 : (h : Int) * ix < h * w := mul_lt_mul_of_pos_left hxw hhp
  nlinarith

/-- The second triangle of the fan of a rectangle, `((0,h), (w,h), (0,0))`, writes only
pixels of the rectangle. -/
theorem rect_second_sub (W H : Int) (w h : Nat) (ix iy : Int)
    (hm : (ix, iy) ∈ tri_pixels W H 0 (16 * h) (16 * w) (16 * h) 0 0) :
    0 ≤ ix ∧ ix < w ∧ 0 ≤ iy ∧ iy < h := by
  rw [mem_tri_pixels] at hm
  obtain ⟨hx, hy, hin⟩ := hm
  have hx0 := covered_nonneg _ _ _ _ _ hx
  have hy0 := covered_nonneg _ _ _ _ _ hy
  have hw : (0 : Int) ≤ w := Int.natCast_nonneg w
  have hh : (0 : Int) ≤ h := Int.natCast_nonneg h
  obtain ⟨e1, e2, e3⟩ := hin
  simp only [edge_setup, edge_fn] at e1 e2 e3
  have h1 : (w : Int) * (h - iy) > 0 := by
    split_ifs at e1 with c <;> first | linarith | (exfalso; omega)
  have h2 : (h : Int) * ix < w * iy := by
    split_ifs at e2 with c
    · exfalso
      have hz : (h : Int) = 0 := by omega
      rw [hz] at h1
      have := mul_nonneg hw hy0
      linarith
    · linarith
  have hwp : (0 : Int) < w := by
    rcases hw.lt_or_eq with p | p
    · exact p
    · rw [← p] at h1; simp at h1
  have hyh : iy < h := by
    by_contra hc
    have : (w : Int) * (h - iy) ≤ 0 := mul_nonpos_of_nonneg_of_nonpos hw (by omega)
    omega
  refine ⟨hx0, ?_, hy0, hyh⟩
  by_contra hc
  have a1 : (h : Int) * w ≤ h * ix := mul_le_mul_of_nonneg_left (by omega) hh
  have a2 : (w : Int) * iy < w * h := mul_lt_mul_of_pos_left hyh hwp
  nlinarith

/-- The triangle that `fill_shape` builds from the slot after the last vertex of a
rectangle, `(g, (0,h), (0,0))`, writes no pixel, whatever the slot holds. -/
theorem rect_third_empty (W H : Int) (h : Nat) (GX GY ix iy : Int) :
    (ix, iy) ∉ tri_pixels W H GX GY 0 (16 * h) 0 0 := by
  intro hm
  rw [mem_tri_pixels] at hm
  obtain ⟨hx, hy, hin⟩ := hm
  have hx0 := covered_nonneg _ _ _ _ _ hx
  have hh : (0 : Int) ≤ h := Int.natCast_nonneg h
  obtain ⟨e1, e2, e3⟩ := hin
  simp only [edge_setup, edge_fn] at e2
  have : (h : Int) * ix < 0 := by split_ifs at e2 with c <;> first | linarith | omega
  have := mul_nonneg hh hx0
  omega

/-- Every pixel of the rectangle is written by the first or the second triangle of the
fan. -/
theorem rect_covered (W H : Int) (w h : Nat) (hW : (w : Int) ≤ W) (hH : (h : Int) ≤ H)
    (ix iy : Int) (hx0 : 0 ≤ ix) (hxw : ix < w) (hy0 : 0 ≤ iy) (hyh : iy < h) :
    (ix, iy) ∈ tri_pixels W H (16 * w) (16 * h) (16 * w) 0 0 0 ∨
      (ix, iy) ∈ tri_pixels W H 0 (16 * h) (16 * w) (16 * h) 0 0 := by
  have hw : (0 : Int) < w := by omega
  have hh : (0 : Int) < h := by omega
  have lx1 : lower_bound (16 * w) (16 * w) 0 = 0 :=
    lower_bound_of_zero _ _ _ (by unfold stamp_min; simp only []; split_ifs <;> omega)
  have lx2 : lower_bound 0 (16 * w) 0 = 0 :=
    lower_bound_of_zero _ _ _ (by unfold stamp_min; simp only []; split_ifs <;> omega)
  have ly1 : lower_bound (16 * h) 0 0 = 0 :=
    lower_bound_of_zero _ _ _ (by unfold stamp_min; simp only []; split_ifs <;> omega)
  have ly2 : lower_bound (16 * h) (16 * h) 0 = 0 :=
    lower_bound_of_zero _ _ _ (by unfold stamp_min; simp only []; split_ifs <;> omega)
  have ux1 : upper_bound (16 * w) (16 * w) 0 W = w :=
    upper_bound_eq _ _ _ _ _ (by unfold stamp_max; simp only []; split_ifs <;> omega)
  have ux2 : upper_bound 0 (16 * w) 0 W = w :=
    upper_bound_eq _ _ _ _ _ (by unfold stamp_max; simp only []; split_ifs <;> omega)
  have uy1 : upper_bound (16 * h) 0 0 H = h :=
    upper_bound_eq _ _ _ _ _ (by unfold stamp_max; simp only []; split_ifs <;> omega)
  have uy2 : upper_bound (16 * h) (16 * h) 0 H = h :=
    upper_bound_eq _ _ _ _ _ (by unfold stamp_max; simp only []; split_ifs <;> omega)
  have cx := covered_zero_of_lt w ix hx0 hxw
  have cy := covered_zero_of_lt h iy hy0 hyh
  have p1 : (0 : Int) < h * (w - ix) := mul_pos hh (by omega)
  have p2 : (0 : Int) < w * (h - iy) := mul_pos hw (by omega)
  have p3 : (0 : Int) ≤ w * iy := mul_nonneg hw.le hy0
  have p4 : (0 : Int) ≤ h * ix := mul_nonneg hh.le hx0
  by_cases hd : (w : Int) * iy ≤ h * ix
  · left
    rw [mem_tri_pixels, lx1, ux1, ly1, uy1]
    refine ⟨cx, cy, ?_, ?_, ?_⟩ <;> simp only [edge_setup, edge_fn] <;> split_ifs <;>
      first | linarith | omega
  · right
    rw [mem_tri_pixels, lx2, ux2, ly2, uy2]
    refine ⟨cx, cy, ?_, ?_, ?_⟩ <;> simp only [edge_setup, edge_fn] <;> split_ifs <;>
      first | linarith | omega

/-! ## Rectangle stamps -/

theorem new_rectangle_stamp_eq (storage : Option (Nat → Point)) (raw : Option Stamp)
    (mat_ok : Bool) (w h : Nat) (s : Stamp)
    (hs : new_rectangle_stamp storage raw mat_ok w h = some s) :
    ∃ buf r, storage = some buf ∧ raw = some r ∧ mat_ok = true ∧
      s = { r with polygon := some (rectangle_polygon buf w h), tr_matrix := mat3.identity } := by
  cases storage with
  | none => simp [new_rectangle_stamp, new_polygon] at hs
  | some buf =>
    cases raw with
    | none => simp [new_rectangle_stamp, new_polygon, new_polygon_stamp] at hs
    | some r =>
      cases mat_ok with
      | false => simp [new_rectangle_stamp, new_polygon, new_polygon_stamp, new_mat3] at hs
      | true =>
        refine ⟨buf, r, rfl, rfl, rfl, ?_⟩
        simp only [new_rectangle_stamp, new_polygon, new_polygon_stamp, new_mat3, Option.map_some',
          if_true, Option.some.injEq] at hs
        rw [← hs]
        rfl

theorem rectangle_polygon_facts (buf : Nat → Point) (w h : Nat) :
    (rectangle_polygon buf w h).next = 4 ∧ (rectangle_polygon buf w h).closed = true ∧
    (rectangle_polygon buf w h).vertices 0 = ⟨0, 0⟩ ∧
    (rectangle_polygon buf w h).vertices 1 = ⟨(w : ℚ), 0⟩ ∧
    (rectangle_polygon buf w h).vertices 2 = ⟨(w : ℚ), (h : ℚ)⟩ ∧
    (rectangle_polygon buf w h).vertices 3 = ⟨0, (h : ℚ)⟩ ∧
    ∀ i, 4 ≤ i → (rectangle_polygon buf w h).vertices i = buf i := by
  refine ⟨rfl, rfl, ?_, ?_, ?_, ?_, ?_⟩
  · simp [rectangle_polygon, close_polygon, add_vertex, Function.update]
  · simp [rectangle_polygon, close_polygon, add_vertex, Function.update]
  · simp [rectangle_polygon, close_polygon, add_vertex, Function.update]
  · simp [rectangle_polygon, close_polygon, add_vertex, Function.update]
  · intro i hi
    have h0 : i ≠ 0 := by omega
    have h1 : i ≠ 1 := by omega
    have h2 : i ≠ 2 := by omega
    have h3 : i ≠ 3 := by omega
    simp [rectangle_polygon, close_polygon, add_vertex, Function.update, h0, h1, h2, h3]

/-- The canvas after `fill_shape` on a rectangle stamp with the identity matrix. -/
theorem fill_rectangle_store (buf : Nat → Point) (r : Stamp) (w h : Nat) (W H : Int)
    (hW : (w : Int) ≤ W) (hH : (h : Int) ≤ H) :
    ∃ c', fill_shape pixel_api (blank_canvas W H) Color.WHITE
        { r with polygon := some (rectangle_polygon buf w h), tr_matrix := mat3.identity }
        = some (1, c',
          { r with polygon := some (rectangle_polygon buf w h), tr_matrix := mat3.identity }) ∧
      ∀ x y : Int, c'.store x y = Color.WHITE ↔ (0 ≤ x ∧ x < w ∧ 0 ≤ y ∧ y < h) := by
  obtain ⟨hn, -, v0, v1, v2, v3, v4⟩ := rectangle_polygon_facts buf w h
  refine ⟨_, rfl, ?_⟩
  intro x y
  simp only [hn, fan_loop, transform_point_identity, v0, v1, v2, v3, v4 4 (le_refl 4),
    pixel_api, if_true, fill_triangle_store, fill_triangle_width]
  simp only [to_fixed_natCast, to_fixed_zero, blank_canvas]
  have t3 := rect_third_empty W H h (to_fixed (buf 4).x) (to_fixed (buf 4).y) x y
  rw [if_neg t3]
  constructor
  · intro hc
    by_cases m2 : (x, y) ∈ tri_pixels W H 0 (16 * h) (16 * w) (16 * h) 0 0
    · exact rect_second_sub W H w h x y m2
    · by_cases m1 : (x, y) ∈ tri_pixels W H (16 * w) (16 * h) (16 * w) 0 0 0
      · exact rect_first_sub W H w h x y m1
      · simp [m1, m2] at hc
  · rintro ⟨a, b, c, d⟩
    rcases rect_covered W H w h hW hH x y a b c d with m | m
    · by_cases m2 : (x, y) ∈ tri_pixels W H 0 (16 * h) (16 * w) (16 * h) 0 0
      · simp [m2]
      · simp [m, m2]
    · simp [m]

theorem rectangle_card (f : Int → Int → Color) (w h : Nat)
    (hf : ∀ x y : Int, f x y = Color.WHITE ↔ (0 ≤ x ∧ x < w ∧ 0 ≤ y ∧ y < h)) :
    Set.ncard {p : Int × Int | f p.1 p.2 = Color.WHITE} = w * h := by
  have : {p : Int × Int | f p.1 p.2 = Color.WHITE}
      = ((Finset.Ico (0 : Int) w ×ˢ Finset.Ico (0 : Int) h : Finset (Int × Int)) : Set (Int × Int)) := by
    ext p
    simp only [Set.mem_setOf_eq, hf, Finset.coe_product, Finset.coe_Ico, Set.mem_prod, Set.mem_Ico]
    tauto
  rw [this, Set.ncard_coe_Finset, Finset.card_product, Int.card_Ico, Int.card_Ico]
  simp

/-! ## The line rasteriser -/

/-- The pixel writes of the loop do not depend on the canvas: the loop on any canvas is the
recorded sequence of writes played on that canvas. -/
theorem bresenham_loop_record {κ : Type} (set : κ → Int → Int → κ)
    (dx dy incx incy x2 y2 : Int) (c0 : κ) (fuel : Nat) (l : List (Int × Int))
    (x1 y1 err : Int) :
    bresenham_loop set dx dy incx incy x2 y2 fuel (write_all set c0 l) x1 y1 err
      = (bresenham_loop record dx dy incx incy x2 y2 fuel l x1 y1 err).map (write_all set c0) := by
  induction fuel generalizing l x1 y1 err with
  | zero => rfl
  | succ fuel ih =>
    have hw : set (write_all set c0 l) x1 y1 = write_all set c0 (record l x1 y1) := by
      simp [record, write_all_append, write_all]
    simp only [bresenham_loop, hw]
    split
    · rfl
    · exact ih _ _ _ _

/-- The loop when `x` is the major axis (`dy < dx`): with `rx` steps left in `x` and `ry` in
`y`, the error term stays in `[0, dx)` and the loop ends at the target after `rx` more
steps. -/
theorem bresenham_loop_xmajor (dx dy incx incy x2 y2 err0 : Int) (hd : dy < dx) (hdy : 0 ≤ dy)
    (hix : incx = 1 ∨ incx = -1) (he0 : 0 ≤ err0 ∧ err0 < dx) :
    ∀ (rx : Nat) (ry : Int) (l : List (Int × Int)) (x y err : Int) (fuel : Nat),
      x2 = x + incx * rx → y2 = y + incy * ry → 0 ≤ err → err < dx →
      err - err0 = rx * dy - ry * dx → rx < fuel →
      ∃ pts, bresenham_loop record dx dy incx incy x2 y2 fuel l x y err
          = some (l ++ (x, y) :: pts) ∧ pts.length = rx ∧
          ((x, y) :: pts).getLast? = some (x2, y2) := by
  intro rx
  induction rx with
  | zero =>
    intro ry l x y err fuel hx hy h1 h2 hinv hf
    obtain ⟨f, rfl⟩ : ∃ f, fuel = f + 1 := ⟨fuel - 1, by omega⟩
    have hry : ry = 0 := by
      simp only [Nat.cast_zero, zero_mul, zero_sub] at hinv
      by_contra hne
      rcases lt_or_gt_of_ne hne with hl | hg
      · have : ry * dx ≤ -1 * dx := mul_le_mul_of_nonneg_right (by omega) (by omega)
        linarith
      · have : 1 * dx ≤ ry * dx := mul_le_mul_of_nonneg_right (by omega) (by omega)
        linarith
    subst hry
    simp only [Nat.cast_zero, mul_zero, add_zero] at hx hy
    subst hx hy
    exact ⟨[], by simp [bresenham_loop, record], rfl, rfl⟩
  | succ rx ih =>
    intro ry l x y err fuel hx hy h1 h2 hinv hf
    obtain ⟨f, rfl⟩ : ∃ f, fuel = f + 1 := ⟨fuel - 1, by omega⟩
    have hne : ¬ (x = x2 ∧ y = y2) := by
      rintro ⟨hxx, -⟩
      rw [hx] at hxx
      push_cast at hxx
      rcases hix with h | h <;> rw [h] at hxx <;> omega
    have hgt : err > -dx := by omega
    push_cast at hx hinv
    by_cases hlt : err < dy
    · obtain ⟨pts, hp, hlen, hlast⟩ := ih (ry - 1) (record l x y) (x + incx) (y + incy)
        (err - dy + dx) f (by rw [hx]; ring) (by rw [hy]; ring) (by omega) (by omega)
        (by linarith) (by omega)
      refine ⟨(x + incx, y + incy) :: pts, ?_, by simp [hlen], ?_⟩
      · simp only [bresenham_loop, hne, if_false, hgt, hlt, if_true]
        rw [hp]; simp [record]
      · rw [List.getLast?_cons_cons]; exact hlast
    · obtain ⟨pts, hp, hlen, hlast⟩ := ih ry (record l x y) (x + incx) y
        (err - dy) f (by rw [hx]; ring) hy (by omega) (by omega)
        (by linarith) (by omega)
      refine ⟨(x + incx, y) :: pts, ?_, by simp [hlen], ?_⟩
      · simp only [bresenham_loop, hne, if_false, hgt, hlt, if_true]
        rw [hp]; simp [record]
      · rw [List.getLast?_cons_cons]; exact hlast

/-- The loop when `y` is the major axis (`dx ≤ dy`, `0 < dy`): the error term stays in
`(-dy, 0]` and the loop ends at the target after `ry` more steps. -/
theorem bresenham_loop_ymajor (dx dy incx incy x2 y2 err0 : Int) (hd : dx ≤ dy) (hdx : 0 ≤ dx)
    (hdy : 0 < dy) (hiy : incy = 1 ∨ incy = -1) (he0 : -dy < err0 ∧ err0 ≤ 0) :
    ∀ (ry : Nat) (rx : Int) (l : List (Int × Int)) (x y err : Int) (fuel : Nat),
      x2 = x + incx * rx → y2 = y + incy * ry → -dy < err → err ≤ 0 →
      err - err0 = rx * dy - ry * dx → ry < fuel →
      ∃ pts, bresenham_loop record dx dy incx incy x2 y2 fuel l x y err
          = some (l ++ (x, y) :: pts) ∧ pts.length = ry ∧
          ((x, y) :: pts).getLast? = some (x2, y2) := by
  intro ry
  induction ry with
  | zero =>
    intro rx l x y err fuel hx hy h1 h2 hinv hf
    obtain ⟨f, rfl⟩ : ∃ f, fuel = f + 1 := ⟨fuel - 1, by omega⟩
    have hrx : rx = 0 := by
      simp only [Nat.cast_zero, zero_mul, sub_zero] at hinv
      by_contra hne
      rcases lt_or_gt_of_ne hne with hl | hg
      · have : rx * dy ≤ -1 * dy := mul_le_mul_of_nonneg_right (by omega) (by omega)
        linarith
      · have : 1 * dy ≤ rx * dy := mul_le_mul_of_nonneg_right (by omega) (by omega)
        linarith
    subst hrx
    simp only [Nat.cast_zero, mul_zero, add_zero] at hx hy
    subst hx hy
    exact ⟨[], by simp [bresenham_loop, record], rfl, rfl⟩
  | succ ry ih =>
    intro rx l x y err fuel hx hy h1 h2 hinv hf
    obtain ⟨f, rfl⟩ : ∃ f, fuel = f + 1 := ⟨fuel - 1, by omega⟩
    have hne : ¬ (x = x2 ∧ y = y2) := by
      rintro ⟨-, hyy⟩
      rw [hy] at hyy
      push_cast at hyy
      rcases hiy with h | h <;> rw [h] at hyy <;> omega
    have hlt : err < dy := by omega
    push_cast at hy hinv
    by_cases hgt : err > -dx
    · obtain ⟨pts, hp, hlen, hlast⟩ := ih (rx - 1) (record l x y) (x + incx) (y + incy)
        (err - dy + dx) f (by rw [hx]; ring) (by rw [hy]; ring) (by omega) (by omega)
        (by linarith) (by omega)
      refine ⟨(x + incx, y + incy) :: pts, ?_, by simp [hlen], ?_⟩
      · simp only [bresenham_loop, hne, if_false, hgt, hlt, if_true]
        rw [hp]; simp [record]
      · rw [List.getLast?_cons_cons]; exact hlast
    · obtain ⟨pts, hp, hlen, hlast⟩ := ih rx (record l x y) x (y + incy)
        (err + dx) f hx (by rw [hy]; ring) (by omega) (by omega)
        (by linarith) (by omega)
      refine ⟨(x, y + incy) :: pts, ?_, by simp [hlen], ?_⟩
      · simp only [bresenham_loop, hne, if_false, hgt, hlt, if_true]
        rw [hp]; simp [record]
      · rw [List.getLast?_cons_cons]; exact hlast

theorem abs_sub_eq_ite (a b : Int) : |a - b| = if b < a then a - b else b - a := by
  split <;> rename_i h
  · rw [abs_of_pos (by omega)]
  · rw [abs_of_nonpos (by omega)]; ring

/-- The line rasteriser returns: with more fuel than the longer of the two extents, the
loop ends at the target pixel, having written one pixel per step of the major axis. -/
theorem bresenham_with_record (x1 y1 x2 y2 : Int) (fuel : Nat)
    (hf : max |x2 - x1| |y2 - y1| < fuel) :
    ∃ pts, bresenham_with record fuel [] x1 y1 x2 y2 = some ((x1, y1) :: pts) ∧
      (pts.length : Int) = max |x2 - x1| |y2 - y1| ∧
      ((x1, y1) :: pts).getLast? = some (x2, y2) := by
  have hdx0 : (0 : Int) ≤ |x2 - x1| := abs_nonneg _
  have hdy0 : (0 : Int) ≤ |y2 - y1| := abs_nonneg _
  have hf1 := lt_of_le_of_lt (le_max_left _ _) hf
  have hf2 := lt_of_le_of_lt (le_max_right _ _) hf
  unfold bresenham_with
  simp only []
  have hxa : x2 = x1 + (if x1 < x2 then 1 else -1) * ((|x2 - x1|).toNat : Int) := by
    rw [Int.toNat_of_nonneg hdx0, abs_sub_eq_ite]; split_ifs <;> omega
  have hya : y2 = y1 + (if y1 < y2 then 1 else -1) * ((|y2 - y1|).toNat : Int) := by
    rw [Int.toNat_of_nonneg hdy0, abs_sub_eq_ite]; split_ifs <;> omega
  have hxb : x2 = x1 + (if x1 < x2 then 1 else -1) * |x2 - x1| := by
    rw [abs_sub_eq_ite]; split_ifs <;> omega
  have hyb : y2 = y1 + (if y1 < y2 then 1 else -1) * |y2 - y1| := by
    rw [abs_sub_eq_ite]; split_ifs <;> omega
  by_cases hmaj : |x2 - x1| > |y2 - y1|
  · have he : Int.tdiv (if |x2 - x1| > |y2 - y1| then |x2 - x1| else -|y2 - y1|) 2
        = |x2 - x1| / 2 := by
      rw [if_pos hmaj, Int.tdiv_eq_ediv hdx0 (by norm_num)]
    rw [he]
    obtain ⟨pts, hp, hlen, hlast⟩ := bresenham_loop_xmajor |x2 - x1| |y2 - y1|
      (if x1 < x2 then 1 else -1) (if y1 < y2 then 1 else -1) x2 y2 (|x2 - x1| / 2)
      hmaj hdy0 (by split_ifs <;> simp) (by omega)
      (|x2 - x1|).toNat |y2 - y1| [] x1 y1 (|x2 - x1| / 2) fuel hxa hyb (by omega) (by omega)
      (by rw [Int.toNat_of_nonneg hdx0]; ring) (by omega)
    refine ⟨pts, by simpa using hp, ?_, hlast⟩
    rw [hlen, Int.toNat_of_nonneg hdx0, max_eq_left (by omega)]
  · by_cases hz : |y2 - y1| = 0
    · have hx0 : |x2 - x1| = 0 := by omega
      have e1 : x1 = x2 := by
        have := abs_eq_zero.mp hx0; omega
      have e2 : y1 = y2 := by
        have := abs_eq_zero.mp hz; omega
      subst e1 e2
      obtain ⟨f, rfl⟩ : ∃ f, fuel = f + 1 := ⟨fuel - 1, by omega⟩
      exact ⟨[], by simp [bresenham_loop, record], by simp, rfl⟩
    · have he : Int.tdiv (if |x2 - x1| > |y2 - y1| then |x2 - x1| else -|y2 - y1|) 2
          = -(|y2 - y1| / 2) := by
        rw [if_neg hmaj, Int.neg_tdiv, Int.tdiv_eq_ediv hdy0 (by norm_num)]
      rw [he]
      obtain ⟨pts, hp, hlen, hlast⟩ := bresenham_loop_ymajor |x2 - x1| |y2 - y1|
        (if x1 < x2 then 1 else -1) (if y1 < y2 then 1 else -1) x2 y2 (-(|y2 - y1| / 2))
        (by omega) hdx0 (by omega) (by split_ifs <;> simp) (by omega)
        (|y2 - y1|).toNat |x2 - x1| [] x1 y1 (-(|y2 - y1| / 2)) fuel hxb hya (by omega) (by omega)
        (by rw [Int.toNat_of_nonneg hdy0]; ring) (by omega)
      refine ⟨pts, by simpa using hp, ?_, hlast⟩
      rw [hlen, Int.toNat_of_nonneg hdy0, max_eq_right (by omega)]

/-- The line on any canvas is the recorded line played on that canvas. -/
theorem bresenham_with_eq_record {κ : Type} (set : κ → Int → Int → κ) (fuel : Nat) (c : κ)
    (x1 y1 x2 y2 : Int) :
    bresenham_with set fuel c x1 y1 x2 y2
      = (bresenham_with record fuel [] x1 y1 x2 y2).map (write_all set c) := by
  unfold bresenham_with
  exact bresenham_loop_record set _ _ _ _ _ _ c fuel [] x1 y1 _

/-! ## The outline and the fan as sequences of calls -/

theorem outline_loop_eq {κ : Type} (line : κ → Int → Int → Int → Int → Option κ)
    (p : Polygon) (m : mat3) (n i : Nat) (c : κ) :
    outline_loop line p m i n c
      = (List.range' i n).foldlM
          (fun c k => line c (outline_edge p m k).1 (outline_edge p m k).2.1
            (outline_edge p m k).2.2.1 (outline_edge p m k).2.2.2) c := by
  induction n generalizing i c with
  | zero => rfl
  | succ n ih =>
    simp only [outline_loop, List.range'_succ, List.foldlM_cons, outline_edge]
    cases h : line c (float_to_int (transform_point (p.vertices (i - 1)) m).x)
        (float_to_int (transform_point (p.vertices (i - 1)) m).y)
        (float_to_int (transform_point (p.vertices i) m).x)
        (float_to_int (transform_point (p.vertices i) m).y) with
    | none => rfl
    | some c' => exact ih (i + 1) c'

theorem foldlM_record_line (f : Nat → Int × Int × Int × Int) (ks : List Nat)
    (l : List (Int × Int × Int × Int)) :
    ks.foldlM (fun c k => record_line c (f k).1 (f k).2.1 (f k).2.2.1 (f k).2.2.2) l
      = some (l ++ ks.map f) := by
  induction ks generalizing l with
  | nil => simp
  | cons k ks ih =>
    have step : record_line l (f k).1 (f k).2.1 (f k).2.2.1 (f k).2.2.2 = some (l ++ [f k]) := rfl
    rw [List.foldlM_cons, step]
    simp only [Option.bind_eq_bind, Option.some_bind]
    rw [ih]
    simp

theorem foldlM_some_of_forall {κ α : Type} (g : κ → α → Option κ) (ks : List α)
    (h : ∀ k ∈ ks, ∀ c, ∃ c', g c k = some c') (c : κ) :
    ∃ c', ks.foldlM g c = some c' := by
  induction ks generalizing c with
  | nil => exact ⟨c, rfl⟩
  | cons k ks ih =>
    obtain ⟨c1, h1⟩ := h k (List.mem_cons_self _ _) c
    obtain ⟨c2, h2⟩ := ih (fun k hk => h k (List.mem_cons_of_mem _ hk)) c1
    exact ⟨c2, by simp [List.foldlM_cons, h1, h2]⟩

theorem edge_extent_le_outline_fuel (p : Polygon) (m : mat3) (i : Nat) (hi : i < p.next) :
    edge_extent (outline_edge p m i) < outline_fuel p m := by
  unfold outline_fuel
  have hmem : edge_extent (outline_edge p m i)
      ∈ (List.range p.next).map fun i => edge_extent (outline_edge p m i) :=
    List.mem_map.mpr ⟨i, List.mem_range.mpr hi, rfl⟩
  have := List.single_le_sum (fun _ _ => Nat.zero_le _) _ hmem
  omega

/-- One segment of the outline is drawn to the end when the fuel is at least
`outline_fuel`. -/
theorem bresenham_returns {σ : Type} (api : CanvasApi σ) (p : Polygon) (m : mat3) (i : Nat)
    (hi : i < p.next) (fuel : Nat) (hf : outline_fuel p m ≤ fuel) (c : Canvas σ)
    (color : Color) :
    ∃ c', bresenham api fuel c color (outline_edge p m i).1 (outline_edge p m i).2.1
      (outline_edge p m i).2.2.1 (outline_edge p m i).2.2.2 = some c' := by
  have h1 := edge_extent_le_outline_fuel p m i hi
  have h2 : max |(outline_edge p m i).2.2.1 - (outline_edge p m i).1|
      |(outline_edge p m i).2.2.2 - (outline_edge p m i).2.1| < (fuel : Int) := by
    have h0 : (0 : Int) ≤ max |(outline_edge p m i).2.2.1 - (outline_edge p m i).1|
        |(outline_edge p m i).2.2.2 - (outline_edge p m i).2.1| :=
      le_trans (abs_nonneg _) (le_max_left _ _)
    unfold edge_extent at h1
    omega
  obtain ⟨pts, hp, -, hlast⟩ := bresenham_with_record _ _ _ _ fuel h2
  refine ⟨write_all (fun c x y => api.set_pixel c color x y) c
    (((outline_edge p m i).1, (outline_edge p m i).2.1) :: pts), ?_⟩
  unfold bresenham
  rw [bresenham_with_eq_record, hp]
  rfl

/-- The outline of a polygon-backed stamp is drawn to the end when the fuel is at least
`outline_fuel`. -/
theorem draw_stamp_outline_returns {σ : Type} (api : CanvasApi σ) (c : Canvas σ)
    (color : Color) (s : Stamp) (p : Polygon) (ht : s.type = StampType.POLYGON)
    (hp : s.polygon = some p) (fuel : Nat) (hf : outline_fuel p s.tr_matrix ≤ fuel) :
    ∃ c', draw_stamp_outline api fuel c color s = some (1, c', s) := by
  unfold draw_stamp_outline draw_stamp_outline_with
  rw [if_neg (by rw [ht]; decide), hp]
  simp only [outline_loop_eq]
  obtain ⟨c', hc⟩ := foldlM_some_of_forall
    (fun c k => bresenham api fuel c color (outline_edge p s.tr_matrix k).1
      (outline_edge p s.tr_matrix k).2.1 (outline_edge p s.tr_matrix k).2.2.1
      (outline_edge p s.tr_matrix k).2.2.2) (List.range' 1 (p.next - 1))
    (fun k hk c => bresenham_returns api p s.tr_matrix k
      (by rw [List.mem_range'_1] at hk; omega) fuel hf c color) c
  exact ⟨c', by rw [hc]⟩

theorem fan_loop_eq {κ : Type} (tri : κ → Point → Point → Point → κ) (p : Polygon) (m : mat3)
    (n i : Nat) (c : κ) :
    fan_loop tri p m (transform_point (p.vertices 0) m) i n
        (transform_point (p.vertices (i - 1)) m) c
      = (List.range' i n).foldl
          (fun c k => tri c (transform_point (p.vertices k) m)
            (transform_point (p.vertices (k - 1)) m) (transform_point (p.vertices 0) m)) c := by
  induction n generalizing i c with
  | zero => rfl
  | succ n ih =>
    simp only [fan_loop, List.range'_succ, List.foldl_cons]
    exact ih (i + 1) _

theorem foldl_record_triangle (f : Nat → Point × Point × Point) (ks : List Nat)
    (l : List (Point × Point × Point)) :
    ks.foldl (fun c k => record_triangle c (f k).1 (f k).2.1 (f k).2.2) l = l ++ ks.map f := by
  induction ks generalizing l with
  | nil => simp
  | cons k ks ih =>
    have step : record_triangle l (f k).1 (f k).2.1 (f k).2.2 = l ++ [f k] := rfl
    rw [List.foldl_cons, step, ih]
    simp

theorem per_pixel_block_eq {κ : Type} (sp : κ → Int → Int → κ) (e : EdgeSetup) (x y : Int)
    (cv : κ) :
    for_lt y (y + 8) 1
        (fun iy cv => for_lt x (x + 8) 1
          (fun ix cv => if inside e ix iy then sp cv ix iy else cv) cv) cv
      = write_all sp cv (block_pixels (inside e) x y) := by
  simp only [for_lt_eight]
  simp only [block_pixels, ← foldl_write_all]
  congr 1
  funext c ky
  unfold row_pixels
  rw [← foldl_filter_write sp (fun (kx : Nat) => inside e (x + kx) (y + ky))
    (fun (kx : Nat) => (x + (kx : Int), y + (ky : Int)))]

theorem inside_iff_edge_tests (X1 Y1 X2 Y2 X3 Y3 ix iy : Int) :
    inside (edge_setup X1 Y1 X2 Y2 X3 Y3) ix iy ↔
      edge_test X1 Y1 X2 Y2 ix iy ∧ edge_test X2 Y2 X3 Y3 ix iy ∧ edge_test X3 Y3 X1 Y1 ix iy :=
  Iff.rfl

theorem edge_test_of_has_edge (X1 Y1 X2 Y2 X3 Y3 XA YA XB YB ix iy : Int)
    (he : has_edge X1 Y1 X2 Y2 X3 Y3 XA YA XB YB)
    (hin : inside (edge_setup X1 Y1 X2 Y2 X3 Y3) ix iy) : edge_test XA YA XB YB ix iy := by
  rw [inside_iff_edge_tests] at hin
  rcases he with ⟨rfl, rfl, rfl, rfl⟩ | ⟨rfl, rfl, rfl, rfl⟩ | ⟨rfl, rfl, rfl, rfl⟩
  · exact hin.1
  · exact hin.2.1
  · exact hin.2.2

theorem edge_test_opposite (XA YA XB YB : Int) (hAB : (XA, YA) ≠ (XB, YB)) (ix iy : Int) :
    edge_test XA YA XB YB ix iy ↔ ¬ edge_test XB YB XA YA ix iy := by
  have hne : XA ≠ XB ∨ YA ≠ YB := by
    by_contra hc
    push_neg at hc
    exact hAB (by rw [hc.1, hc.2])
  simp only [edge_test, edge_setup, edge_fn]
  split_ifs with c1 c2 c2 <;> constructor <;> intro hh <;>
    first
    | (exfalso; omega)
    | (intro hk; linarith)
    | (push_neg at hh; linarith)

/-! ## The edge tests and the bounding box -/

theorem edge_test_iff (XA YA XB YB ix iy : Int) :
    edge_test XA YA XB YB ix iy ↔
      0 < raw_edge XA YA XB YB ix iy ∨
        (raw_edge XA YA XB YB ix iy = 0 ∧ corrected XA YA XB YB) := by
  simp only [edge_test, edge_setup, edge_fn, raw_edge, corrected]
  split_ifs with c
  · constructor
    · intro h
      by_cases h0 : 0 < (YA - YB) * XA - (XA - XB) * YA + (XA - XB) * (16 * iy)
          - (YA - YB) * (16 * ix)
      · exact Or.inl h0
      · exact Or.inr ⟨by linarith, c⟩
    · rintro (h | ⟨h, -⟩) <;> linarith
  · constructor
    · intro h; exact Or.inl (by linarith)
    · rintro (h | ⟨-, h⟩)
      · linarith
      · exact absurd h c

/-- The three edges of a triangle are never all corrected. -/
theorem not_all_corrected (X1 Y1 X2 Y2 X3 Y3 : Int) :
    ¬ (corrected X1 Y1 X2 Y2 ∧ corrected X2 Y2 X3 Y3 ∧ corrected X3 Y3 X1 Y1) := by
  unfold corrected
  omega

/-- The three uncorrected edge functions add up to twice the signed area. -/
theorem raw_edge_sum (X1 Y1 X2 Y2 X3 Y3 ix iy : Int) :
    raw_edge X1 Y1 X2 Y2 ix iy + raw_edge X2 Y2 X3 Y3 ix iy + raw_edge X3 Y3 X1 Y1 ix iy
      = (X1 - X2) * (Y3 - Y1) - (X3 - X1) * (Y1 - Y2) := by
  unfold raw_edge; ring

theorem raw_edge_weights_x (X1 Y1 X2 Y2 X3 Y3 ix iy : Int) :
    (X1 - X3) * raw_edge X1 Y1 X2 Y2 ix iy + (X1 - X2) * raw_edge X3 Y3 X1 Y1 ix iy
      = -(16 * ix - X1) * ((X1 - X2) * (Y3 - Y1) - (X3 - X1) * (Y1 - Y2)) := by
  unfold raw_edge; ring

theorem raw_edge_weights_y (X1 Y1 X2 Y2 X3 Y3 ix iy : Int) :
    (Y1 - Y3) * raw_edge X1 Y1 X2 Y2 ix iy + (Y1 - Y2) * raw_edge X3 Y3 X1 Y1 ix iy
      = -(16 * iy - Y1) * ((X1 - X2) * (Y3 - Y1) - (X3 - X1) * (Y1 - Y2)) := by
  unfold raw_edge; ring

/-- A pixel that passes the three edge tests has non-negative uncorrected edge functions
and a positive area. -/
theorem raw_nonneg_of_tests (X1 Y1 X2 Y2 X3 Y3 ix iy : Int)
    (t1 : edge_test X1 Y1 X2 Y2 ix iy) (t2 : edge_test X2 Y2 X3 Y3 ix iy)
    (t3 : edge_test X3 Y3 X1 Y1 ix iy) :
    0 ≤ raw_edge X1 Y1 X2 Y2 ix iy ∧ 0 ≤ raw_edge X2 Y2 X3 Y3 ix iy ∧
      0 ≤ raw_edge X3 Y3 X1 Y1 ix iy ∧
      0 < (X1 - X2) * (Y3 - Y1) - (X3 - X1) * (Y1 - Y2) := by
  rw [edge_test_iff] at t1 t2 t3
  have n1 : 0 ≤ raw_edge X1 Y1 X2 Y2 ix iy := by rcases t1 with h | ⟨h, -⟩ <;> omega
  have n2 : 0 ≤ raw_edge X2 Y2 X3 Y3 ix iy := by rcases t2 with h | ⟨h, -⟩ <;> omega
  have n3 : 0 ≤ raw_edge X3 Y3 X1 Y1 ix iy := by rcases t3 with h | ⟨h, -⟩ <;> omega
  refine ⟨n1, n2, n3, ?_⟩
  rw [← raw_edge_sum X1 Y1 X2 Y2 X3 Y3 ix iy]
  by_contra hc
  have z1 : raw_edge X1 Y1 X2 Y2 ix iy = 0 := by omega
  have z2 : raw_edge X2 Y2 X3 Y3 ix iy = 0 := by omega
  have z3 : raw_edge X3 Y3 X1 Y1 ix iy = 0 := by omega
  apply not_all_corrected X1 Y1 X2 Y2 X3 Y3
  refine ⟨?_, ?_, ?_⟩
  · rcases t1 with h | ⟨-, h⟩
    · omega
    · exact h
  · rcases t2 with h | ⟨-, h⟩
    · omega
    · exact h
  · rcases t3 with h | ⟨-, h⟩
    · omega
    · exact h

/-- Left side of the bounding box: a pixel that passes the tests is not to the left of a
leftmost vertex. -/
theorem tests_x_ge (X1 Y1 X2 Y2 X3 Y3 ix iy : Int)
    (t1 : edge_test X1 Y1 X2 Y2 ix iy) (t2 : edge_test X2 Y2 X3 Y3 ix iy)
    (t3 : edge_test X3 Y3 X1 Y1 ix iy) (h2 : X1 ≤ X2) (h3 : X1 ≤ X3) : X1 ≤ 16 * ix := by
  obtain ⟨n1, n2, n3, hS⟩ := raw_nonneg_of_tests X1 Y1 X2 Y2 X3 Y3 ix iy t1 t2 t3
  have hw := raw_edge_weights_x X1 Y1 X2 Y2 X3 Y3 ix iy
  by_contra hc
  have a1 : (X1 - X3) * raw_edge X1 Y1 X2 Y2 ix iy ≤ 0 :=
    mul_nonpos_of_nonpos_of_nonneg (by omega) n1
  have a2 : (X1 - X2) * raw_edge X3 Y3 X1 Y1 ix iy ≤ 0 :=
    mul_nonpos_of_nonpos_of_nonneg (by omega) n3
  have a3 : 0 < -(16 * ix - X1) * ((X1 - X2) * (Y3 - Y1) - (X3 - X1) * (Y1 - Y2)) :=
    mul_pos (by omega) hS
  linarith

/-- Top side of the bounding box. -/
theorem tests_y_ge (X1 Y1 X2 Y2 X3 Y3 ix iy : Int)
    (t1 : edge_test X1 Y1 X2 Y2 ix iy) (t2 : edge_test X2 Y2 X3 Y3 ix iy)
    (t3 : edge_test X3 Y3 X1 Y1 ix iy) (h2 : Y1 ≤ Y2) (h3 : Y1 ≤ Y3) : Y1 ≤ 16 * iy := by
  obtain ⟨n1, n2, n3, hS⟩ := raw_nonneg_of_tests X1 Y1 X2 Y2 X3 Y3 ix iy t1 t2 t3
  have hw := raw_edge_weights_y X1 Y1 X2 Y2 X3 Y3 ix iy
  by_contra hc
  have a1 : (Y1 - Y3) * raw_edge X1 Y1 X2 Y2 ix iy ≤ 0 :=
    mul_nonpos_of_nonpos_of_nonneg (by omega) n1
  have a2 : (Y1 - Y2) * raw_edge X3 Y3 X1 Y1 ix iy ≤ 0 :=
    mul_nonpos_of_nonpos_of_nonneg (by omega) n3
  have a3 : 0 < -(16 * iy - Y1) * ((X1 - X2) * (Y3 - Y1) - (X3 - X1) * (Y1 - Y2)) :=
    mul_pos (by omega) hS
  linarith

theorem raw_edge_factored (XA YA XB YB ix iy : Int) :
    raw_edge XA YA XB YB ix iy
      = (YA - YB) * (XA - 16 * ix) - (XA - XB) * (YA - 16 * iy) := by
  unfold raw_edge; ring

theorem corrected_of_test_zero (XA YA XB YB ix iy : Int) (t : edge_test XA YA XB YB ix iy)
    (hz : raw_edge XA YA XB YB ix iy = 0) : corrected XA YA XB YB := by
  rw [edge_test_iff] at t
  rcases t with h | ⟨-, h⟩
  · omega
  · exact h

/-- Right side of the bounding box: by the fill convention a pixel that passes the tests is
strictly to the left of a rightmost vertex. -/
theorem tests_x_lt (X1 Y1 X2 Y2 X3 Y3 ix iy : Int)
    (t1 : edge_test X1 Y1 X2 Y2 ix iy) (t2 : edge_test X2 Y2 X3 Y3 ix iy)
    (t3 : edge_test X3 Y3 X1 Y1 ix iy) (h2 : X2 ≤ X1) (h3 : X3 ≤ X1) : 16 * ix < X1 := by
  obtain ⟨n1, n2, n3, hS⟩ := raw_nonneg_of_tests X1 Y1 X2 Y2 X3 Y3 ix iy t1 t2 t3
  have hw := raw_edge_weights_x X1 Y1 X2 Y2 X3 Y3 ix iy
  by_contra hc
  have a1 : 0 ≤ (X1 - X3) * raw_edge X1 Y1 X2 Y2 ix iy := mul_nonneg (by omega) n1
  have a2 : 0 ≤ (X1 - X2) * raw_edge X3 Y3 X1 Y1 ix iy := mul_nonneg (by omega) n3
  have a3 : 0 ≤ (16 * ix - X1) * ((X1 - X2) * (Y3 - Y1) - (X3 - X1) * (Y1 - Y2)) :=
    mul_nonneg (by omega) hS.le
  have z1 : (X1 - X3) * raw_edge X1 Y1 X2 Y2 ix iy = 0 := by linarith
  have z3 : (X1 - X2) * raw_edge X3 Y3 X1 Y1 ix iy = 0 := by linarith
  have zt : (16 * ix - X1) * ((X1 - X2) * (Y3 - Y1) - (X3 - X1) * (Y1 - Y2)) = 0 := by linarith
  have ht : 16 * ix - X1 = 0 := by
    rcases mul_eq_zero.mp zt with h | h
    · exact h
    · omega
  have f1 := raw_edge_factored X1 Y1 X2 Y2 ix iy
  have f3 := raw_edge_factored X3 Y3 X1 Y1 ix iy
  by_cases ha : X1 - X2 = 0
  · have r1 : raw_edge X1 Y1 X2 Y2 ix iy = 0 := by
      rw [f1, ha, show X1 - 16 * ix = 0 by omega]; ring
    have c1 := corrected_of_test_zero _ _ _ _ _ _ t1 r1
    unfold corrected at c1
    have hu : Y1 - Y2 < 0 := by omega
    have : 0 ≤ (X3 - X1) * (Y1 - Y2) := mul_nonneg_of_nonpos_of_nonpos (by omega) hu.le
    rw [ha] at hS
    linarith
  · have r3 : raw_edge X3 Y3 X1 Y1 ix iy = 0 := by
      rcases mul_eq_zero.mp z3 with h | h
      · exact absurd h ha
      · exact h
    have c3 := corrected_of_test_zero _ _ _ _ _ _ t3 r3
    unfold corrected at c3
    have hv : Y3 - Y1 < 0 := by omega
    have p1 : (X1 - X2) * (Y3 - Y1) < 0 := mul_neg_of_pos_of_neg (by omega) hv
    by_cases hb : X1 - X3 = 0
    · have : (X3 - X1) * (Y1 - Y2) = 0 := by
        rw [show X3 - X1 = 0 by omega]; ring
      linarith
    · have r1 : raw_edge X1 Y1 X2 Y2 ix iy = 0 := by
        rcases mul_eq_zero.mp z1 with h | h
        · exact absurd h hb
        · exact h
      have c1 := corrected_of_test_zero _ _ _ _ _ _ t1 r1
      unfold corrected at c1
      have hu : Y1 - Y2 ≤ 0 := by omega
      have : 0 ≤ (X3 - X1) * (Y1 - Y2) := mul_nonneg_of_nonpos_of_nonpos (by omega) hu
      linarith

/-- Bottom side of the bounding box: by the fill convention a pixel that passes the tests
is strictly above a bottommost vertex. -/
theorem tests_y_lt (X1 Y1 X2 Y2 X3 Y3 ix iy : Int)
    (t1 : edge_test X1 Y1 X2 Y2 ix iy) (t2 : edge_test X2 Y2 X3 Y3 ix iy)
    (t3 : edge_test X3 Y3 X1 Y1 ix iy) (h2 : Y2 ≤ Y1) (h3 : Y3 ≤ Y1) : 16 * iy < Y1 := by
  obtain ⟨n1, n2, n3, hS⟩ := raw_nonneg_of_tests X1 Y1 X2 Y2 X3 Y3 ix iy t1 t2 t3
  have hw := raw_edge_weights_y X1 Y1 X2 Y2 X3 Y3 ix iy
  by_contra hc
  have a1 : 0 ≤ (Y1 - Y3) * raw_edge X1 Y1 X2 Y2 ix iy := mul_nonneg (by omega) n1
  have a2 : 0 ≤ (Y1 - Y2) * raw_edge X3 Y3 X1 Y1 ix iy := mul_nonneg (by omega) n3
  have a3 : 0 ≤ (16 * iy - Y1) * ((X1 - X2) * (Y3 - Y1) - (X3 - X1) * (Y1 - Y2)) :=
    mul_nonneg (by omega) hS.le
  have z1 : (Y1 - Y3) * raw_edge X1 Y1 X2 Y2 ix iy = 0 := by linarith
  have z3 : (Y1 - Y2) * raw_edge X3 Y3 X1 Y1 ix iy = 0 := by linarith
  have zt : (16 * iy - Y1) * ((X1 - X2) * (Y3 - Y1) - (X3 - X1) * (Y1 - Y2)) = 0 := by linarith
  have ht : 16 * iy - Y1 = 0 := by
    rcases mul_eq_zero.mp zt with h | h
    · exact h
    · omega
  have f1 := raw_edge_factored X1 Y1 X2 Y2 ix iy
  have f3 := raw_edge_factored X3 Y3 X1 Y1 ix iy
  by_cases ha : Y1 - Y2 = 0
  · have r1 : raw_edge X1 Y1 X2 Y2 ix iy = 0 := by
      rw [f1, ha, show Y1 - 16 * iy = 0 by omega]; ring
    have c1 := corrected_of_test_zero _ _ _ _ _ _ t1 r1
    unfold corrected at c1
    have hp : X1 - X2 > 0 := by omega
    have : 0 ≤ (X1 - X2) * (Y1 - Y3) := mul_nonneg hp.le (by omega)
    rw [ha] at hS
    linarith
  · have r3 : raw_edge X3 Y3 X1 Y1 ix iy = 0 := by
      rcases mul_eq_zero.mp z3 with h | h
      · exact absurd h ha
      · exact h
    have c3 := corrected_of_test_zero _ _ _ _ _ _ t3 r3
    unfold corrected at c3
    by_cases hb : Y1 - Y3 = 0
    · have hq : X3 - X1 > 0 := by omega
      have p2 : 0 < (X3 - X1) * (Y1 - Y2) := mul_pos hq (by omega)
      have : (X1 - X2) * (Y3 - Y1) = 0 := by
        rw [show Y3 - Y1 = 0 by omega]; ring
      linarith
    · have r1 : raw_edge X1 Y1 X2 Y2 ix iy = 0 := by
        rcases mul_eq_zero.mp z1 with h | h
        · exact absurd h hb
        · exact h
      have c1 := corrected_of_test_zero _ _ _ _ _ _ t1 r1
      unfold corrected at c1
      omega

theorem inside_bbox (X1 Y1 X2 Y2 X3 Y3 ix iy : Int)
    (h : inside (edge_setup X1 Y1 X2 Y2 X3 Y3) ix iy) :
    (X1 ≤ 16 * ix ∨ X2 ≤ 16 * ix ∨ X3 ≤ 16 * ix) ∧
    (16 * ix < X1 ∨ 16 * ix < X2 ∨ 16 * ix < X3) ∧
    (Y1 ≤ 16 * iy ∨ Y2 ≤ 16 * iy ∨ Y3 ≤ 16 * iy) ∧
    (16 * iy < Y1 ∨ 16 * iy < Y2 ∨ 16 * iy < Y3) := by
  rw [inside_iff_edge_tests] at h
  obtain ⟨t1, t2, t3⟩ := h
  refine ⟨?_, ?_, ?_, ?_⟩
  · have : (X1 ≤ X2 ∧ X1 ≤ X3) ∨ (X2 ≤ X3 ∧ X2 ≤ X1) ∨ (X3 ≤ X1 ∧ X3 ≤ X2) := by omega
    rcases this with ⟨a, b⟩ | ⟨a, b⟩ | ⟨a, b⟩
    · exact Or.inl (tests_x_ge X1 Y1 X2 Y2 X3 Y3 ix iy t1 t2 t3 a b)
    · exact Or.inr (Or.inl (tests_x_ge X2 Y2 X3 Y3 X1 Y1 ix iy t2 t3 t1 a b))
    · exact Or.inr (Or.inr (tests_x_ge X3 Y3 X1 Y1 X2 Y2 ix iy t3 t1 t2 a b))
  · have : (X2 ≤ X1 ∧ X3 ≤ X1) ∨ (X3 ≤ X2 ∧ X1 ≤ X2) ∨ (X1 ≤ X3 ∧ X2 ≤ X3) := by omega
    rcases this with ⟨a, b⟩ | ⟨a, b⟩ | ⟨a, b⟩
    · exact Or.inl (tests_x_lt X1 Y1 X2 Y2 X3 Y3 ix iy t1 t2 t3 a b)
    · exact Or.inr (Or.inl (tests_x_lt X2 Y2 X3 Y3 X1 Y1 ix iy t2 t3 t1 a b))
    · exact Or.inr (Or.inr (tests_x_lt X3 Y3 X1 Y1 X2 Y2 ix iy t3 t1 t2 a b))
  · have : (Y1 ≤ Y2 ∧ Y1 ≤ Y3) ∨ (Y2 ≤ Y3 ∧ Y2 ≤ Y1) ∨ (Y3 ≤ Y1 ∧ Y3 ≤ Y2) := by omega
    rcases this with ⟨a, b⟩ | ⟨a, b⟩ | ⟨a, b⟩
    · exact Or.inl (tests_y_ge X1 Y1 X2 Y2 X3 Y3 ix iy t1 t2 t3 a b)
    · exact Or.inr (Or.inl (tests_y_ge X2 Y2 X3 Y3 X1 Y1 ix iy t2 t3 t1 a b))
    · exact Or.inr (Or.inr (tests_y_ge X3 Y3 X1 Y1 X2 Y2 ix iy t3 t1 t2 a b))
  · have : (Y2 ≤ Y1 ∧ Y3 ≤ Y1) ∨ (Y3 ≤ Y2 ∧ Y1 ≤ Y2) ∨ (Y1 ≤ Y3 ∧ Y2 ≤ Y3) := by omega
    rcases this with ⟨a, b⟩ | ⟨a, b⟩ | ⟨a, b⟩
    · exact Or.inl (tests_y_lt X1 Y1 X2 Y2 X3 Y3 ix iy t1 t2 t3 a b)
    · exact Or.inr (Or.inl (tests_y_lt X2 Y2 X3 Y3 X1 Y1 ix iy t2 t3 t1 a b))
    · exact Or.inr (Or.inr (tests_y_lt X3 Y3 X1 Y1 X2 Y2 ix iy t3 t1 t2 a b))

/-- The clipped, block-snapped range of one axis covers every canvas coordinate that lies
in the bounding interval of the triangle. -/
theorem covered_of_bbox (A1 A2 A3 size v : Int) (h0 : 0 ≤ v) (hs : v < size)
    (hlo : A1 ≤ 16 * v ∨ A2 ≤ 16 * v ∨ A3 ≤ 16 * v)
    (hhi : 16 * v < A1 ∨ 16 * v < A2 ∨ 16 * v < A3) :
    covered (lower_bound A1 A2 A3) (upper_bound A1 A2 A3 size) v := by
  have hmin : stamp_min A1 A2 A3 ≤ 16 * v := by
    unfold stamp_min; simp only []; split_ifs <;> omega
  have hmin0 := stamp_min_nonneg A1 A2 A3
  have hmax : 16 * v < stamp_max A1 A2 A3 (16 * size) := by
    unfold stamp_max; simp only []; split_ifs <;> omega
  rw [lower_bound_eq]
  unfold covered upper_bound
  rw [shr_four, to_fixed_intCast]
  generalize stamp_min A1 A2 A3 = lo at hmin hmin0 ⊢
  generalize stamp_max A1 A2 A3 (16 * size) = hi at hmax ⊢
  omega

/-- On the canvas, `fill_triangle` writes a pixel exactly when the pixel passes the
per-pixel test. -/
theorem mem_tri_pixels_in_canvas (width height X1 Y1 X2 Y2 X3 Y3 ix iy : Int)
    (hx0 : 0 ≤ ix) (hx : ix < width) (hy0 : 0 ≤ iy) (hy : iy < height) :
    (ix, iy) ∈ tri_pixels width height X1 Y1 X2 Y2 X3 Y3 ↔
      inside (edge_setup X1 Y1 X2 Y2 X3 Y3) ix iy := by
  rw [mem_tri_pixels]
  constructor
  · exact fun h => h.2.2
  · intro h
    obtain ⟨b1, b2, b3, b4⟩ := inside_bbox X1 Y1 X2 Y2 X3 Y3 ix iy h
    exact ⟨covered_of_bbox X1 X2 X3 width ix hx0 hx b1 b2,
      covered_of_bbox Y1 Y2 Y3 height iy hy0 hy b3 b4, h⟩

/-! ## The fan of a polygon -/

theorem raw_edge_antisymm (XA YA XB YB ix iy : Int) :
    raw_edge XB YB XA YA ix iy = -raw_edge XA YA XB YB ix iy := by
  unfold raw_edge; ring

theorem edge_test_of_raw_pos (XA YA XB YB ix iy : Int) (h : 0 < raw_edge XA YA XB YB ix iy) :
    edge_test XA YA XB YB ix iy :=
  (edge_test_iff XA YA XB YB ix iy).mpr (Or.inl h)

theorem not_edge_test_of_raw_neg (XA YA XB YB ix iy : Int)
    (h : raw_edge XA YA XB YB ix iy < 0) : ¬ edge_test XA YA XB YB ix iy := by
  rw [edge_test_iff]
  rintro (h1 | ⟨h1, -⟩) <;> omega

/-- A pixel strictly on the inner side of every edge of a polygon passes the three edge
tests of one triangle of the fan `(V k, V (k-1), V 0)`, `2 ≤ k < N`. -/
theorem fan_covers (V : Nat → Int × Int) (N : Nat) (hN : 3 ≤ N) (ix iy : Int)
    (hedge : ∀ i, 1 ≤ i → i < N →
      0 < raw_edge (V i).1 (V i).2 (V (i - 1)).1 (V (i - 1)).2 ix iy)
    (hclose : 0 < raw_edge (V 0).1 (V 0).2 (V (N - 1)).1 (V (N - 1)).2 ix iy) :
    ∃ k, 2 ≤ k ∧ k < N ∧
      inside (edge_setup (V k).1 (V k).2 (V (k - 1)).1 (V (k - 1)).2 (V 0).1 (V 0).2) ix iy := by
  have hex : ∃ k, 2 ≤ k ∧ edge_test (V 0).1 (V 0).2 (V k).1 (V k).2 ix iy :=
    ⟨N - 1, by omega, edge_test_of_raw_pos _ _ _ _ _ _ hclose⟩
  classical
  let k := Nat.find hex
  have hk : 2 ≤ k ∧ edge_test (V 0).1 (V 0).2 (V k).1 (V k).2 ix iy := Nat.find_spec hex
  have hkN : k < N := by
    have : k ≤ N - 1 := Nat.find_min' hex ⟨by omega, edge_test_of_raw_pos _ _ _ _ _ _ hclose⟩
    omega
  refine ⟨k, hk.1, hkN, ?_⟩
  rw [inside_iff_edge_tests]
  refine ⟨edge_test_of_raw_pos _ _ _ _ _ _ (hedge k (by omega) hkN), ?_, hk.2⟩
  by_cases h2 : k = 2
  · have := hedge 1 (le_refl 1) (by omega)
    rw [h2]
    exact edge_test_of_raw_pos _ _ _ _ _ _ this
  · have hmin : ¬ (2 ≤ k - 1 ∧ edge_test (V 0).1 (V 0).2 (V (k - 1)).1 (V (k - 1)).2 ix iy) :=
      Nat.find_min hex (by omega : k - 1 < k)
    have hnot : ¬ edge_test (V 0).1 (V 0).2 (V (k - 1)).1 (V (k - 1)).2 ix iy := by
      intro h; exact hmin ⟨by omega, h⟩
    have hne : ((V (k - 1)).1, (V (k - 1)).2) ≠ ((V 0).1, (V 0).2) := by
      intro heq
      have e1 : (V (k - 1)).1 = (V 0).1 := congrArg Prod.fst heq
      have e2 : (V (k - 1)).2 = (V 0).2 := congrArg Prod.snd heq
      have hpos := hedge k (by omega) hkN
      rw [e1, e2] at hpos
      have hneg : raw_edge (V 0).1 (V 0).2 (V k).1 (V k).2 ix iy < 0 := by
        rw [raw_edge_antisymm]; omega
      exact not_edge_test_of_raw_neg _ _ _ _ _ _ hneg hk.2
    by_contra hc
    exact hnot ((edge_test_opposite _ _ _ _ hne.symm ix iy).mpr hc)

/-- Filling a list of triangles with one colour: the size of the canvas is kept, every
pixel ends with the colour or as it was, and the pixels written by a triangle end with
the colour. -/
theorem fill_triangles_store (color : Color) (f : Nat → Point × Point × Point) (ks : List Nat)
    (c : Canvas (Int → Int → Color)) :
    (ks.foldl (fun c k => fill_triangle c (f k).1 (f k).2.1 (f k).2.2
        (set_pixel_unchecked color)) c).width = c.width ∧
    (ks.foldl (fun c k => fill_triangle c (f k).1 (f k).2.1 (f k).2.2
        (set_pixel_unchecked color)) c).height = c.height ∧
    ∀ i j : Int,
      (ks.foldl (fun c k => fill_triangle c (f k).1 (f k).2.1 (f k).2.2
        (set_pixel_unchecked color)) c).store i j
      = if ∃ k ∈ ks, (i, j) ∈ tri_pixels c.width c.height
            (to_fixed (f k).1.x) (to_fixed (f k).1.y) (to_fixed (f k).2.1.x)
            (to_fixed (f k).2.1.y) (to_fixed (f k).2.2.x) (to_fixed (f k).2.2.y)
        then color else c.store i j := by
  induction ks generalizing c with
  | nil => simp
  | cons k ks ih =>
    obtain ⟨hw, hh, hs⟩ := ih (fill_triangle c (f k).1 (f k).2.1 (f k).2.2
      (set_pixel_unchecked color))
    obtain ⟨w1, h1⟩ := fill_triangle_width color c (f k).1 (f k).2.1 (f k).2.2
    simp only [List.foldl_cons]
    refine ⟨by rw [hw, w1], by rw [hh, h1], ?_⟩
    intro i j
    rw [hs, w1, h1, fill_triangle_store]
    by_cases hk : (i, j) ∈ tri_pixels c.width c.height
        (to_fixed (f k).1.x) (to_fixed (f k).1.y) (to_fixed (f k).2.1.x)
        (to_fixed (f k).2.1.y) (to_fixed (f k).2.2.x) (to_fixed (f k).2.2.y)
    · have : ∃ k' ∈ k :: ks, (i, j) ∈ tri_pixels c.width c.height
          (to_fixed (f k').1.x) (to_fixed (f k').1.y) (to_fixed (f k').2.1.x)
          (to_fixed (f k').2.1.y) (to_fixed (f k').2.2.x) (to_fixed (f k').2.2.y) :=
        ⟨k, List.mem_cons_self _ _, hk⟩
      rw [if_pos this, if_pos hk]
      simp
    · rw [if_neg hk]
      by_cases hr : ∃ k' ∈ ks, (i, j) ∈ tri_pixels c.width c.height
          (to_fixed (f k').1.x) (to_fixed (f k').1.y) (to_fixed (f k').2.1.x)
          (to_fixed (f k').2.1.y) (to_fixed (f k').2.2.x) (to_fixed (f k').2.2.y)
      · obtain ⟨k', hk', hm⟩ := hr
        rw [if_pos ⟨k', hk', hm⟩, if_pos ⟨k', List.mem_cons_of_mem _ hk', hm⟩]
      · rw [if_neg hr, if_neg]
        rintro ⟨k', hk', hm⟩
        rcases List.mem_cons.mp hk' with rfl | h
        · exact hk hm
        · exact hr ⟨k', h, hm⟩

/-- The canvas after `fill_shape` on a polygon-backed stamp with the identity matrix: a
pixel has the fill colour if one of the triangles `(v k, v (k-1), v 0)`, `2 ≤ k ≤ next`,
writes it, and is as before otherwise. -/
theorem fill_shape_store (c : Canvas (Int → Int → Color)) (color : Color) (s : Stamp)
    (p : Polygon) (hp : s.polygon = some p) (hm : s.tr_matrix = mat3.identity) :
    ∃ c', fill_shape pixel_api c color s = some (1, c', s) ∧
      ∀ i j : Int, c'.store i j
        = if ∃ k ∈ List.range' 2 (p.next + 1 - 2), (i, j) ∈ tri_pixels c.width c.height
              (fixed_vertex p k).1 (fixed_vertex p k).2 (fixed_vertex p (k - 1)).1
              (fixed_vertex p (k - 1)).2 (fixed_vertex p 0).1 (fixed_vertex p 0).2
          then color else c.store i j := by
  have htri : (fun (c : Canvas (Int → Int → Color)) (p3 p2 p1 : Point) =>
      if color = Color.WHITE then fill_triangle c p3 p2 p1 pixel_api.set_white_pixel_unsafe
      else fill_triangle c p3 p2 p1 pixel_api.set_black_pixel_unsafe)
      = fun c p3 p2 p1 => fill_triangle c p3 p2 p1 (set_pixel_unchecked color) := by
    funext c p3 p2 p1
    cases color <;> simp [pixel_api]
  unfold fill_shape fill_shape_with
  rw [hp]
  simp only [htri, hm]
  have hfan := fan_loop_eq (fun c p3 p2 p1 => fill_triangle c p3 p2 p1
    (set_pixel_unchecked color)) p mat3.identity (p.next + 1 - 2) 2 c
  simp only [Nat.add_one_sub_one] at hfan
  refine ⟨_, rfl, ?_⟩
  intro i j
  rw [hfan]
  have := (fill_triangles_store color (fun k => (transform_point (p.vertices k) mat3.identity,
    transform_point (p.vertices (k - 1)) mat3.identity,
    transform_point (p.vertices 0) mat3.identity)) (List.range' 2 (p.next + 1 - 2)) c).2.2 i j
  simp only [transform_point_identity] at this ⊢
  rw [this]
  rfl

theorem rectangle_fixed_vertices (buf : Nat → Point) (w h : Nat) :
    fixed_vertex (rectangle_polygon buf w h) 0 = (0, 0) ∧
    fixed_vertex (rectangle_polygon buf w h) 1 = (16 * (w : Int), 0) ∧
    fixed_vertex (rectangle_polygon buf w h) 2 = (16 * (w : Int), 16 * (h : Int)) ∧
    fixed_vertex (rectangle_polygon buf w h) 3 = (0, 16 * (h : Int)) := by
  obtain ⟨-, -, v0, v1, v2, v3, -⟩ := rectangle_polygon_facts buf w h
  simp [fixed_vertex, v0, v1, v2, v3, to_fixed_natCast, to_fixed_zero]

theorem sample_inside : inside_polygon (rectangle_polygon sample_storage 10 6) 5 3 := by
  obtain ⟨f0, f1, f2, f3⟩ := rectangle_fixed_vertices sample_storage 10 6
  constructor
  · intro i h1 h2
    have hn : (rectangle_polygon sample_storage 10 6).next = 4 := rfl
    rw [hn] at h2
    interval_cases i
    · simp only [f0, f1]; decide
    · simp only [f1, f2, Nat.add_one_sub_one]; decide
    · simp only [f2, f3, Nat.add_one_sub_one]; decide
  · have hn : (rectangle_polygon sample_storage 10 6).next - 1 = 3 := rfl
    rw [hn, f0, f3]; decide

theorem fixed_vertex_natCast (p : Polygon) (i a b : Nat)
    (h : p.vertices i = ⟨(a : ℚ), (b : ℚ)⟩) :
    fixed_vertex p i = (16 * (a : Int), 16 * (b : Int)) := by
  simp only [fixed_vertex, h, to_fixed_natCast]

theorem reversed_fixed_vertices :
    reversed_polygon.next = 4 ∧
    fixed_vertex reversed_polygon 0 = (0, 0) ∧ fixed_vertex reversed_polygon 1 = (0, 96) ∧
    fixed_vertex reversed_polygon 2 = (160, 96) ∧ fixed_vertex reversed_polygon 3 = (160, 0) ∧
    fixed_vertex reversed_polygon 4 = (0, 0) :=
  ⟨rfl, fixed_vertex_natCast reversed_polygon 0 0 0 rfl,
    fixed_vertex_natCast reversed_polygon 1 0 6 rfl,
    fixed_vertex_natCast reversed_polygon 2 10 6 rfl,
    fixed_vertex_natCast reversed_polygon 3 10 0 rfl,
    fixed_vertex_natCast reversed_polygon 4 0 0 rfl⟩

theorem shifted_fixed_vertices :
    shifted_polygon.next = 4 ∧
    fixed_vertex shifted_polygon 0 = (80, 80) ∧ fixed_vertex shifted_polygon 1 = (240, 80) ∧
    fixed_vertex shifted_polygon 2 = (240, 176) ∧ fixed_vertex shifted_polygon 3 = (80, 176) ∧
    fixed_vertex shifted_polygon 4 = (0, 128) :=
  ⟨rfl, fixed_vertex_natCast shifted_polygon 0 5 5 rfl,
    fixed_vertex_natCast shifted_polygon 1 15 5 rfl,
    fixed_vertex_natCast shifted_polygon 2 15 11 rfl,
    fixed_vertex_natCast shifted_polygon 3 5 11 rfl,
    fixed_vertex_natCast shifted_polygon 4 0 8 rfl⟩

/-! ## C1: filling a rectangle stamp -/

/-- C1. For a stamp built by `new_rectangle_stamp(w, h)` (identity matrix) and a blank
canvas of width `W ≥ w` and height `H ≥ h`, `fill_shape` with `WHITE` returns 1 and leaves
white exactly the pixels `(x, y)` with `0 ≤ x < w` and `0 ≤ y < h`, `w * h` pixels in all.
This holds whatever the storage slot after the fourth vertex holds. -/
theorem fill_rectangle_exact (storage : Option (Nat → Point)) (raw : Option Stamp)
    (mat_ok : Bool) (w h : Nat) (W H : Int) (s : Stamp)
    (hs : new_rectangle_stamp storage raw mat_ok w h = some s)
    (hW : (w : Int) ≤ W) (hH : (h : Int) ≤ H) :
    ∃ c', fill_shape pixel_api (blank_canvas W H) Color.WHITE s = some (1, c', s) ∧
      (∀ x y : Int, c'.store x y = Color.WHITE ↔ (0 ≤ x ∧ x < w ∧ 0 ≤ y ∧ y < h)) ∧
      Set.ncard {p : Int × Int | c'.store p.1 p.2 = Color.WHITE} = w * h := by
  obtain ⟨buf, r, -, -, -, rfl⟩ := new_rectangle_stamp_eq storage raw mat_ok w h s hs
  obtain ⟨c', hc, hst⟩ := fill_rectangle_store buf r w h W H hW hH
  exact ⟨c', hc, hst, rectangle_card c'.store w h hst⟩

/-- Witness of C1: the 10×6 rectangle stamp on a blank 20×20 canvas gives exactly 60 white
pixels, the solid block with top-left corner `(0, 0)`. -/
theorem fill_rectangle_exact_witness :
    ∃ c', fill_shape pixel_api (blank_canvas 20 20) Color.WHITE sample_rectangle
        = some (1, c', sample_rectangle) ∧
      (∀ x y : Int, c'.store x y = Color.WHITE ↔ (0 ≤ x ∧ x < 10 ∧ 0 ≤ y ∧ y < 6)) ∧
      Set.ncard {p : Int × Int | c'.store p.1 p.2 = Color.WHITE} = 60 := by
  have h := fill_rectangle_exact (some sample_storage) (some sample_raw) true 10 6 20 20
    sample_rectangle rfl (by decide) (by decide)
  simpa using h

/-! ## C2: the block paths against the per-pixel path -/

/-- C2. For every triangle (any fixed-point vertices), every canvas size and every pixel
writer, `fill_triangle` with its trivial-reject and trivial-accept block paths ends in the
same state as the variant that tests every pixel of every iterated block: the two perform
the same pixel writes (take the recording writer for the sequence of writes). Integers are
unbounded, so this is the statement in the absence of overflow. -/
theorem fill_triangle_eq_per_pixel {κ : Type} (set_pixel : κ → Int → Int → κ)
    (width height X1 Y1 X2 Y2 X3 Y3 : Int) (canvas : κ) :
    fill_triangle_fixed set_pixel width height X1 Y1 X2 Y2 X3 Y3 canvas
      = fill_triangle_per_pixel set_pixel width height X1 Y1 X2 Y2 X3 Y3 canvas := by
  rw [fill_triangle_fixed_eq]
  unfold fill_triangle_per_pixel tri_pixels
  simp only [per_pixel_block_eq]
  simp only [for_lt_eq_foldl, foldl_write_all]

/-! ## C3: a shared edge -/

/-- C3. Let two triangles passed to `fill_triangle` share an edge traversed in opposite
directions: one has the edge `A → B`, the other `B → A`, with `A ≠ B` in fixed point.
Then at every pixel exactly one of the two corrected edge tests of the shared edge is
strictly positive; hence no pixel is written by both fills, and no pixel (on the shared
edge or elsewhere) is rejected by both tests of the shared edge. -/
theorem shared_edge_exactly_one (XA YA XB YB : Int) (hAB : (XA, YA) ≠ (XB, YB)) :
    (∀ ix iy : Int,
      (edge_test XA YA XB YB ix iy ∧ ¬ edge_test XB YB XA YA ix iy) ∨
      (¬ edge_test XA YA XB YB ix iy ∧ edge_test XB YB XA YA ix iy)) ∧
    (∀ W H X1 Y1 X2 Y2 X3 Y3 W' H' X1' Y1' X2' Y2' X3' Y3' : Int,
      has_edge X1 Y1 X2 Y2 X3 Y3 XA YA XB YB →
      has_edge X1' Y1' X2' Y2' X3' Y3' XB YB XA YA →
      ∀ p : Int × Int, ¬ (p ∈ triangle_writes W H X1 Y1 X2 Y2 X3 Y3 ∧
        p ∈ triangle_writes W' H' X1' Y1' X2' Y2' X3' Y3')) := by
  constructor
  · intro ix iy
    have h := edge_test_opposite XA YA XB YB hAB ix iy
    by_cases ht : edge_test XA YA XB YB ix iy
    · exact Or.inl ⟨ht, h.mp ht⟩
    · right
      refine ⟨ht, ?_⟩
      by_contra hb
      exact ht (h.mpr hb)
  · intro W H X1 Y1 X2 Y2 X3 Y3 W' H' X1' Y1' X2' Y2' X3' Y3' he he' p
    rintro ⟨h1, h2⟩
    obtain ⟨ix, iy⟩ := p
    rw [triangle_writes_eq, mem_tri_pixels] at h1 h2
    have t1 := edge_test_of_has_edge _ _ _ _ _ _ _ _ _ _ ix iy he h1.2.2
    have t2 := edge_test_of_has_edge _ _ _ _ _ _ _ _ _ _ ix iy he' h2.2.2
    exact (edge_test_opposite XA YA XB YB hAB ix iy).mp t1 t2

/-- Witness of C3: the two triangles of the 10×6 rectangle share the diagonal, from
`(0,0)` to `(160,96)` in the first and back in the second. -/
theorem shared_edge_exactly_one_witness :
    (0, 0) ≠ ((160 : Int), (96 : Int)) ∧
    has_edge 160 96 160 0 0 0 0 0 160 96 ∧ has_edge 0 96 160 96 0 0 160 96 0 0 ∧
    (∀ ix iy : Int,
      (edge_test 0 0 160 96 ix iy ∧ ¬ edge_test 160 96 0 0 ix iy) ∨
      (¬ edge_test 0 0 160 96 ix iy ∧ edge_test 160 96 0 0 ix iy)) ∧
    ∀ p : Int × Int, ¬ (p ∈ triangle_writes 20 20 160 96 160 0 0 0 ∧
      p ∈ triangle_writes 20 20 0 96 160 96 0 0) :=
  ⟨by decide, by decide, by decide,
    (shared_edge_exactly_one 0 0 160 96 (by decide)).1,
    (shared_edge_exactly_one 0 0 160 96 (by decide)).2 20 20 160 96 160 0 0 0
      20 20 0 96 160 96 0 0 (by decide) (by decide)⟩

/-! ## C4: the endpoints of a line -/

/-- C4. For all integer endpoints, `bresenham` returns as soon as the fuel exceeds the
longer of the two extents; the first pixel it sets is `(x1, y1)` and the last one is
`(x2, y2)`. The pixels set on any canvas are the recorded ones, in the same order. -/
theorem bresenham_endpoints (x1 y1 x2 y2 : Int) (fuel : Nat)
    (hf : max |x2 - x1| |y2 - y1| < fuel) :
    ∃ pts, bresenham_with record fuel [] x1 y1 x2 y2 = some pts ∧
      pts.head? = some (x1, y1) ∧ pts.getLast? = some (x2, y2) ∧
      ∀ (σ : Type) (api : CanvasApi σ) (c : Canvas σ) (color : Color),
        bresenham api fuel c color x1 y1 x2 y2
          = some (write_all (fun c x y => api.set_pixel c color x y) c pts) := by
  obtain ⟨pts, hp, -, hlast⟩ := bresenham_with_record x1 y1 x2 y2 fuel hf
  refine ⟨(x1, y1) :: pts, hp, rfl, hlast, ?_⟩
  intro σ api c color
  unfold bresenham
  rw [bresenham_with_eq_record, hp]
  rfl

/-- Witness of C4: the line from `(3, 3)` to `(-1, 10)` with fuel 8. -/
theorem bresenham_endpoints_witness :
    ∃ pts, bresenham_with record 8 [] 3 3 (-1) 10 = some pts ∧
      pts.head? = some (3, 3) ∧ pts.getLast? = some (-1, 10) ∧
      ∀ (σ : Type) (api : CanvasApi σ) (c : Canvas σ) (color : Color),
        bresenham api 8 c color 3 3 (-1) 10
          = some (write_all (fun c x y => api.set_pixel c color x y) c pts) :=
  bresenham_endpoints 3 3 (-1) 10 8 (by decide)

/-! ## C5: the matrix after a draw -/

/-- C5, counterexample. The sample rectangle stamp with a scaling by 2 in its matrix: after
`fill_shape` and after `draw_stamp_outline` (which both return 1) its matrix is still the
scaling, not the identity. -/
theorem draw_resets_matrix_counterexample :
    (∃ c', fill_shape pixel_api (blank_canvas 20 20) Color.WHITE sample_scaled
        = some (1, c', sample_scaled)) ∧
    (∃ c', draw_stamp_outline pixel_api (outline_fuel (rectangle_polygon sample_storage 10 6)
        sample_scaled.tr_matrix) (blank_canvas 20 20) Color.WHITE sample_scaled
        = some (1, c', sample_scaled)) ∧
    sample_scaled.tr_matrix ≠ mat3.identity :=
  ⟨⟨_, rfl⟩,
    draw_stamp_outline_returns pixel_api _ _ sample_scaled _ rfl rfl _ (le_refl _),
    by decide⟩

/-- C5, as amended. For every stamp with any accumulated matrix, whenever
`draw_stamp_outline` or `fill_shape` returns, the stamp is as it was before the call; in
particular its matrix is unchanged, so it is the identity after the draw exactly when it
was before it. The matrix is reset by `apply_matrix`. -/
theorem draw_keeps_matrix {σ : Type} (api : CanvasApi σ) (fuel : Nat) (c : Canvas σ)
    (color : Color) (s : Stamp) :
    (∀ r c' s', draw_stamp_outline api fuel c color s = some (r, c', s') →
      s' = s ∧ (s'.tr_matrix = mat3.identity ↔ s.tr_matrix = mat3.identity)) ∧
    (∀ r c' s', fill_shape api c color s = some (r, c', s') →
      s' = s ∧ (s'.tr_matrix = mat3.identity ↔ s.tr_matrix = mat3.identity)) ∧
    (apply_matrix s).tr_matrix = mat3.identity := by
  refine ⟨?_, ?_, rfl⟩
  · intro r c' s' h
    unfold draw_stamp_outline draw_stamp_outline_with at h
    split at h
    · simp only [Option.some.injEq, Prod.mk.injEq] at h
      obtain ⟨-, -, rfl⟩ := h
      exact ⟨rfl, Iff.rfl⟩
    · split at h
      · exact absurd h (by simp)
      · split at h
        · exact absurd h (by simp)
        · simp only [Option.some.injEq, Prod.mk.injEq] at h
          obtain ⟨-, -, rfl⟩ := h
          exact ⟨rfl, Iff.rfl⟩
  · intro r c' s' h
    unfold fill_shape fill_shape_with at h
    split at h
    · exact absurd h (by simp)
    · simp only [Option.some.injEq, Prod.mk.injEq] at h
      obtain ⟨-, -, rfl⟩ := h
      exact ⟨rfl, Iff.rfl⟩

/-- Witness of C5 as amended: the scaled sample stamp after `fill_shape`. -/
theorem draw_keeps_matrix_witness :
    fill_shape pixel_api (blank_canvas 20 20) Color.WHITE sample_scaled
      = some (1, (fan_loop (fun c p3 p2 p1 => if Color.WHITE = Color.WHITE
            then fill_triangle c p3 p2 p1 pixel_api.set_white_pixel_unsafe
            else fill_triangle c p3 p2 p1 pixel_api.set_black_pixel_unsafe)
          (rectangle_polygon sample_storage 10 6) sample_scaled.tr_matrix
          (transform_point ((rectangle_polygon sample_storage 10 6).vertices 0)
            sample_scaled.tr_matrix) 2 3
          (transform_point ((rectangle_polygon sample_storage 10 6).vertices 1)
            sample_scaled.tr_matrix) (blank_canvas 20 20)), sample_scaled) ∧
    (sample_scaled = sample_scaled ∧
      (sample_scaled.tr_matrix = mat3.identity ↔ sample_scaled.tr_matrix = mat3.identity)) :=
  ⟨rfl, (draw_keeps_matrix pixel_api 0 (blank_canvas 20 20) Color.WHITE sample_scaled).2.1
    1 _ sample_scaled rfl⟩

/-! ## C6: the segments of an outline -/

/-- C6, the code at the failing input. For the stamp built by `new_rectangle_stamp(w, h)`,
`draw_stamp_outline` returns 1 after drawing three segments: `(0,0)-(w,0)`, `(w,0)-(w,h)`
and `(w,h)-(0,h)`. The closing edge from `(0,h)` back to `(0,0)` is not drawn. In general a
polygon with `next` valid vertices gets the `next - 1` segments between consecutive
vertices. -/
theorem outline_rectangle_segments (buf : Nat → Point) (r : Stamp) (w h : Nat)
    (ht : r.type = StampType.POLYGON) :
    draw_stamp_outline_with record_line []
        { r with polygon := some (rectangle_polygon buf w h), tr_matrix := mat3.identity }
      = some (1, [(0, 0, (w : Int), 0), ((w : Int), 0, (w : Int), (h : Int)),
          ((w : Int), (h : Int), 0, (h : Int))],
          { r with polygon := some (rectangle_polygon buf w h), tr_matrix := mat3.identity }) ∧
    ∀ (s : Stamp) (p : Polygon), s.type = StampType.POLYGON → s.polygon = some p →
      draw_stamp_outline_with record_line [] s
        = some (1, (List.range' 1 (p.next - 1)).map (outline_edge p s.tr_matrix), s) := by
  have gen : ∀ (s : Stamp) (p : Polygon), s.type = StampType.POLYGON → s.polygon = some p →
      draw_stamp_outline_with record_line [] s
        = some (1, (List.range' 1 (p.next - 1)).map (outline_edge p s.tr_matrix), s) := by
    intro s p hs hp
    unfold draw_stamp_outline_with
    rw [if_neg (by rw [hs]; decide), hp]
    simp only [outline_loop_eq, foldlM_record_line, List.nil_append]
  refine ⟨?_, gen⟩
  rw [gen { r with polygon := some (rectangle_polygon buf w h), tr_matrix := mat3.identity }
    (rectangle_polygon buf w h) ht rfl]
  obtain ⟨hn, -, v0, v1, v2, v3, -⟩ := rectangle_polygon_facts buf w h
  have z : float_to_int 0 = 0 := by simpa using float_to_int_intCast 0
  have fw : float_to_int (w : ℚ) = (w : Int) := by simpa using float_to_int_intCast (w : Int)
  have fh : float_to_int (h : ℚ) = (h : Int) := by simpa using float_to_int_intCast (h : Int)
  simp [hn, List.range', outline_edge, transform_point_identity, v0, v1, v2, v3, z, fw, fh]

/-- Witness for C6: the outline of the 10×6 sample rectangle. -/
theorem outline_rectangle_segments_witness :
    draw_stamp_outline_with record_line [] sample_rectangle
      = some (1, [(0, 0, ((10 : Nat) : Int), 0), (((10 : Nat) : Int), 0, ((10 : Nat) : Int),
          ((6 : Nat) : Int)), (((10 : Nat) : Int), ((6 : Nat) : Int), 0, ((6 : Nat) : Int))],
          sample_rectangle) :=
  (outline_rectangle_segments sample_storage sample_raw 10 6 rfl).1

/-! ## C7: the status of the outline call -/

/-- C7. `draw_stamp_outline` on a bitmap-backed stamp returns -1 and leaves the canvas as it
was; whenever it returns, the status is -1 if and only if the stamp is bitmap-backed; and
for every polygon-backed stamp it returns 1 (as soon as the fuel reaches `outline_fuel`). -/
theorem draw_stamp_outline_status {σ : Type} (api : CanvasApi σ) (c : Canvas σ)
    (color : Color) (s : Stamp) :
    (s.type = StampType.BITMAP →
      ∀ fuel, draw_stamp_outline api fuel c color s = some (-1, c, s)) ∧
    (∀ fuel r c' s', draw_stamp_outline api fuel c color s = some (r, c', s') →
      (r = -1 ↔ s.type = StampType.BITMAP)) ∧
    (∀ p, s.type = StampType.POLYGON → s.polygon = some p →
      ∀ fuel, outline_fuel p s.tr_matrix ≤ fuel →
        ∃ c', draw_stamp_outline api fuel c color s = some (1, c', s)) := by
  refine ⟨?_, ?_, ?_⟩
  · intro hb fuel
    simp [draw_stamp_outline, draw_stamp_outline_with, hb]
  · intro fuel r c' s' h
    unfold draw_stamp_outline draw_stamp_outline_with at h
    split at h
    · rename_i hb
      simp only [Option.some.injEq, Prod.mk.injEq] at h
      obtain ⟨rfl, -, -⟩ := h
      simp [hb]
    · rename_i hb
      split at h
      · exact absurd h (by simp)
      · split at h
        · exact absurd h (by simp)
        · simp only [Option.some.injEq, Prod.mk.injEq] at h
          obtain ⟨rfl, -, -⟩ := h
          simp [hb]
  · intro p ht hp fuel hf
    exact draw_stamp_outline_returns api c color s p ht hp fuel hf

/-- Witness of C7: a bitmap stamp gives -1 and an untouched canvas, the sample rectangle
gives 1. -/
theorem draw_stamp_outline_status_witness :
    draw_stamp_outline pixel_api 0 (blank_canvas 20 20) Color.WHITE sample_bitmap
      = some (-1, blank_canvas 20 20, sample_bitmap) ∧
    ∃ c', draw_stamp_outline pixel_api
        (outline_fuel (rectangle_polygon sample_storage 10 6) sample_rectangle.tr_matrix)
        (blank_canvas 20 20) Color.WHITE sample_rectangle = some (1, c', sample_rectangle) :=
  ⟨(draw_stamp_outline_status pixel_api (blank_canvas 20 20) Color.WHITE sample_bitmap).1
      rfl 0,
    (draw_stamp_outline_status pixel_api (blank_canvas 20 20) Color.WHITE sample_rectangle).2.2
      (rectangle_polygon sample_storage 10 6) rfl rfl _ (le_refl _)⟩

/-! ## C8: filling a polygon -/

/-- C8, counterexample. (a) The 10×6 rectangle with its corners appended in the opposite
order is convex and lies on the 20×20 canvas, the pixel `(5, 3)` is strictly inside it,
and `fill_shape` leaves that pixel unset. (b) For the rectangle `(5,5)-(15,11)` in the
winding of `new_rectangle_stamp`, the pixel `(3, 8)` is strictly outside (on the outer side
of the closing edge), and `fill_shape` sets it when the storage slot after the last vertex
holds `(0, 8)`. -/
theorem fill_convex_counterexample :
    (inside_polygon_rev reversed_polygon 5 3 ∧
      ∃ c', fill_shape pixel_api (blank_canvas 20 20) Color.WHITE reversed_rectangle
          = some (1, c', reversed_rectangle) ∧ c'.store 5 3 = Color.BLACK) ∧
    (raw_edge (fixed_vertex shifted_polygon 0).1 (fixed_vertex shifted_polygon 0).2
        (fixed_vertex shifted_polygon 3).1 (fixed_vertex shifted_polygon 3).2 3 8 < 0 ∧
      ∃ c', fill_shape pixel_api (blank_canvas 20 20) Color.WHITE shifted_rectangle
          = some (1, c', shifted_rectangle) ∧ c'.store 3 8 = Color.WHITE) := by
  obtain ⟨rn, r0, r1, r2, r3, r4⟩ := reversed_fixed_vertices
  obtain ⟨sn, s0, s1, s2, s3, s4⟩ := shifted_fixed_vertices
  refine ⟨⟨⟨?_, ?_⟩, ?_⟩, ?_, ?_⟩
  · intro i h1 h2
    rw [rn] at h2
    interval_cases i
    · simp only [r0, r1]; decide
    · simp only [r1, r2, Nat.add_one_sub_one]; decide
    · simp only [r2, r3, Nat.add_one_sub_one]; decide
  · rw [rn, r0, show 4 - 1 = 3 from rfl, r3]; decide
  · obtain ⟨c', hc, hst⟩ := fill_shape_store (blank_canvas 20 20) Color.WHITE
      reversed_rectangle reversed_polygon rfl rfl
    refine ⟨c', hc, ?_⟩
    rw [hst, if_neg]
    · rfl
    · rintro ⟨k, hk, hm⟩
      rw [rn, List.mem_range'_1] at hk
      rw [mem_tri_pixels_in_canvas _ _ _ _ _ _ _ _ _ _ (by decide) (by decide) (by decide)
        (by decide)] at hm
      have hk' : k = 2 ∨ k = 3 ∨ k = 4 := by omega
      rcases hk' with rfl | rfl | rfl
      · simp only [r0, r1, r2, Nat.add_one_sub_one] at hm; revert hm; decide
      · simp only [r0, r2, r3, Nat.add_one_sub_one] at hm; revert hm; decide
      · simp only [r0, r3, r4, Nat.add_one_sub_one] at hm; revert hm; decide
  · rw [s0, s3]; decide
  · obtain ⟨c', hc, hst⟩ := fill_shape_store (blank_canvas 20 20) Color.WHITE
      shifted_rectangle shifted_polygon rfl rfl
    refine ⟨c', hc, ?_⟩
    rw [hst, if_pos]
    refine ⟨4, ?_, ?_⟩
    · rw [sn]; decide
    · rw [mem_tri_pixels_in_canvas _ _ _ _ _ _ _ _ _ _ (by decide) (by decide) (by decide)
        (by decide)]
      simp only [s0, s3, s4, Nat.add_one_sub_one]
      decide

/-- C8, as amended. For every polygon-backed stamp with the identity matrix and `N ≥ 3`
vertices given in the winding of `new_rectangle_stamp`, `fill_shape` returns 1 and sets
(to the fill colour) every pixel of the canvas that lies strictly inside the polygon, that
is strictly on the inner side of each of its `N` fixed-point edges, the closing edge
included. -/
theorem fill_polygon_inside (c : Canvas (Int → Int → Color)) (color : Color) (s : Stamp)
    (p : Polygon) (hp : s.polygon = some p) (hm : s.tr_matrix = mat3.identity)
    (hN : 3 ≤ p.next) (ix iy : Int) (hx0 : 0 ≤ ix) (hx : ix < c.width) (hy0 : 0 ≤ iy)
    (hy : iy < c.height) (hin : inside_polygon p ix iy) :
    ∃ c', fill_shape pixel_api c color s = some (1, c', s) ∧ c'.store ix iy = color := by
  obtain ⟨c', hc, hst⟩ := fill_shape_store c color s p hp hm
  refine ⟨c', hc, ?_⟩
  obtain ⟨k, hk2, hkN, hk⟩ := fan_covers (fixed_vertex p) p.next hN ix iy hin.1 hin.2
  rw [hst, if_pos]
  refine ⟨k, ?_, ?_⟩
  · rw [List.mem_range'_1]; omega
  · rw [mem_tri_pixels_in_canvas _ _ _ _ _ _ _ _ _ _ hx0 hx hy0 hy]
    exact hk

/-- Witness of C8 as amended: the pixel `(5, 3)` of the 10×6 sample rectangle. -/
theorem fill_polygon_inside_witness :
    inside_polygon (rectangle_polygon sample_storage 10 6) 5 3 ∧
    ∃ c', fill_shape pixel_api (blank_canvas 20 20) Color.WHITE sample_rectangle
        = some (1, c', sample_rectangle) ∧ c'.store 5 3 = Color.WHITE :=
  ⟨sample_inside,
    fill_polygon_inside (blank_canvas 20 20) Color.WHITE sample_rectangle
      (rectangle_polygon sample_storage 10 6) rfl rfl (by decide) 5 3 (by decide) (by decide)
      (by decide) (by decide) sample_inside⟩

/-! ## C9: the triangles of a fan -/

/-- C9, the code at the failing input. For the stamp built by `new_rectangle_stamp(w, h)`
(`N = 4` vertices), `fill_shape` calls the triangle filler three times, not twice, and the
first corner of the third triangle is read from index 4, the storage slot after the last
vertex. In general a polygon with `next` valid vertices gets `next + 1 - 2` calls, for the
indices `2 .. next`. -/
theorem fill_shape_rectangle_calls (buf : Nat → Point) (r : Stamp) (w h : Nat)
    (color : Color) :
    fill_shape_with record_triangle record_triangle [] color
        { r with polygon := some (rectangle_polygon buf w h), tr_matrix := mat3.identity }
      = some (1, [(⟨(w : ℚ), (h : ℚ)⟩, ⟨(w : ℚ), 0⟩, ⟨0, 0⟩),
          (⟨0, (h : ℚ)⟩, ⟨(w : ℚ), (h : ℚ)⟩, ⟨0, 0⟩),
          (buf 4, ⟨0, (h : ℚ)⟩, ⟨0, 0⟩)],
          { r with polygon := some (rectangle_polygon buf w h), tr_matrix := mat3.identity }) ∧
    ∀ (s : Stamp) (p : Polygon), s.polygon = some p →
      fill_shape_with record_triangle record_triangle [] color s
        = some (1, (List.range' 2 (p.next + 1 - 2)).map (fun k =>
            (transform_point (p.vertices k) s.tr_matrix,
              transform_point (p.vertices (k - 1)) s.tr_matrix,
              transform_point (p.vertices 0) s.tr_matrix)), s) := by
  have gen : ∀ (s : Stamp) (p : Polygon), s.polygon = some p →
      fill_shape_with record_triangle record_triangle [] color s
        = some (1, (List.range' 2 (p.next + 1 - 2)).map (fun k =>
            (transform_point (p.vertices k) s.tr_matrix,
              transform_point (p.vertices (k - 1)) s.tr_matrix,
              transform_point (p.vertices 0) s.tr_matrix)), s) := by
    intro s p hp
    unfold fill_shape_with
    rw [hp]
    simp only [ite_self]
    have := fan_loop_eq record_triangle p s.tr_matrix (p.next + 1 - 2) 2 []
    simp only [Nat.add_one_sub_one] at this
    rw [this, foldl_record_triangle (fun k => (transform_point (p.vertices k) s.tr_matrix,
      transform_point (p.vertices (k - 1)) s.tr_matrix,
      transform_point (p.vertices 0) s.tr_matrix))]
    simp
  refine ⟨?_, gen⟩
  rw [gen { r with polygon := some (rectangle_polygon buf w h), tr_matrix := mat3.identity }
    (rectangle_polygon buf w h) rfl]
  obtain ⟨hn, -, v0, v1, v2, v3, v4⟩ := rectangle_polygon_facts buf w h
  simp [hn, List.range', transform_point_identity, v0, v1, v2, v3, v4 4 (le_refl 4)]

/-- Witness for C9: the three calls for the 10×6 sample rectangle, the third one with the
content of storage slot 4 as its first corner. -/
theorem fill_shape_rectangle_calls_witness :
    fill_shape_with record_triangle record_triangle [] Color.WHITE sample_rectangle
      = some (1, [(⟨((10 : Nat) : ℚ), ((6 : Nat) : ℚ)⟩, ⟨((10 : Nat) : ℚ), 0⟩, ⟨0, 0⟩),
          (⟨0, ((6 : Nat) : ℚ)⟩, ⟨((10 : Nat) : ℚ), ((6 : Nat) : ℚ)⟩, ⟨0, 0⟩),
          (sample_storage 4, ⟨0, ((6 : Nat) : ℚ)⟩, ⟨0, 0⟩)], sample_rectangle) :=
  (fill_shape_rectangle_calls sample_storage sample_raw 10 6 Color.WHITE).1

/-! ## C10: the rectangle factory -/

/-- C10. For all `w` and `h`, the stamp returned by a successful `new_rectangle_stamp(w, h)`
has a closed polygon with exactly the four vertices `(0,0)`, `(w,0)`, `(w,h)`, `(0,h)`, in
that order, and its matrix is the identity. -/
theorem new_rectangle_stamp_polygon (storage : Option (Nat → Point)) (raw : Option Stamp)
    (mat_ok : Bool) (w h : Nat) (s : Stamp)
    (hs : new_rectangle_stamp storage raw mat_ok w h = some s) :
    ∃ p, s.polygon = some p ∧ p.closed = true ∧ p.next = 4 ∧
      p.vertices 0 = ⟨0, 0⟩ ∧ p.vertices 1 = ⟨(w : ℚ), 0⟩ ∧
      p.vertices 2 = ⟨(w : ℚ), (h : ℚ)⟩ ∧ p.vertices 3 = ⟨0, (h : ℚ)⟩ ∧
      s.tr_matrix = mat3.identity := by
  obtain ⟨buf, r, -, -, -, rfl⟩ := new_rectangle_stamp_eq storage raw mat_ok w h s hs
  obtain ⟨hn, hc, v0, v1, v2, v3, -⟩ := rectangle_polygon_facts buf w h
  exact ⟨rectangle_polygon buf w h, rfl, hc, hn, v0, v1, v2, v3, rfl⟩

/-- Witness of C10: `new_rectangle_stamp(10, 6)` in the sample memory. -/
theorem new_rectangle_stamp_polygon_witness :
    new_rectangle_stamp (some sample_storage) (some sample_raw) true 10 6
        = some sample_rectangle ∧
    ∃ p, sample_rectangle.polygon = some p ∧ p.closed = true ∧ p.next = 4 ∧
      p.vertices 0 = ⟨0, 0⟩ ∧ p.vertices 1 = ⟨((10 : Nat) : ℚ), 0⟩ ∧
      p.vertices 2 = ⟨((10 : Nat) : ℚ), ((6 : Nat) : ℚ)⟩ ∧
      p.vertices 3 = ⟨0, ((6 : Nat) : ℚ)⟩ ∧
      sample_rectangle.tr_matrix = mat3.identity :=
  ⟨rfl, new_rectangle_stamp_polygon (some sample_storage) (some sample_raw) true 10 6
    sample_rectangle rfl⟩

/-! ## The trace of a line -/

/-- The loop when `x` is the major axis, with the whole trace: every pixel written is the
current pixel moved by `a` steps in `x` and `b` steps in `y`, where the error term `e` at
that pixel stays in `[0, dx)` and records `b * dx - a * dy`; consecutive pixels advance by
one step in `x` and by zero or one step in `y`. -/
theorem bresenham_trace_xmajor (dx dy incx incy x2 y2 err0 : Int) (hd : dy < dx) (hdy : 0 ≤ dy)
    (hix : incx = 1 ∨ incx = -1) (he0 : 0 ≤ err0 ∧ err0 < dx) :
    ∀ (rx : Nat) (ry : Int) (l : List (Int × Int)) (x y err : Int) (fuel : Nat),
      x2 = x + incx * rx → y2 = y + incy * ry → 0 ≤ err → err < dx →
      err - err0 = rx * dy - ry * dx → rx < fuel →
      ∃ pts, bresenham_loop record dx dy incx incy x2 y2 fuel l x y err
          = some (l ++ (x, y) :: pts) ∧ pts.length = rx ∧
          List.Chain' (fun p q : Int × Int => q.1 = p.1 + incx ∧
            (q.2 = p.2 + incy ∨ q.2 = p.2)) ((x, y) :: pts) ∧
          ∀ q ∈ (x, y) :: pts, ∃ a b e : Int, q = (x + incx * a, y + incy * b) ∧
            0 ≤ a ∧ a ≤ rx ∧ 0 ≤ b ∧ b ≤ ry ∧ 0 ≤ e ∧ e < dx ∧
            e - err = b * dx - a * dy := by
  intro rx
  induction rx with
  | zero =>
    intro ry l x y err fuel hx hy h1 h2 hinv hf
    obtain ⟨f, rfl⟩ : ∃ f, fuel = f + 1 := ⟨fuel - 1, by omega⟩
    have hry : ry = 0 := by
      simp only [Nat.cast_zero, zero_mul, zero_sub] at hinv
      by_contra hne
      rcases lt_or_gt_of_ne hne with hl | hg
      · have : ry * dx ≤ -1 * dx := mul_le_mul_of_nonneg_right (by omega) (by omega)
        linarith
      · have : 1 * dx ≤ ry * dx := mul_le_mul_of_nonneg_right (by omega) (by omega)
        linarith
    subst hry
    simp only [Nat.cast_zero, mul_zero, add_zero] at hx hy
    subst hx hy
    refine ⟨[], by simp [bresenham_loop, record], rfl, List.chain'_singleton _, ?_⟩
    intro q hq
    rw [List.mem_singleton] at hq
    exact ⟨0, 0, err, by rw [hq]; simp, le_refl _, by simp, le_refl _, le_refl _, h1, h2,
      by ring⟩
  | succ rx ih =>
    intro ry l x y err fuel hx hy h1 h2 hinv hf
    obtain ⟨f, rfl⟩ : ∃ f, fuel = f + 1 := ⟨fuel - 1, by omega⟩
    have hne : ¬ (x = x2 ∧ y = y2) := by
      rintro ⟨hxx, -⟩
      rw [hx] at hxx
      push_cast at hxx
      rcases hix with h | h <;> rw [h] at hxx <;> omega
    have hgt : err > -dx := by omega
    push_cast at hx hinv
    have hry0 : 0 ≤ ry := by
      by_contra hc
      have c1 : ry * dx ≤ -1 * dx := mul_le_mul_of_nonneg_right (by omega) (by omega)
      have c2 : (0 : Int) ≤ (rx + 1) * dy := mul_nonneg (by omega) hdy
      linarith
    have hhead : ∃ a b e : Int, (x, y) = (x + incx * a, y + incy * b) ∧
        0 ≤ a ∧ a ≤ ((rx + 1 : Nat) : Int) ∧ 0 ≤ b ∧ b ≤ ry ∧ 0 ≤ e ∧ e < dx ∧
        e - err = b * dx - a * dy :=
      ⟨0, 0, err, by simp, le_refl _, by omega, le_refl _, hry0, h1, h2, by ring⟩
    by_cases hlt : err < dy
    · obtain ⟨pts, hp, hlen, hch, hpt⟩ := ih (ry - 1) (record l x y) (x + incx) (y + incy)
        (err - dy + dx) f (by rw [hx]; ring) (by rw [hy]; ring) (by omega) (by omega)
        (by linarith) (by omega)
      refine ⟨(x + incx, y + incy) :: pts, ?_, by simp [hlen], ?_, ?_⟩
      · simp only [bresenham_loop, hne, if_false, hgt, hlt, if_true]
        rw [hp]; simp [record]
      · exact List.chain'_cons.mpr ⟨⟨rfl, Or.inl rfl⟩, hch⟩
      · intro q hq
        rcases List.mem_cons.mp hq with rfl | hq'
        · exact hhead
        · obtain ⟨a, b, e, rfl, a0, a1, b0, b1, e0, e1, he⟩ := hpt q hq'
          refine ⟨a + 1, b + 1, e, ?_, by omega, by push_cast; omega, by omega, by omega, e0, e1,
            by linarith⟩
          rw [Prod.mk.injEq]
          constructor <;> ring
    · obtain ⟨pts, hp, hlen, hch, hpt⟩ := ih ry (record l x y) (x + incx) y
        (err - dy) f (by rw [hx]; ring) hy (by omega) (by omega)
        (by linarith) (by omega)
      refine ⟨(x + incx, y) :: pts, ?_, by simp [hlen], ?_, ?_⟩
      · simp only [bresenham_loop, hne, if_false, hgt, hlt, if_true]
        rw [hp]; simp [record]
      · exact List.chain'_cons.mpr ⟨⟨rfl, Or.inr rfl⟩, hch⟩
      · intro q hq
        rcases List.mem_cons.mp hq with rfl | hq'
        · exact hhead
        · obtain ⟨a, b, e, rfl, a0, a1, b0, b1, e0, e1, he⟩ := hpt q hq'
          refine ⟨a + 1, b, e, ?_, by omega, by push_cast; omega, by omega, by omega, e0, e1,
            by linarith⟩
          rw [Prod.mk.injEq]
          constructor <;> ring

/-- The loop when `y` is the major axis, with the whole trace: the error term stays in
`(-dy, 0]`; consecutive pixels advance by one step in `y`, and by one step in `x` or, when
`dx < dy`, by none. -/
theorem bresenham_trace_ymajor (dx dy incx incy x2 y2 err0 : Int) (hd : dx ≤ dy) (hdx : 0 ≤ dx)
    (hdy : 0 < dy) (hiy : incy = 1 ∨ incy = -1) (he0 : -dy < err0 ∧ err0 ≤ 0) :
    ∀ (ry : Nat) (rx : Int) (l : List (Int × Int)) (x y err : Int) (fuel : Nat),
      x2 = x + incx * rx → y2 = y + incy * ry → -dy < err → err ≤ 0 →
      err - err0 = rx * dy - ry * dx → ry < fuel →
      ∃ pts, bresenham_loop record dx dy incx incy x2 y2 fuel l x y err
          = some (l ++ (x, y) :: pts) ∧ pts.length = ry ∧
          List.Chain' (fun p q : Int × Int => q.2 = p.2 + incy ∧
            (q.1 = p.1 + incx ∨ (q.1 = p.1 ∧ dx < dy))) ((x, y) :: pts) ∧
          ∀ q ∈ (x, y) :: pts, ∃ a b e : Int, q = (x + incx * a, y + incy * b) ∧
            0 ≤ a ∧ a ≤ rx ∧ 0 ≤ b ∧ b ≤ ry ∧ -dy < e ∧ e ≤ 0 ∧
            e - err = b * dx - a * dy := by
  intro ry
  induction ry with
  | zero =>
    intro rx l x y err fuel hx hy h1 h2 hinv hf
    obtain ⟨f, rfl⟩ : ∃ f, fuel = f + 1 := ⟨fuel - 1, by omega⟩
    have hrx : rx = 0 := by
      simp only [Nat.cast_zero, zero_mul, sub_zero] at hinv
      by_contra hne
      rcases lt_or_gt_of_ne hne with hl | hg
      · have : rx * dy ≤ -1 * dy := mul_le_mul_of_nonneg_right (by omega) (by omega)
        linarith
      · have : 1 * dy ≤ rx * dy := mul_le_mul_of_nonneg_right (by omega) (by omega)
        linarith
    subst hrx
    simp only [Nat.cast_zero, mul_zero, add_zero] at hx hy
    subst hx hy
    refine ⟨[], by simp [bresenham_loop, record], rfl, List.chain'_singleton _, ?_⟩
    intro q hq
    rw [List.mem_singleton] at hq
    exact ⟨0, 0, err, by rw [hq]; simp, le_refl _, le_refl _, le_refl _, by simp, h1, h2,
      by ring⟩
  | succ ry ih =>
    intro rx l x y err fuel hx hy h1 h2 hinv hf
    obtain ⟨f, rfl⟩ : ∃ f, fuel = f + 1 := ⟨fuel - 1, by omega⟩
    have hne : ¬ (x = x2 ∧ y = y2) := by
      rintro ⟨-, hyy⟩
      rw [hy] at hyy
      push_cast at hyy
      rcases hiy with h | h <;> rw [h] at hyy <;> omega
    have hlt : err < dy := by omega
    push_cast at hy hinv
    have hrx0 : 0 ≤ rx := by
      by_contra hc
      have c1 : rx * dy ≤ -1 * dy := mul_le_mul_of_nonneg_right (by omega) (by omega)
      have c2 : (0 : Int) ≤ (ry + 1) * dx := mul_nonneg (by omega) hdx
      linarith
    have hhead : ∃ a b e : Int, (x, y) = (x + incx * a, y + incy * b) ∧
        0 ≤ a ∧ a ≤ rx ∧ 0 ≤ b ∧ b ≤ ((ry + 1 : Nat) : Int) ∧ -dy < e ∧ e ≤ 0 ∧
        e - err = b * dx - a * dy :=
      ⟨0, 0, err, by simp, le_refl _, hrx0, le_refl _, by omega, h1, h2, by ring⟩
    by_cases hgt : err > -dx
    · obtain ⟨pts, hp, hlen, hch, hpt⟩ := ih (rx - 1) (record l x y) (x + incx) (y + incy)
        (err - dy + dx) f (by rw [hx]; ring) (by rw [hy]; ring) (by omega) (by omega)
        (by linarith) (by omega)
      refine ⟨(x + incx, y + incy) :: pts, ?_, by simp [hlen], ?_, ?_⟩
      · simp only [bresenham_loop, hne, if_false, hgt, hlt, if_true]
        rw [hp]; simp [record]
      · exact List.chain'_cons.mpr ⟨⟨rfl, Or.inl rfl⟩, hch⟩
      · intro q hq
        rcases List.mem_cons.mp hq with rfl | hq'
        · exact hhead
        · obtain ⟨a, b, e, rfl, a0, a1, b0, b1, e0, e1, he⟩ := hpt q hq'
          refine ⟨a + 1, b + 1, e, ?_, by omega, by omega, by omega, by push_cast; omega, e0, e1,
            by linarith⟩
          rw [Prod.mk.injEq]
          constructor <;> ring
    · obtain ⟨pts, hp, hlen, hch, hpt⟩ := ih rx (record l x y) x (y + incy)
        (err + dx) f hx (by rw [hy]; ring) (by omega) (by omega)
        (by linarith) (by omega)
      refine ⟨(x, y + incy) :: pts, ?_, by simp [hlen], ?_, ?_⟩
      · simp only [bresenham_loop, hne, if_false, hgt, hlt, if_true]
        rw [hp]; simp [record]
      · exact List.chain'_cons.mpr ⟨⟨rfl, Or.inr ⟨rfl, by omega⟩⟩, hch⟩
      · intro q hq
        rcases List.mem_cons.mp hq with rfl | hq'
        · exact hhead
        · obtain ⟨a, b, e, rfl, a0, a1, b0, b1, e0, e1, he⟩ := hpt q hq'
          refine ⟨a, b + 1, e, ?_, by omega, by omega, by omega, by push_cast; omega, e0, e1,
            by linarith⟩
          rw [Prod.mk.injEq]
          constructor <;> ring

/-- The trace of `bresenham`: with more fuel than the longer extent the loop returns the
list of the pixels it set, one more than the longer extent, linked by `line_step`, each a
`line_point`. -/
theorem bresenham_trace (x1 y1 x2 y2 : Int) (fuel : Nat)
    (hf : max |x2 - x1| |y2 - y1| < fuel) :
    ∃ pts, bresenham_with record fuel [] x1 y1 x2 y2 = some pts ∧
      (pts.length : Int) = max |x2 - x1| |y2 - y1| + 1 ∧
      List.Chain' (line_step x1 y1 x2 y2) pts ∧
      ∀ q ∈ pts, line_point x1 y1 x2 y2 q := by
  have hdx0 : (0 : Int) ≤ |x2 - x1| := abs_nonneg _
  have hdy0 : (0 : Int) ≤ |y2 - y1| := abs_nonneg _
  have hf1 := lt_of_le_of_lt (le_max_left _ _) hf
  have hf2 := lt_of_le_of_lt (le_max_right _ _) hf
  unfold bresenham_with
  simp only []
  have hxa : x2 = x1 + (if x1 < x2 then 1 else -1) * ((|x2 - x1|).toNat : Int) := by
    rw [Int.toNat_of_nonneg hdx0, abs_sub_eq_ite]; split_ifs <;> omega
  have hya : y2 = y1 + (if y1 < y2 then 1 else -1) * ((|y2 - y1|).toNat : Int) := by
    rw [Int.toNat_of_nonneg hdy0, abs_sub_eq_ite]; split_ifs <;> omega
  have hxb : x2 = x1 + (if x1 < x2 then 1 else -1) * |x2 - x1| := by
    rw [abs_sub_eq_ite]; split_ifs <;> omega
  have hyb : y2 = y1 + (if y1 < y2 then 1 else -1) * |y2 - y1| := by
    rw [abs_sub_eq_ite]; split_ifs <;> omega
  by_cases hmaj : |x2 - x1| > |y2 - y1|
  · have he : Int.tdiv (if |x2 - x1| > |y2 - y1| then |x2 - x1| else -|y2 - y1|) 2
        = |x2 - x1| / 2 := by
      rw [if_pos hmaj, Int.tdiv_eq_ediv hdx0 (by norm_num)]
    rw [he]
    obtain ⟨pts, hp, hlen, hch, hpt⟩ := bresenham_trace_xmajor |x2 - x1| |y2 - y1|
      (if x1 < x2 then 1 else -1) (if y1 < y2 then 1 else -1) x2 y2 (|x2 - x1| / 2)
      hmaj hdy0 (by split_ifs <;> simp) (by omega)
      (|x2 - x1|).toNat |y2 - y1| [] x1 y1 (|x2 - x1| / 2) fuel hxa hyb (by omega) (by omega)
      (by rw [Int.toNat_of_nonneg hdx0]; ring) (by omega)
    refine ⟨(x1, y1) :: pts, by simpa using hp, ?_, ?_, ?_⟩
    · rw [List.length_cons, Nat.cast_add, hlen, Int.toNat_of_nonneg hdx0,
        max_eq_left (by omega), Nat.cast_one]
    · refine List.Chain'.imp ?_ hch
      rintro p q ⟨h1, h2⟩
      exact ⟨Or.inl h1, h2, fun _ => h1, fun hle => absurd hle (by omega)⟩
    · intro q hq
      obtain ⟨a, b, e, rfl, a0, a1, b0, b1, e0, e1, hee⟩ := hpt q hq
      rw [Int.toNat_of_nonneg hdx0] at a1
      refine ⟨a, b, rfl, a0, a1, b0, b1, ?_⟩
      rw [max_eq_left (by omega)]
      rcases abs_cases (b * |x2 - x1| - a * |y2 - y1|) with ⟨h, -⟩ | ⟨h, -⟩ <;> rw [h] <;> omega
  · by_cases hz : |y2 - y1| = 0
    · have hx0 : |x2 - x1| = 0 := by omega
      have e1 : x1 = x2 := by
        have := abs_eq_zero.mp hx0; omega
      have e2 : y1 = y2 := by
        have := abs_eq_zero.mp hz; omega
      subst e1 e2
      obtain ⟨f, rfl⟩ : ∃ f, fuel = f + 1 := ⟨fuel - 1, by omega⟩
      refine ⟨[(x1, y1)], by simp [bresenham_loop, record], by simp,
        List.chain'_singleton _, ?_⟩
      intro q hq
      rw [List.mem_singleton] at hq
      exact ⟨0, 0, by rw [hq]; simp, le_refl _, by simp, le_refl _, by simp, by simp⟩
    · have he : Int.tdiv (if |x2 - x1| > |y2 - y1| then |x2 - x1| else -|y2 - y1|) 2
          = -(|y2 - y1| / 2) := by
        rw [if_neg hmaj, Int.neg_tdiv, Int.tdiv_eq_ediv hdy0 (by norm_num)]
      rw [he]
      obtain ⟨pts, hp, hlen, hch, hpt⟩ := bresenham_trace_ymajor |x2 - x1| |y2 - y1|
        (if x1 < x2 then 1 else -1) (if y1 < y2 then 1 else -1) x2 y2 (-(|y2 - y1| / 2))
        (by omega) hdx0 (by omega) (by split_ifs <;> simp) (by omega)
        (|y2 - y1|).toNat |x2 - x1| [] x1 y1 (-(|y2 - y1| / 2)) fuel hxb hya (by omega) (by omega)
        (by rw [Int.toNat_of_nonneg hdy0]; ring) (by omega)
      refine ⟨(x1, y1) :: pts, by simpa using hp, ?_, ?_, ?_⟩
      · rw [List.length_cons, Nat.cast_add, hlen, Int.toNat_of_nonneg hdy0,
          max_eq_right (by omega), Nat.cast_one]
      · refine List.Chain'.imp ?_ hch
        rintro p q ⟨h1, h2⟩
        refine ⟨?_, Or.inl h1, ?_, fun _ => h1⟩
        · rcases h2 with h | ⟨h, -⟩
          · exact Or.inl h
          · exact Or.inr h
        · intro hle
          rcases h2 with h | ⟨-, h⟩
          · exact h
          · omega
      · intro q hq
        obtain ⟨a, b, e, rfl, a0, a1, b0, b1, e0, e1, hee⟩ := hpt q hq
        rw [Int.toNat_of_nonneg hdy0] at b1
        refine ⟨a, b, rfl, a0, a1, b0, b1, ?_⟩
        rw [max_eq_right (by omega)]
        rcases abs_cases (b * |x2 - x1| - a * |y2 - y1|) with ⟨h, -⟩ | ⟨h, -⟩ <;> rw [h] <;> omega

/-- The pixels `bresenham` sets on a canvas are those of the recorded trace. -/
theorem bresenham_eq_trace {σ : Type} (api : CanvasApi σ) (fuel : Nat) (c : Canvas σ)
    (color : Color) (x1 y1 x2 y2 : Int) (pts : List (Int × Int))
    (h : bresenham_with record fuel [] x1 y1 x2 y2 = some pts) :
    bresenham api fuel c color x1 y1 x2 y2
      = some (write_all (fun c x y => api.set_pixel c color x y) c pts) := by
  unfold bresenham
  rw [bresenham_with_eq_record, h]
  rfl

/-! ## Triangles: area, bounds -/

theorem twice_area_eq (X1 Y1 X2 Y2 X3 Y3 : Int) :
    twice_area X1 Y1 X2 Y2 X3 Y3 = (X1 - X2) * (Y3 - Y1) - (X3 - X1) * (Y1 - Y2) := by
  unfold twice_area; ring

theorem twice_area_reversed (X1 Y1 X2 Y2 X3 Y3 : Int) :
    twice_area X3 Y3 X2 Y2 X1 Y1 = -twice_area X1 Y1 X2 Y2 X3 Y3 := by
  unfold twice_area; ring

/-- A pixel that passes the per-pixel test certifies a positive area. -/
theorem twice_area_pos_of_inside (X1 Y1 X2 Y2 X3 Y3 ix iy : Int)
    (h : inside (edge_setup X1 Y1 X2 Y2 X3 Y3) ix iy) : 0 < twice_area X1 Y1 X2 Y2 X3 Y3 := by
  rw [inside_iff_edge_tests] at h
  rw [twice_area_eq]
  exact (raw_nonneg_of_tests X1 Y1 X2 Y2 X3 Y3 ix iy h.1 h.2.1 h.2.2).2.2.2

/-- A triangle of non-positive area gets no pixel. -/
theorem tri_pixels_nil_of_area_nonpos (W H X1 Y1 X2 Y2 X3 Y3 : Int)
    (h : twice_area X1 Y1 X2 Y2 X3 Y3 ≤ 0) : tri_pixels W H X1 Y1 X2 Y2 X3 Y3 = [] := by
  rw [List.eq_nil_iff_forall_not_mem]
  rintro ⟨ix, iy⟩ hm
  rw [mem_tri_pixels] at hm
  have := twice_area_pos_of_inside X1 Y1 X2 Y2 X3 Y3 ix iy hm.2.2
  omega

theorem stamp_max_le (a b c m : Int) : stamp_max a b c m ≤ m := by
  unfold stamp_max; simp only []; split_ifs <;> omega

theorem upper_bound_le (a b c size : Int) : upper_bound a b c size ≤ size := by
  have h := stamp_max_le a b c (16 * size)
  unfold upper_bound
  rw [shr_four, to_fixed_intCast]
  omega

/-- The blocks iterated on one axis start at a non-negative coordinate and end at most 7
pixels past the last coordinate of the canvas. -/
theorem covered_bounds (a b c size v : Int)
    (h : covered (lower_bound a b c) (upper_bound a b c size) v) : 0 ≤ v ∧ v ≤ size + 6 := by
  have h0 := lower_bound_nonneg a b c
  have h1 := upper_bound_le a b c size
  unfold covered at h
  omega

/-! ## Consequences of the trace of a line -/

theorem connected_of_line_step (x1 y1 x2 y2 : Int) (p q : Int × Int)
    (h : line_step x1 y1 x2 y2 p q) : connected_step x1 y1 x2 y2 p q := by
  obtain ⟨hx, hy, mx, my⟩ := h
  have ax : |q.1 - p.1| ≤ 1 := by
    rw [abs_le]
    rcases hx with h | h <;> rw [h] <;> omega
  have ay : |q.2 - p.2| ≤ 1 := by
    rw [abs_le]
    rcases hy with h | h <;> rw [h] <;> omega
  have bx : |y2 - y1| ≤ |x2 - x1| → |q.1 - p.1| = 1 := by
    intro hle
    rw [mx hle]
    split_ifs <;> simp
  have by' : |x2 - x1| ≤ |y2 - y1| → |q.2 - p.2| = 1 := by
    intro hle
    rw [my hle]
    split_ifs <;> simp
  refine ⟨?_, ax, ay, bx, by'⟩
  intro hpq
  rcases le_total |y2 - y1| |x2 - x1| with hle | hle
  · have := bx hle
    rw [hpq] at this
    simp at this
  · have := by' hle
    rw [hpq] at this
    simp at this

theorem in_box_of_line_point (x1 y1 x2 y2 : Int) (q : Int × Int)
    (h : line_point x1 y1 x2 y2 q) : in_box x1 y1 x2 y2 q := by
  obtain ⟨a, b, rfl, a0, a1, b0, b1, -⟩ := h
  rw [abs_sub_eq_ite] at a1 b1
  unfold in_box
  simp only []
  refine ⟨?_, ?_, ?_, ?_⟩ <;> split_ifs at a1 b1 ⊢ <;> omega

theorem abs_inc_mul (c : Prop) [Decidable c] (a : Int) (h : 0 ≤ a) :
    |(if c then (1 : Int) else -1) * a| = a := by
  split_ifs
  · rw [one_mul, abs_of_nonneg h]
  · rw [neg_one_mul, abs_neg, abs_of_nonneg h]

theorem half_pixel_of_line_point (x1 y1 x2 y2 : Int) (q : Int × Int)
    (h : line_point x1 y1 x2 y2 q) :
    2 * |(|x2 - x1| * |q.2 - y1| - |y2 - y1| * |q.1 - x1|)| ≤ max |x2 - x1| |y2 - y1| := by
  obtain ⟨a, b, rfl, a0, a1, b0, b1, hb⟩ := h
  have e1 : (x1 + (if x1 < x2 then 1 else -1) * a) - x1 = (if x1 < x2 then 1 else -1) * a := by
    ring
  have e2 : (y1 + (if y1 < y2 then 1 else -1) * b) - y1 = (if y1 < y2 then 1 else -1) * b := by
    ring
  simp only [e1, e2, abs_inc_mul _ a a0, abs_inc_mul _ b b0]
  have e3 : |x2 - x1| * b - |y2 - y1| * a = b * |x2 - x1| - a * |y2 - y1| := by ring
  rw [e3]
  exact hb

theorem monotone_of_line_step (x1 y1 x2 y2 : Int) (p q : Int × Int)
    (hp : line_point x1 y1 x2 y2 p) (hq : line_point x1 y1 x2 y2 q)
    (h : line_step x1 y1 x2 y2 p q) : monotone_step x1 y1 x2 y2 p q := by
  obtain ⟨hx, hy, -, -⟩ := h
  have bp := in_box_of_line_point x1 y1 x2 y2 p hp
  have bq := in_box_of_line_point x1 y1 x2 y2 q hq
  unfold in_box at bp bq
  unfold monotone_step
  refine ⟨?_, ?_, ?_, ?_⟩
  · intro hle
    rcases hx with h | h
    · split_ifs at h <;> omega
    · omega
  · intro hle
    rcases hx with h | h
    · split_ifs at h <;> omega
    · omega
  · intro hle
    rcases hy with h | h
    · split_ifs at h <;> omega
    · omega
  · intro hle
    rcases hy with h | h
    · split_ifs at h <;> omega
    · omega

/-! ## The fan with the colour of each call -/

theorem foldl_record_fill (white : Bool) (f : Nat → Point × Point × Point) (ks : List Nat)
    (l : List (Bool × Point × Point × Point)) :
    ks.foldl (fun c k => record_fill white c (f k).1 (f k).2.1 (f k).2.2) l
      = l ++ ks.map (fun k => (white, f k)) := by
  induction ks generalizing l with
  | nil => simp
  | cons k ks ih =>
    have step : record_fill white l (f k).1 (f k).2.1 (f k).2.2 = l ++ [(white, f k)] := rfl
    rw [List.foldl_cons, step, ih]
    simp

/-! ## C11: the tag of a fresh stamp -/

/-- C11, the code at the failing input. `new_polygon_stamp` assigns only `polygon` and
`tr_matrix`: the tag and the bitmap pointer of the stamp it returns are those the
allocated block held. When the block last held a bitmap-backed stamp,
`new_rectangle_stamp(10, 6)` returns a stamp tagged `BITMAP` with a non-null bitmap, and
`draw_stamp_outline` on it returns -1 and draws nothing. -/
theorem fresh_stamp_tag :
    (∀ (r : Stamp) (mat_ok : Bool) (p : Polygon) (s : Stamp),
      new_polygon_stamp (some r) mat_ok p = some s → s.type = r.type ∧ s.bitmap = r.bitmap) ∧
    new_rectangle_stamp (some sample_storage) (some sample_bitmap) true 10 6
      = some recycled_rectangle ∧
    recycled_rectangle.type = StampType.BITMAP ∧ recycled_rectangle.bitmap ≠ none ∧
    ∀ fuel, draw_stamp_outline pixel_api fuel (blank_canvas 20 20) Color.WHITE
      recycled_rectangle = some (-1, blank_canvas 20 20, recycled_rectangle) := by
  refine ⟨?_, rfl, rfl, by simp [recycled_rectangle, sample_bitmap], fun fuel => rfl⟩
  intro r mat_ok p s h
  cases mat_ok with
  | false => simp [new_polygon_stamp, new_mat3] at h
  | true =>
    simp only [new_polygon_stamp, new_mat3, if_true, Option.some.injEq] at h
    rw [← h]
    exact ⟨rfl, rfl⟩

/-- Witness for C11: the stamp built on the block of the sample bitmap stamp keeps its tag
and its bitmap. -/
theorem fresh_stamp_tag_witness :
    new_polygon_stamp (some sample_bitmap) true (rectangle_polygon sample_storage 10 6)
      = some recycled_rectangle ∧
    (recycled_rectangle.type = sample_bitmap.type ∧
      recycled_rectangle.bitmap = sample_bitmap.bitmap) :=
  ⟨rfl, fresh_stamp_tag.1 sample_bitmap true (rectangle_polygon sample_storage 10 6)
    recycled_rectangle rfl⟩

/-! ## C12: applying the matrix -/

/-- C12. For every stamp with matrix `M`, `apply_matrix` leaves the matrix equal to the
identity and keeps the tag and the bitmap; if the stamp has a polygon, the polygon keeps
its vertex count and closed flag and every vertex is replaced by its image under `M`, in
place; if it has no polygon, only the matrix changes. -/
theorem apply_matrix_effect (s : Stamp) :
    (apply_matrix s).tr_matrix = mat3.identity ∧
    (apply_matrix s).type = s.type ∧ (apply_matrix s).bitmap = s.bitmap ∧
    (∀ p, s.polygon = some p →
      ∃ p', (apply_matrix s).polygon = some p' ∧ p'.next = p.next ∧ p'.closed = p.closed ∧
        ∀ i, i < p.next → p'.vertices i = transform_point (p.vertices i) s.tr_matrix) ∧
    (s.polygon = none → apply_matrix s = { s with tr_matrix := mat3.identity }) := by
  refine ⟨rfl, ?_, ?_, ?_, ?_⟩
  · unfold apply_matrix
    cases s.polygon <;> rfl
  · unfold apply_matrix
    cases s.polygon <;> rfl
  · intro p hp
    refine ⟨transform_polygon p s.tr_matrix, ?_, rfl, rfl, ?_⟩
    · unfold apply_matrix
      rw [hp]
    · intro i hi
      simp [transform_polygon, hi]
  · intro hp
    obtain ⟨t, pg, b, m⟩ := s
    simp only at hp
    subst hp
    rfl

/-- Witness of C12: the scaled sample rectangle keeps 4 vertices, each scaled by 2; the
sample bitmap stamp, which has no polygon, only gets the identity matrix. -/
theorem apply_matrix_effect_witness :
    (∃ p', (apply_matrix sample_scaled).polygon = some p' ∧
      p'.next = (rectangle_polygon sample_storage 10 6).next ∧
      p'.closed = (rectangle_polygon sample_storage 10 6).closed ∧
      ∀ i, i < (rectangle_polygon sample_storage 10 6).next →
        p'.vertices i = transform_point ((rectangle_polygon sample_storage 10 6).vertices i)
          sample_scaled.tr_matrix) ∧
    apply_matrix sample_bitmap = { sample_bitmap with tr_matrix := mat3.identity } :=
  ⟨(apply_matrix_effect sample_scaled).2.2.2.1 (rectangle_polygon sample_storage 10 6) rfl,
    (apply_matrix_effect sample_bitmap).2.2.2.2 rfl⟩

/-! ## C13: how far the block loops reach -/

/-- C13. For every triangle and every canvas size, every pixel `(ix, iy)` written by
`fill_triangle` has `0 ≤ ix ≤ W + 6` and `0 ≤ iy ≤ H + 6`; and the overshoot is reached: on
a canvas of width 1 and height 8 the triangle `(8,8), (8,0), (0,0)` gets the pixel
`(7, 0)`, whose `ix` is `W + 6`. -/
theorem triangle_writes_reach :
    (∀ W H X1 Y1 X2 Y2 X3 Y3 ix iy : Int, 0 ≤ W → 0 ≤ H →
      (ix, iy) ∈ triangle_writes W H X1 Y1 X2 Y2 X3 Y3 →
      0 ≤ ix ∧ ix ≤ W + 6 ∧ 0 ≤ iy ∧ iy ≤ H + 6) ∧
    (∃ W H X1 Y1 X2 Y2 X3 Y3 ix iy : Int, 0 ≤ W ∧ 0 ≤ H ∧
      (ix, iy) ∈ triangle_writes W H X1 Y1 X2 Y2 X3 Y3 ∧ W ≤ ix) := by
  constructor
  · intro W H X1 Y1 X2 Y2 X3 Y3 ix iy _ _ hm
    rw [triangle_writes_eq, mem_tri_pixels] at hm
    have hx := covered_bounds _ _ _ _ _ hm.1
    have hy := covered_bounds _ _ _ _ _ hm.2.1
    exact ⟨hx.1, hx.2, hy.1, hy.2⟩
  · refine ⟨1, 8, 128, 128, 128, 0, 0, 0, 7, 0, by decide, by decide, ?_, by decide⟩
    rw [triangle_writes_eq, mem_tri_pixels,
      lower_bound_of_zero 128 128 0 (by decide), lower_bound_of_zero 128 0 0 (by decide),
      upper_bound_eq 128 128 0 1 1 (by decide), upper_bound_eq 128 0 0 8 8 (by decide)]
    exact ⟨by decide, by decide, by decide⟩

/-- Witness of C13: the pixel `(7, 0)` written on the 1×8 canvas is within the bounds. -/
theorem triangle_writes_reach_witness :
    (7, 0) ∈ triangle_writes 1 8 128 128 128 0 0 0 ∧
    ((0 : Int) ≤ 7 ∧ (7 : Int) ≤ 1 + 6 ∧ (0 : Int) ≤ 0 ∧ (0 : Int) ≤ 8 + 6) := by
  have hm : ((7 : Int), (0 : Int)) ∈ triangle_writes 1 8 128 128 128 0 0 0 := by
    rw [triangle_writes_eq, mem_tri_pixels,
      lower_bound_of_zero 128 128 0 (by decide), lower_bound_of_zero 128 0 0 (by decide),
      upper_bound_eq 128 128 0 1 1 (by decide), upper_bound_eq 128 0 0 8 8 (by decide)]
    exact ⟨by decide, by decide, by decide⟩
  exact ⟨hm, triangle_writes_reach.1 1 8 128 128 128 0 0 0 7 0 (by decide) (by decide) hm⟩

/-! ## C14: zero-area triangles -/

/-- C14. For every zero-area triangle (collinear fixed-point vertices: `C1 + C2 + C3 = 0`
before the correction, which includes two or three coincident vertices) and every canvas,
`fill_triangle` writes no pixel: the recorded writes are empty and any canvas is returned
as it was. -/
theorem zero_area_no_pixel (W H X1 Y1 X2 Y2 X3 Y3 : Int)
    (h : twice_area X1 Y1 X2 Y2 X3 Y3 = 0) :
    triangle_writes W H X1 Y1 X2 Y2 X3 Y3 = [] ∧
    (∀ (κ : Type) (set_pixel : κ → Int → Int → κ) (canvas : κ),
      fill_triangle_fixed set_pixel W H X1 Y1 X2 Y2 X3 Y3 canvas = canvas) ∧
    (∀ XA YA XB YB : Int, twice_area XA YA XA YA XB YB = 0 ∧
      twice_area XA YA XB YB XB YB = 0 ∧ twice_area XA YA XB YB XA YA = 0) := by
  have hnil := tri_pixels_nil_of_area_nonpos W H X1 Y1 X2 Y2 X3 Y3 (by omega)
  refine ⟨by rw [triangle_writes_eq, hnil], ?_, ?_⟩
  · intro κ sp cv
    rw [fill_triangle_fixed_eq, hnil]
    rfl
  · intro XA YA XB YB
    refine ⟨?_, ?_, ?_⟩ <;> unfold twice_area <;> ring

/-- Witness of C14: the triangle `((0,0), (10,6), (0,0))` that a vertex repeated after a
second one gives. -/
theorem zero_area_no_pixel_witness :
    twice_area 0 0 160 96 0 0 = 0 ∧ triangle_writes 20 20 0 0 160 96 0 0 = [] :=
  ⟨by decide, (zero_area_no_pixel 20 20 0 0 160 96 0 0 (by decide)).1⟩

/-! ## C15: the line is 8-connected and of single-pixel width -/

/-- C15. For all integer endpoints (and fuel above the longer extent) `bresenham` sets
`max(|x2 - x1|, |y2 - y1|) + 1` pixels; any two consecutive ones are distinct, differ by at
most 1 in `x` and in `y`, and the coordinate of the longer extent advances by exactly 1 at
every step. The pixels set on any canvas are the recorded ones, in order. -/
theorem bresenham_connected (x1 y1 x2 y2 : Int) (fuel : Nat)
    (hf : max |x2 - x1| |y2 - y1| < fuel) :
    ∃ pts, bresenham_with record fuel [] x1 y1 x2 y2 = some pts ∧
      (∀ (σ : Type) (api : CanvasApi σ) (c : Canvas σ) (color : Color),
        bresenham api fuel c color x1 y1 x2 y2
          = some (write_all (fun c x y => api.set_pixel c color x y) c pts)) ∧
      (pts.length : Int) = max |x2 - x1| |y2 - y1| + 1 ∧
      List.Chain' (connected_step x1 y1 x2 y2) pts := by
  obtain ⟨pts, hp, hlen, hch, -⟩ := bresenham_trace x1 y1 x2 y2 fuel hf
  exact ⟨pts, hp, fun σ api c color => bresenham_eq_trace api fuel c color x1 y1 x2 y2 pts hp,
    hlen, List.Chain'.imp (connected_of_line_step x1 y1 x2 y2) hch⟩

/-- Witness of C15: the line from `(0, 0)` to `(5, 2)` with fuel 6. -/
theorem bresenham_connected_witness :
    ∃ pts, bresenham_with record 6 [] 0 0 5 2 = some pts ∧
      (∀ (σ : Type) (api : CanvasApi σ) (c : Canvas σ) (color : Color),
        bresenham api 6 c color 0 0 5 2
          = some (write_all (fun c x y => api.set_pixel c color x y) c pts)) ∧
      (pts.length : Int) = max |(5 : Int) - 0| |(2 : Int) - 0| + 1 ∧
      List.Chain' (connected_step 0 0 5 2) pts :=
  bresenham_connected 0 0 5 2 6 (by decide)

/-! ## C16: the rolling fan -/

/-- C16. For every polygon-backed stamp with matrix `M`, `fill_shape` returns 1 and the
triangles it passes to `fill_triangle` are `(M v_i, M v_(i-1), M v_0)` for `i = 2, 3, ...`
in increasing order (up to `i = next`): vertex 0 is the common corner and the previous
vertex is a corner of the next triangle. Every call uses the white writer if the colour
is `WHITE` and the black one otherwise. -/
theorem fill_shape_fan (color : Color) (s : Stamp) (p : Polygon) (hp : s.polygon = some p) :
    fill_shape_with (record_fill true) (record_fill false) [] color s
      = some (1, (List.range' 2 (p.next + 1 - 2)).map (fun i =>
          (decide (color = Color.WHITE), transform_point (p.vertices i) s.tr_matrix,
            transform_point (p.vertices (i - 1)) s.tr_matrix,
            transform_point (p.vertices 0) s.tr_matrix)), s) ∧
    ∀ (σ : Type) (api : CanvasApi σ) (c : Canvas σ),
      fill_shape api c color s
        = some (1, (List.range' 2 (p.next + 1 - 2)).foldl (fun c i =>
            fill_triangle c (transform_point (p.vertices i) s.tr_matrix)
              (transform_point (p.vertices (i - 1)) s.tr_matrix)
              (transform_point (p.vertices 0) s.tr_matrix)
              (if color = Color.WHITE then api.set_white_pixel_unsafe
               else api.set_black_pixel_unsafe)) c, s) := by
  constructor
  · unfold fill_shape_with
    rw [hp]
    have htri : (fun (c : List (Bool × Point × Point × Point)) (p3 p2 p1 : Point) =>
        if color = Color.WHITE then record_fill true c p3 p2 p1
        else record_fill false c p3 p2 p1)
        = fun c p3 p2 p1 => record_fill (decide (color = Color.WHITE)) c p3 p2 p1 := by
      funext c p3 p2 p1
      cases color <;> simp
    simp only [htri]
    have := fan_loop_eq (record_fill (decide (color = Color.WHITE))) p s.tr_matrix
      (p.next + 1 - 2) 2 []
    simp only [Nat.add_one_sub_one] at this
    rw [this, foldl_record_fill (decide (color = Color.WHITE))
      (fun k => (transform_point (p.vertices k) s.tr_matrix,
        transform_point (p.vertices (k - 1)) s.tr_matrix,
        transform_point (p.vertices 0) s.tr_matrix))]
    simp
  · intro σ api c
    unfold fill_shape fill_shape_with
    rw [hp]
    have htri : (fun (c : Canvas σ) (p3 p2 p1 : Point) =>
        if color = Color.WHITE then fill_triangle c p3 p2 p1 api.set_white_pixel_unsafe
        else fill_triangle c p3 p2 p1 api.set_black_pixel_unsafe)
        = fun c p3 p2 p1 => fill_triangle c p3 p2 p1
            (if color = Color.WHITE then api.set_white_pixel_unsafe
             else api.set_black_pixel_unsafe) := by
      funext c p3 p2 p1
      cases color <;> simp
    simp only [htri]
    have := fan_loop_eq (fun c p3 p2 p1 => fill_triangle c p3 p2 p1
      (if color = Color.WHITE then api.set_white_pixel_unsafe
       else api.set_black_pixel_unsafe)) p s.tr_matrix (p.next + 1 - 2) 2 c
    simp only [Nat.add_one_sub_one] at this
    rw [this]

/-- Witness of C16: the calls for the scaled sample rectangle with the colour `BLACK`. -/
theorem fill_shape_fan_witness :
    fill_shape_with (record_fill true) (record_fill false) [] Color.BLACK sample_scaled
      = some (1, (List.range' 2 ((rectangle_polygon sample_storage 10 6).next + 1 - 2)).map
          (fun i => (decide (Color.BLACK = Color.WHITE),
            transform_point ((rectangle_polygon sample_storage 10 6).vertices i)
              sample_scaled.tr_matrix,
            transform_point ((rectangle_polygon sample_storage 10 6).vertices (i - 1))
              sample_scaled.tr_matrix,
            transform_point ((rectangle_polygon sample_storage 10 6).vertices 0)
              sample_scaled.tr_matrix)), sample_scaled) :=
  (fill_shape_fan Color.BLACK sample_scaled (rectangle_polygon sample_storage 10 6) rfl).1

/-! ## C17: the per-pixel test decides the pixels of the canvas -/

/-- C17. For every triangle, every canvas size and every pixel `(ix, iy)` of the canvas
(`0 ≤ ix < W`, `0 ≤ iy < H`), `fill_triangle` (with its incremental stepping and its
clipped, block-snapped bounding box) writes the pixel if and only if the three corrected
edge functions `C + DX * (16 * iy) - DY * (16 * ix)` are strictly positive. -/
theorem fill_triangle_in_canvas_iff (W H X1 Y1 X2 Y2 X3 Y3 ix iy : Int)
    (hx0 : 0 ≤ ix) (hx : ix < W) (hy0 : 0 ≤ iy) (hy : iy < H) :
    (ix, iy) ∈ triangle_writes W H X1 Y1 X2 Y2 X3 Y3 ↔
      ((edge_setup X1 Y1 X2 Y2 X3 Y3).C1 + (edge_setup X1 Y1 X2 Y2 X3 Y3).DX12 * (16 * iy)
          - (edge_setup X1 Y1 X2 Y2 X3 Y3).DY12 * (16 * ix) > 0 ∧
        (edge_setup X1 Y1 X2 Y2 X3 Y3).C2 + (edge_setup X1 Y1 X2 Y2 X3 Y3).DX23 * (16 * iy)
          - (edge_setup X1 Y1 X2 Y2 X3 Y3).DY23 * (16 * ix) > 0 ∧
        (edge_setup X1 Y1 X2 Y2 X3 Y3).C3 + (edge_setup X1 Y1 X2 Y2 X3 Y3).DX31 * (16 * iy)
          - (edge_setup X1 Y1 X2 Y2 X3 Y3).DY31 * (16 * ix) > 0) := by
  rw [triangle_writes_eq, mem_tri_pixels_in_canvas W H X1 Y1 X2 Y2 X3 Y3 ix iy hx0 hx hy0 hy]
  rfl

/-- Witness of C17: the pixel `(9, 5)` of the first triangle of the 10×6 rectangle on the
20×20 canvas. -/
theorem fill_triangle_in_canvas_iff_witness :
    (9, 5) ∈ triangle_writes 20 20 160 96 160 0 0 0 ↔
      ((edge_setup 160 96 160 0 0 0).C1 + (edge_setup 160 96 160 0 0 0).DX12 * (16 * 5)
          - (edge_setup 160 96 160 0 0 0).DY12 * (16 * 9) > 0 ∧
        (edge_setup 160 96 160 0 0 0).C2 + (edge_setup 160 96 160 0 0 0).DX23 * (16 * 5)
          - (edge_setup 160 96 160 0 0 0).DY23 * (16 * 9) > 0 ∧
        (edge_setup 160 96 160 0 0 0).C3 + (edge_setup 160 96 160 0 0 0).DX31 * (16 * 5)
          - (edge_setup 160 96 160 0 0 0).DY31 * (16 * 9) > 0) :=
  fill_triangle_in_canvas_iff 20 20 160 96 160 0 0 0 9 5 (by decide) (by decide) (by decide)
    (by decide)

/-! ## C18: the winding of a triangle -/

/-- C18. `fill_triangle` is winding-sensitive: a triangle whose edge constants have
`C1 + C2 + C3 ≤ 0` before the correction gets no pixel, on any canvas; so when a triangle
gets some pixel, the same three vertices passed in reversed order get none. -/
theorem winding_sensitive (W H X1 Y1 X2 Y2 X3 Y3 : Int) :
    (twice_area X1 Y1 X2 Y2 X3 Y3 ≤ 0 → triangle_writes W H X1 Y1 X2 Y2 X3 Y3 = []) ∧
    (triangle_writes W H X1 Y1 X2 Y2 X3 Y3 ≠ [] →
      ∀ W' H' : Int, triangle_writes W' H' X3 Y3 X2 Y2 X1 Y1 = []) := by
  constructor
  · intro h
    rw [triangle_writes_eq, tri_pixels_nil_of_area_nonpos W H X1 Y1 X2 Y2 X3 Y3 h]
  · intro hne W' H'
    rw [triangle_writes_eq] at hne
    obtain ⟨⟨ix, iy⟩, hm⟩ := List.exists_mem_of_ne_nil _ hne
    rw [mem_tri_pixels] at hm
    have hpos := twice_area_pos_of_inside X1 Y1 X2 Y2 X3 Y3 ix iy hm.2.2
    rw [triangle_writes_eq, tri_pixels_nil_of_area_nonpos]
    rw [twice_area_reversed]
    omega

/-- Witness of C18: the first triangle of the 10×6 rectangle gets the pixel `(9, 5)`; in
reversed order its area is negative and it gets nothing. -/
theorem winding_sensitive_witness :
    twice_area 0 0 160 0 160 96 ≤ 0 ∧ triangle_writes 20 20 0 0 160 0 160 96 = [] ∧
    triangle_writes 20 20 160 96 160 0 0 0 ≠ [] ∧
    ∀ W' H' : Int, triangle_writes W' H' 0 0 160 0 160 96 = [] := by
  have hne : triangle_writes 20 20 160 96 160 0 0 0 ≠ [] := by
    have hm : ((9 : Int), (5 : Int)) ∈ triangle_writes 20 20 160 96 160 0 0 0 := by
      rw [triangle_writes_eq, mem_tri_pixels_in_canvas _ _ _ _ _ _ _ _ _ _ (by decide)
        (by decide) (by decide) (by decide)]
      decide
    exact List.ne_nil_of_mem hm
  exact ⟨by decide, (winding_sensitive 20 20 0 0 160 0 160 96).1 (by decide), hne,
    (winding_sensitive 20 20 160 96 160 0 0 0).2 hne⟩

/-! ## C19: the line stays within half a pixel of the segment -/

/-- C19. For all integer endpoints, with `dx = |x2 - x1|` and `dy = |y2 - y1|`, every pixel
`(x, y)` set by `bresenham` satisfies
`2 * |dx * |y - y1| - dy * |x - x1|| ≤ max(dx, dy)`. -/
theorem bresenham_half_pixel (x1 y1 x2 y2 : Int) (fuel : Nat)
    (hf : max |x2 - x1| |y2 - y1| < fuel) :
    ∃ pts, bresenham_with record fuel [] x1 y1 x2 y2 = some pts ∧
      (∀ (σ : Type) (api : CanvasApi σ) (c : Canvas σ) (color : Color),
        bresenham api fuel c color x1 y1 x2 y2
          = some (write_all (fun c x y => api.set_pixel c color x y) c pts)) ∧
      ∀ q ∈ pts, 2 * |(|x2 - x1| * |q.2 - y1| - |y2 - y1| * |q.1 - x1|)|
        ≤ max |x2 - x1| |y2 - y1| := by
  obtain ⟨pts, hp, -, -, hpt⟩ := bresenham_trace x1 y1 x2 y2 fuel hf
  exact ⟨pts, hp, fun σ api c color => bresenham_eq_trace api fuel c color x1 y1 x2 y2 pts hp,
    fun q hq => half_pixel_of_line_point x1 y1 x2 y2 q (hpt q hq)⟩

/-- Witness of C19: the line from `(0, 0)` to `(-7, 3)` with fuel 8. -/
theorem bresenham_half_pixel_witness :
    ∃ pts, bresenham_with record 8 [] 0 0 (-7) 3 = some pts ∧
      (∀ (σ : Type) (api : CanvasApi σ) (c : Canvas σ) (color : Color),
        bresenham api 8 c color 0 0 (-7) 3
          = some (write_all (fun c x y => api.set_pixel c color x y) c pts)) ∧
      ∀ q ∈ pts, 2 * |(|(-7 : Int) - 0| * |q.2 - 0| - |(3 : Int) - 0| * |q.1 - 0|)|
        ≤ max |(-7 : Int) - 0| |(3 : Int) - 0| :=
  bresenham_half_pixel 0 0 (-7) 3 8 (by decide)

/-! ## C20: the line stays in the bounding box of its endpoints -/

/-- C20. For all integer endpoints, every pixel set by `bresenham` lies in the bounding box
of the endpoints, `x` and `y` each move monotonically from the start towards the end, and
if both endpoints are inside a `W × H` canvas so is every pixel set. -/
theorem bresenham_in_box (x1 y1 x2 y2 : Int) (fuel : Nat)
    (hf : max |x2 - x1| |y2 - y1| < fuel) :
    ∃ pts, bresenham_with record fuel [] x1 y1 x2 y2 = some pts ∧
      (∀ (σ : Type) (api : CanvasApi σ) (c : Canvas σ) (color : Color),
        bresenham api fuel c color x1 y1 x2 y2
          = some (write_all (fun c x y => api.set_pixel c color x y) c pts)) ∧
      (∀ q ∈ pts, in_box x1 y1 x2 y2 q) ∧
      List.Chain' (monotone_step x1 y1 x2 y2) pts ∧
      ∀ W H : Int, 0 ≤ x1 → x1 < W → 0 ≤ y1 → y1 < H → 0 ≤ x2 → x2 < W → 0 ≤ y2 → y2 < H →
        ∀ q ∈ pts, 0 ≤ q.1 ∧ q.1 < W ∧ 0 ≤ q.2 ∧ q.2 < H := by
  obtain ⟨pts, hp, -, hch, hpt⟩ := bresenham_trace x1 y1 x2 y2 fuel hf
  refine ⟨pts, hp, fun σ api c color => bresenham_eq_trace api fuel c color x1 y1 x2 y2 pts hp,
    fun q hq => in_box_of_line_point x1 y1 x2 y2 q (hpt q hq), ?_, ?_⟩
  · refine List.Chain'.imp ?_ (List.Chain'.iff_mem.mp hch)
    rintro p q ⟨hp', hq', hs⟩
    exact monotone_of_line_step x1 y1 x2 y2 p q (hpt p hp') (hpt q hq') hs
  · intro W H a1 a2 a3 a4 a5 a6 a7 a8 q hq
    have hb := in_box_of_line_point x1 y1 x2 y2 q (hpt q hq)
    unfold in_box at hb
    omega

/-- Witness of C20: the line from `(2, 9)` to `(8, 1)` with fuel 9, on a 10×10 canvas. -/
theorem bresenham_in_box_witness :
    ∃ pts, bresenham_with record 9 [] 2 9 8 1 = some pts ∧
      (∀ (σ : Type) (api : CanvasApi σ) (c : Canvas σ) (color : Color),
        bresenham api 9 c color 2 9 8 1
          = some (write_all (fun c x y => api.set_pixel c color x y) c pts)) ∧
      (∀ q ∈ pts, in_box 2 9 8 1 q) ∧
      List.Chain' (monotone_step 2 9 8 1) pts ∧
      ∀ q ∈ pts, 0 ≤ q.1 ∧ q.1 < 10 ∧ 0 ≤ q.2 ∧ q.2 < 10 := by
  obtain ⟨pts, h1, h2, h3, h4, h5⟩ := bresenham_in_box 2 9 8 1 9 (by decide)
  exact ⟨pts, h1, h2, h3, h4, h5 10 10 (by decide) (by decide) (by decide) (by decide)
    (by decide) (by decide) (by decide) (by decide)⟩

end Drawille
